import Mathlib

/-!
# PPRC: privacy-preserving range counting

A shallow embedding of the PPRC sources (`SHE.cpp`, `bloomfilter.cpp`,
`client.cpp`, `server.cpp`, `center.cpp`) and theorems about them.

Conventions of the embedding.

* `mpz_class` values are natural numbers: every value that travels on the wire
  is a magnitude (`mpz_import` only produces nonnegative integers) and the
  programs only add and multiply them.
* Random draws are explicit inputs.  `generateRandom` receives the stream of
  64-bit words that `dis(gen)` returns; `generateRandomNumber(1, 100)` and
  `std::shuffle` are represented by the values they return.
* `int` lengths and seeds are natural numbers (they are positive in every call
  the programs make), record coordinates are integers.
-/

namespace PPRC

/-! ## SHE.h / SHE.cpp -/

/-- The class `SecretKey` of `SHE.h`: the fields `p`, `q`, `L`.  The fourth
field `N` is set by the constructor and is the function `SecretKey.N`. -/
structure SecretKey where
  p : Nat
  q : Nat
  L : Nat
deriving DecidableEq, Repr

/-- The constructor `SecretKey::SecretKey`: `this->N = this->p * this->q`. -/
def SecretKey.N (sk : SecretKey) : Nat := sk.p * sk.q

/-- The word loop of `generateRandom`: `r = (r << 64) | word` for the words
`words 0`, ..., `words (n - 1)`, in this order.  `words i` is the value of the
`i`-th call `dis(gen)`, a `uint64_t`. -/
def generateRandom_words (words : Nat → Nat) : Nat → Nat
  | 0 => 0
  | n + 1 => ((generateRandom_words words n) <<< 64) ||| (words n % 2 ^ 64)

/-- The function `generateRandom(k)` of `SHE.cpp`, for the drawn words `words`. -/
def generateRandom (k : Nat) (words : Nat → Nat) : Nat :=
  let num_bits := k
  let num_words := (num_bits + 63) / 64
  let r := generateRandom_words words num_words
  if num_bits % 64 ≠ 0 then
    let mask := (1 <<< (num_bits % 64)) - 1
    r &&& mask
  else r

/-- The arithmetic of `encrypt(m, sk)` in `SHE.cpp`, for the two values `r` and
`r_prime` that its calls `generateRandom(80)` and `generateRandom(4096)`
returned. -/
def encrypt (m : Nat) (sk : SecretKey) (r r_prime : Nat) : Nat :=
  let term1 := r * sk.L + m
  let term2 := 1 + r_prime * sk.p
  (term1 * term2) % sk.N

/-- The function `encrypt(m, sk)` of `SHE.cpp` with its two draws:
`words80` feeds `generateRandom(80)` and `words4096` feeds
`generateRandom(4096)`. -/
def encrypt_drawn (m : Nat) (sk : SecretKey) (words80 words4096 : Nat → Nat) : Nat :=
  encrypt m sk (generateRandom 80 words80) (generateRandom 4096 words4096)

/-- The function `decrypt(c, sk)` of `SHE.cpp`: `(c % sk.p) % sk.L`. -/
def decrypt (c : Nat) (sk : SecretKey) : Nat :=
  (c % sk.p) % sk.L

/-- The key hard-coded in `client.cpp` (`main`, step 2): prime `p`. -/
def ref_p : Nat :=
  24949947668204895169844816279817288492414547819866675629196367227690787470169613155592517331436994431290237129971591491697651840834349620997268980480906268395121128743403076738941611756262701100600337509940012574326308548496255602554176656185505317308069007483713003383893987835829101624859098236400325591893987156914330601585661147623846403075246396332268980092371247871842378726521706210349480430847941451750416021497540541325690672019958068418437982341656155182085983628398491651770170518457520016889488745644657092443571740862417400519834822886322713319302563133379081003649775280137182242840819599772353133239557

/-- The key hard-coded in `client.cpp` (`main`, step 2): prime `q`. -/
def ref_q : Nat :=
  30401921436417668354205981245794155113091168091058229071087431152925431803626330928792844068497024013695732699678103788668903183316410652539558968411166596698165768116382511567468227444150175501098154493466321652465307264846602986567019610415655831314987165648814030266745386487366578358462443364985995001433081076453138689439979466036329516087758824960556630262032790509515668449307078307730020388645543284503552354728956759127646815121604724218822060284548126215374106215799906404988717264919893807269017703078074417505647585091932603554391566511681499329866661086106213929877678227760111895141197486092739671683413

/-- The key hard-coded in `client.cpp` (`main`, step 2): the modulus `L`. -/
def ref_L : Nat := 975861485164544069203193

/-- The `SecretKey sk(p, q, L)` of `client.cpp`. -/
def ref_sk : SecretKey := { p := ref_p, q := ref_q, L := ref_L }

/-- A key for the multiplicative counterexample: `p = 3 * 2^189 + 1` is a Proth
prime, `q = 2^521 - 1` and `L = 2^89 - 1` are Mersenne primes. -/
def proth_sk : SecretKey := { p := 3 * 2 ^ 189 + 1, q := 2 ^ 521 - 1, L := 2 ^ 89 - 1 }

/-- Square-and-multiply, used to check the primality of `proth_sk.p`:
`acc * b ^ e` modulo `p`, reading the bits of `e`. -/
def pow_mod_loop (p : Nat) : Nat → Nat → Nat → Nat → Nat
  | 0, _, _, acc => acc
  | fuel + 1, b, e, acc =>
    if e = 0 then acc
    else pow_mod_loop p fuel (b * b % p) (e / 2) (if e % 2 = 1 then acc * b % p else acc)

/-- The power `a ^ e` modulo `p`. -/
def pow_mod (a e p : Nat) : Nat :=
  pow_mod_loop p e a e 1 % p

/-! ## MurmurHash3 and the hash helpers -/

/-- Rotation to the left of a 32-bit word (`ROTL32`). -/
def rotl32 (x r : Nat) : Nat :=
  ((x <<< r) ||| (x >>> (32 - r))) % 2 ^ 32

/-- The finalization mix `fmix32` of MurmurHash3. -/
def fmix32 (h : Nat) : Nat :=
  let h := h ^^^ (h >>> 16)
  let h := (h * 0x85ebca6b) % 2 ^ 32
  let h := h ^^^ (h >>> 13)
  let h := (h * 0xc2b2ae35) % 2 ^ 32
  h ^^^ (h >>> 16)

/-- The scrambling of one 32-bit block `k1` of MurmurHash3:
`k1 *= c1; k1 = ROTL32(k1, 15); k1 *= c2`. -/
def murmur_scramble (k1 : Nat) : Nat :=
  let k1 := (k1 * 0xcc9e2d51) % 2 ^ 32
  let k1 := rotl32 k1 15
  (k1 * 0x1b873593) % 2 ^ 32

/-- The body and the tail of MurmurHash3: the key is consumed in little-endian
blocks of four bytes, the last one to three bytes are folded in without the
rotation of `h1`. -/
def murmur_blocks (h1 : Nat) : List Nat → Nat
  | b0 :: b1 :: b2 :: b3 :: rest =>
    let k1 := b0 ||| (b1 <<< 8) ||| (b2 <<< 16) ||| (b3 <<< 24)
    let h1 := h1 ^^^ murmur_scramble k1
    let h1 := rotl32 h1 13
    let h1 := (h1 * 5 + 0xe6546b64) % 2 ^ 32
    murmur_blocks h1 rest
  | [b0, b1, b2] => h1 ^^^ murmur_scramble ((b2 <<< 16) ^^^ (b1 <<< 8) ^^^ b0)
  | [b0, b1] => h1 ^^^ murmur_scramble ((b1 <<< 8) ^^^ b0)
  | [b0] => h1 ^^^ murmur_scramble b0
  | [] => h1

/-- Modelled from the spec: `MurmurHash3_x86_32(key, len, seed, out)`, declared in
`MurmurHash3.h`, which is not among the sources.  The spec names the algorithm
("MurmurHash3 x86 32-bit with the provided 32-bit seed"); this is its published
definition, on a key given as a list of bytes. -/
def MurmurHash3_x86_32 (key : List Nat) (seed : Nat) : Nat :=
  fmix32 (murmur_blocks (seed % 2 ^ 32) key ^^^ (key.length % 2 ^ 32))

/-- The decimal digits of `n` as ASCII codes, most significant first, pushed in
front of `acc`; `fuel` bounds the number of digits. -/
def decimal_digits : Nat → Nat → List Nat → List Nat
  | 0, _, acc => acc
  | fuel + 1, n, acc =>
    if n < 10 then (48 + n) :: acc
    else decimal_digits fuel (n / 10) ((48 + n % 10) :: acc)

/-- The bytes of `std::to_string(x)` for an `int` `x`: an optional minus sign
(ASCII 45) and the decimal digits. -/
def to_string (x : Int) : List Nat :=
  if x < 0 then 45 :: decimal_digits (x.natAbs + 1) x.natAbs []
  else decimal_digits (x.natAbs + 1) x.natAbs []

/-- The function `hashr(data, length, seed)` of `server.cpp` (`client.cpp`
holds a second copy, `client_hashr`): MurmurHash3 of the key `data|length`,
reduced modulo `length` (ASCII 124 is the separator). -/
def hashr (data : Int) (length seed : Nat) : Nat :=
  let key := to_string data ++ [124] ++ to_string (length : Int)
  MurmurHash3_x86_32 key seed % length

/-- The function `hasht(data_1, data_2, length, seed)` of `server.cpp`:
MurmurHash3 of the key `data_1|data_2|length`, reduced modulo `length`. -/
def hasht (data_1 data_2 : Int) (length seed : Nat) : Nat :=
  let key := to_string data_1 ++ [124] ++ to_string data_2 ++ [124] ++ to_string (length : Int)
  MurmurHash3_x86_32 key seed % length

/-! ## bloomfilter.h / bloomfilter.cpp -/

/-- The struct `BloomFilter` of `bloomfilter.h`; `bits` is the `int` array of
`size` entries. -/
structure BloomFilter where
  bits : List Nat
  size : Nat
  hash_count : Nat
deriving DecidableEq, Repr

/-- The function `hash_result(data_id, length, seed)` of `bloomfilter.cpp`; the
`double` it returns holds the integer `hash_output % length` exactly. -/
def hash_result (data_id : Int) (length seed : Nat) : Nat :=
  let key := to_string data_id ++ [124] ++ to_string (length : Int)
  MurmurHash3_x86_32 key seed % length

/-- The allocation part of `create_bloom_filter`: a zeroed array of `size`
entries and `hash_count = 7`.  The argument `size` is the value the
floating-point sizing expression of `create_bloom_filter` evaluates to. -/
def create_bloom_filter_sized (size : Nat) : BloomFilter :=
  { bits := List.replicate size 0, size := size, hash_count := 7 }

/-- The loop of `bloom_filter_insert`, from seed `i`, for `n` more rounds. -/
def bloom_filter_insert_loop (size : Nat) (data_id : Int) : Nat → Nat → List Nat → List Nat
  | 0, _, bits => bits
  | n + 1, i, bits =>
    let bit_index := hash_result data_id size i
    bloom_filter_insert_loop size data_id n (i + 1) (bits.set bit_index 1)

/-- The function `bloom_filter_insert(bf, data_id)` of `bloomfilter.cpp`. -/
def bloom_filter_insert (bf : BloomFilter) (data_id : Int) : BloomFilter :=
  { bf with bits := bloom_filter_insert_loop bf.size data_id bf.hash_count 0 bf.bits }

/-- The loop of `bloom_filter_contains`, from seed `i`, for `n` more rounds,
with its early `return false`. -/
def bloom_filter_contains_loop (bf : BloomFilter) (data_id : Int) : Nat → Nat → Bool
  | 0, _ => true
  | n + 1, i =>
    let bit_index := hash_result data_id bf.size i
    if bf.bits.getD bit_index 0 = 0 then false
    else bloom_filter_contains_loop bf data_id n (i + 1)

/-- The function `bloom_filter_contains(bf, data_id)` of `bloomfilter.cpp`. -/
def bloom_filter_contains (bf : BloomFilter) (data_id : Int) : Bool :=
  bloom_filter_contains_loop bf data_id bf.hash_count 0

/-! ## The wire codec (`client.cpp`, `server.cpp`, `center.cpp`) -/

/-- The four bytes of a `uint32_t` in memory, least significant first (the byte
order of the hosts the programs run on); the argument is first narrowed to 32
bits as `static_cast<uint32_t>` does. -/
def le32 (x : Nat) : List Nat :=
  let x := x % 2 ^ 32
  [x % 256, (x / 2 ^ 8) % 256, (x / 2 ^ 16) % 256, (x / 2 ^ 24) % 256]

/-- The bytes of `num`, most significant first, in front of `acc`. -/
def mpz_export_loop : Nat → Nat → List Nat → List Nat
  | 0, _, acc => acc
  | fuel + 1, num, acc =>
    if num = 0 then acc else mpz_export_loop fuel (num / 256) ((num % 256) :: acc)

/-- The call `mpz_export(nullptr, &count, 1, 1, 1, 0, num)`: the magnitude of
`num` in bytes, most significant byte first, without leading zero bytes; zero
gives no byte.  `count` is the length of the result. -/
def mpz_export (num : Nat) : List Nat :=
  mpz_export_loop num num []

/-- The call `mpz_import(num, len, 1, 1, 1, 0, data)`: the number whose
big-endian bytes are `data`. -/
def mpz_import (data : List Nat) : Nat :=
  data.foldl (fun acc b => acc * 256 + b) 0

/-- One round of the loop of `send_multiple_mpz_class`: the bytes appended to
`buffer` for `num`, a 4-byte length and `len` bytes of the exported magnitude. -/
def send_record (num : Nat) : List Nat :=
  let bin := mpz_export num
  let count := bin.length
  let len := count % 2 ^ 32
  le32 len ++ bin.take len

/-- The `buffer` that `send_multiple_mpz_class` builds from `numbers`. -/
def send_buffer (numbers : List Nat) : List Nat :=
  numbers.foldl (fun buffer num => buffer ++ send_record num) []

/-- The function `send_multiple_mpz_class(socket, numbers)`: the bytes written
to the socket, `total_length` and then the buffer. -/
def send_multiple_mpz_class (numbers : List Nat) : List Nat :=
  let buffer := send_buffer numbers
  let total_length := buffer.length % 2 ^ 32
  le32 total_length ++ buffer

/-- The byte at `buffer.data() + i`.  Inside the buffer it is `buffer[i]`.  The
programs do not check the bound; a read past the end is undefined behaviour in
the code.  The parameter `beyond` only makes the function total: a statement
for every `beyond` does not depend on such a read, and `receive_checked` tells
whether a run of the decoder stays inside its buffer. -/
def read_byte (buffer : List Nat) (beyond : Nat → Nat) (i : Nat) : Nat :=
  buffer.getD i (beyond i % 256)

/-- The `std::memcpy(&len, buffer.data() + offset, sizeof(len))` of the receive
loop: a `uint32_t` read from four bytes, least significant first. -/
def read_u32 (buffer : List Nat) (beyond : Nat → Nat) (offset : Nat) : Nat :=
  read_byte buffer beyond offset + 2 ^ 8 * read_byte buffer beyond (offset + 1)
    + 2 ^ 16 * read_byte buffer beyond (offset + 2)
    + 2 ^ 24 * read_byte buffer beyond (offset + 3)

/-- The `len` bytes starting at `buffer.data() + offset`. -/
def read_bytes (buffer : List Nat) (beyond : Nat → Nat) (offset len : Nat) : List Nat :=
  (List.range len).map (fun i => read_byte buffer beyond (offset + i))

/-- The `while (offset < buffer.size())` loop of `receive_multiple_mpz_class`.
Every round advances `offset` by at least 4, so `buffer.size()` rounds of
`fuel` are never used up. -/
def receive_loop (buffer : List Nat) (beyond : Nat → Nat) :
    Nat → Nat → List Nat → List Nat
  | 0, _, numbers => numbers
  | fuel + 1, offset, numbers =>
    if offset < buffer.length then
      let len := read_u32 buffer beyond offset
      let offset := offset + 4
      let num := mpz_import (read_bytes buffer beyond offset len)
      receive_loop buffer beyond fuel (offset + len) (numbers ++ [num])
    else numbers

/-- The function `receive_multiple_mpz_class(socket)` on the bytes `stream` that
the socket delivers before it is closed.  `boost::asio::read` throws when the
stream ends before the requested bytes have arrived: the result is `none`. -/
def receive_multiple_mpz_class (stream : List Nat) (beyond : Nat → Nat) :
    Option (List Nat) :=
  if stream.length < 4 then none
  else
    let total_length := read_u32 (stream.take 4) beyond 0
    let rest := stream.drop 4
    if rest.length < total_length then none
    else
      let buffer := rest.take total_length
      some (receive_loop buffer beyond buffer.length 0 [])

/-! ## The client: query construction (`client.cpp`, steps 1 - 3) -/

/-- The loop `for (int i = a; i < b; i++) range.push_back(i)` of the client. -/
def range_values (a b : Int) : List Int :=
  (List.range (b - a).toNat).map (fun (i : Nat) => a + (i : Int))

/-- The filter the client builds for the range `[a, b)`: the values are inserted
in increasing order into a fresh filter.  `size` is the size that
`create_bloom_filter(range.size(), 0.0001)` computes. -/
def client_filter (size : Nat) (a b : Int) : BloomFilter :=
  (range_values a b).foldl bloom_filter_insert (create_bloom_filter_sized size)

/-- The vector `send_mpz_vector` of the client, for an encryption procedure
`enc`: `enc k m` is the result of the `k`-th call of `encrypt`, on plaintext
`m`.  Layout: the bits of `bfx`, the bits of `bfy`, two encryptions of `0`, and
the public modulus `N`. -/
def client_query_with (enc : Nat → Nat → Nat) (N : Nat) (bfx bfy : BloomFilter) : List Nat :=
  (List.range bfx.size).map (fun i => enc i (bfx.bits.getD i 0))
    ++ (List.range bfy.size).map (fun i => enc (bfx.size + i) (bfy.bits.getD i 0))
    ++ [enc (bfx.size + bfy.size) 0, enc (bfx.size + bfy.size + 1) 0, N]

/-- The vector `send_mpz_vector` of `client.cpp`: every entry but the last is
produced by `encrypt` under `sk`; the `k`-th call draws the words `words80 k`
for `generateRandom(80)` and `words4096 k` for `generateRandom(4096)`. -/
def client_query (sk : SecretKey) (bfx bfy : BloomFilter)
    (words80 words4096 : Nat → Nat → Nat) : List Nat :=
  client_query_with (fun k m => encrypt_drawn m sk (words80 k) (words4096 k)) sk.N bfx bfy

/-! ## The data holder (`server.cpp`) -/

/-- The protocol parameters of `server.cpp` (`main`). -/
structure HolderParams where
  hash_count : Nat
  lc_length : Nat
  server_number : Nat
  data_size_per_provider : Nat
deriving DecidableEq, Repr

/-- The values of the parameters in `server.cpp`: `hash_count = 7`,
`lc_length = 2 * 1024`, `server_number = 4`,
`data_size_per_provider = int(21900 * 0.1) = 2190`. -/
def server_params : HolderParams :=
  { hash_count := 7, lc_length := 2 * 1024, server_number := 4, data_size_per_provider := 2190 }

/-- The `total_data_size` of `server.cpp`. -/
def HolderParams.total_data_size (P : HolderParams) : Nat :=
  P.data_size_per_provider * P.server_number

/-- The synthetic data of `server.cpp` (step 2): record `p * data_size_per_provider + i`
has both coordinates equal to `i + p`. -/
def generated_data (P : HolderParams) : List Int :=
  (List.range P.server_number).foldl
    (fun (arr : List Int) (p : Nat) => (List.range P.data_size_per_provider).foldl
      (fun (arr : List Int) (i : Nat) =>
        arr.set (p * P.data_size_per_provider + i) ((i : Int) + (p : Int))) arr)
    (List.replicate P.total_data_size 0)

/-- The `bf_length = (query_from_client.size() - 3) / 2` of the holder, in the
unsigned 64-bit arithmetic of `size_t`.  The result is stored in an `int`: for
sizes from 3 to `2^32 + 2` it is this number; for sizes below 3 the `int` is
negative and for larger sizes it does not fit, and the holder has no defined
behaviour then (`holder_defined`). -/
def bf_length_of (query_size : Nat) : Nat :=
  ((query_size + 2 ^ 64 - 3) % 2 ^ 64) / 2

/-- The inner loop over `j` of step 4: the pair `(sign_1, sign_2)` after
`hash_count` rounds, for the record `(x, y)`. -/
def sign_loop (query : List Nat) (bf_length pk_N : Nat) (x y : Int) (hash_count : Nat) :
    Nat × Nat :=
  (List.range hash_count).foldl
    (fun s j =>
      let index1 := hashr x bf_length j
      let index2 := hashr y bf_length j
      ((s.1 * query.getD index1 0) % pk_N, (s.2 * query.getD (index2 + bf_length) 0) % pk_N))
    (1, 1)

/-- The value pushed on `sign_list` for the record `(x, y)`: `sign_1 * sign_2`. -/
def holder_sign (query : List Nat) (bf_length pk_N : Nat) (x y : Int) (hash_count : Nat) : Nat :=
  let s := sign_loop query bf_length pk_N x y hash_count
  s.1 * s.2

/-- The vector `sign_list` of step 4.  `arr1` and `arr2` are the coordinate
arrays (entries that a shorter list does not give are `0`, the initial value
of the arrays). -/
def sign_list (P : HolderParams) (arr1 arr2 : List Int) (query : List Nat) : List Nat :=
  let bf_length := bf_length_of query.length
  let pk_N := query.getLastD 0
  (List.range P.total_data_size).map
    (fun i => holder_sign query bf_length pk_N (arr1.getD i 0) (arr2.getD i 0) P.hash_count)

/-- The first inner loop of step 5 for provider `p`: every bucket of its sketch
is set to `u * E_0_1 + v * E_0_2`, where `u p i` and `v p i` are the two values
`generateRandomNumber(1, 100)` returns for bucket `i`. -/
def init_sketch (P : HolderParams) (E_0_1 E_0_2 : Nat) (u v : Nat → Nat → Nat) (p : Nat)
    (sketch : List Nat) : List Nat :=
  (List.range P.lc_length).foldl
    (fun s i => s.set (i + p * P.lc_length) (u p i * E_0_1 + v p i * E_0_2)) sketch

/-- The second inner loop of step 5 for provider `p`: the sign of each of its
records is added to the bucket the record hashes to. -/
def add_signs (P : HolderParams) (arr1 arr2 : List Int) (signs : List Nat) (p : Nat)
    (sketch : List Nat) : List Nat :=
  (List.range P.data_size_per_provider).foldl
    (fun s i =>
      let data_index := p * P.data_size_per_provider + i
      let lc_index := hasht (arr1.getD data_index 0) (arr2.getD data_index 0) P.lc_length 0
      s.set (lc_index + p * P.lc_length)
        (s.getD (lc_index + p * P.lc_length) 0 + signs.getD data_index 0))
    sketch

/-- The vector `lc_sketch_combined` that the holder sends back (steps 4 and 5). -/
def lc_sketch_combined (P : HolderParams) (arr1 arr2 : List Int) (query : List Nat)
    (u v : Nat → Nat → Nat) : List Nat :=
  let signs := sign_list P arr1 arr2 query
  let E_0_1 := query.getD (query.length - 3) 0
  let E_0_2 := query.getD (query.length - 2) 0
  (List.range P.server_number).foldl
    (fun s p => add_signs P arr1 arr2 signs p (init_sketch P E_0_1 E_0_2 u v p s))
    (List.replicate (P.lc_length * P.server_number) 0)

/-! ## The aggregator (`center.cpp`) -/

/-- Step 3a of `center.cpp`: `lc_sketch_agg[i]` is the sum over `j` of
`lc_sketches_holder[i + j * lc_length]`, with
`lc_length = lc_sketches_holder.size() / server_number`. -/
def lc_sketch_agg (server_number : Nat) (lc_sketches_holder : List Nat) : List Nat :=
  let lc_length := lc_sketches_holder.length / server_number
  (List.range lc_length).map
    (fun i => (List.range server_number).foldl
      (fun acc j => acc + lc_sketches_holder.getD (i + j * lc_length) 0) 0)

/-- Step 3b of `center.cpp`, blinding: entry `t` is multiplied by `r t`, the
`t`-th value that `generateRandomNumber(1, 100)` returns. -/
def private_lc_sketch (agg : List Nat) (r : Nat → Nat) : List Nat :=
  agg.mapIdx (fun t mpz => mpz * r t)

/-- The effect of `std::shuffle(first, last, gen)`: position `k` of the result
holds the element that was at index `order[k]`; `order` is the permutation of
the indices that the generator selects. -/
def shuffle (xs : List Nat) (order : List Nat) : List Nat :=
  order.map (fun i => xs.getD i 0)

/-- Steps 3a - 3b of `center.cpp` and the vector sent to the client; `none` is
the early `return 1` taken when the size is not divisible by `server_number`. -/
def center_response (server_number : Nat) (lc_sketches_holder : List Nat) (r : Nat → Nat)
    (order : List Nat) : Option (List Nat) :=
  if lc_sketches_holder.length % server_number ≠ 0 then none
  else some (shuffle (private_lc_sketch (lc_sketch_agg server_number lc_sketches_holder) r) order)

/-! ## The client: decryption and zero count (`client.cpp`, step 5) -/

/-- The count `zero_bits_count` of the client: the number of received values
that `dec` maps to `0`. -/
def zero_bits_count (dec : Nat → Nat) (received : List Nat) : Nat :=
  (received.map dec).countP (fun x => x == 0)

/-! ## Reference notions for the sketch claims -/

/-- Spec side: all `2 * hash_count` Bloom-filter bits that the record `(x, y)`
addresses are `1`. -/
def spec_addressed_bits_set (hash_count : Nat) (bfx bfy : BloomFilter) (x y : Int) : Bool :=
  (List.range hash_count).all
    (fun j => bfx.bits.getD (hashr x bfx.size j) 0 == 1 && bfy.bits.getD (hashr y bfy.size j) 0 == 1)

/-- Spec side: some record of some provider addresses only set bits and hashes
to bucket `t`. -/
def spec_bucket_touched (P : HolderParams) (bfx bfy : BloomFilter) (arr1 arr2 : List Int)
    (t : Nat) : Bool :=
  (List.range P.server_number).any (fun p =>
    (List.range P.data_size_per_provider).any (fun i =>
      let k := p * P.data_size_per_provider + i
      hasht (arr1.getD k 0) (arr2.getD k 0) P.lc_length 0 == t
        && spec_addressed_bits_set P.hash_count bfx bfy (arr1.getD k 0) (arr2.getD k 0)))

/-- Spec side: the number of buckets that no such record touches. -/
def spec_untouched_buckets (P : HolderParams) (bfx bfy : BloomFilter) (arr1 arr2 : List Int) :
    Nat :=
  (List.range P.lc_length).countP (fun t => !spec_bucket_touched P bfx bfy arr1 arr2 t)

/-- Spec side: the number of buckets to which no record of the true in-range
set `{(x, y) : a <= x < b, c <= y < d}` hashes, the zero count of the plaintext
Linear-Counting sketch of that set. -/
def spec_plain_zero_count (P : HolderParams) (a b c d : Int) (arr1 arr2 : List Int) : Nat :=
  (List.range P.lc_length).countP (fun t =>
    !(List.range P.total_data_size).any (fun k =>
      decide (a ≤ arr1.getD k 0 ∧ arr1.getD k 0 < b ∧ c ≤ arr2.getD k 0 ∧ arr2.getD k 0 < d)
        && hasht (arr1.getD k 0) (arr2.getD k 0) P.lc_length 0 == t))

/-! ## Closed forms used in the proofs -/

/-- Closed form of the product a record `(x, y)` accumulates: the entries `val`
of the query at the `hash_count` indices of `x` and at those of `y` shifted by
`bf_length`. -/
def sign_closed_form (val : Nat → Nat) (bf_length : Nat) (x y : Int) (hash_count : Nat) : Nat :=
  ((List.range hash_count).map (fun j => val (hashr x bf_length j))).prod
    * ((List.range hash_count).map (fun j => val (hashr y bf_length j + bf_length))).prod

/-- Closed form of bucket `t` of provider `p`: the blinded zero plus the signs
`sgn k` of the records `k` of `p` that hash to `t`. -/
def bucket_closed_form (P : HolderParams) (arr1 arr2 : List Int) (E1 E2 : Nat)
    (u v : Nat → Nat → Nat) (sgn : Nat → Nat) (p t : Nat) : Nat :=
  u p t * E1 + v p t * E2
    + ((List.range P.data_size_per_provider).map (fun i =>
        if hasht (arr1.getD (p * P.data_size_per_provider + i) 0)
            (arr2.getD (p * P.data_size_per_provider + i) 0) P.lc_length 0 = t
        then sgn (p * P.data_size_per_provider + i) else 0)).sum

/-- Closed form of entry `t` of the blinded sum of the aggregator. -/
def blinded_closed_form (P : HolderParams) (arr1 arr2 : List Int) (E1 E2 : Nat)
    (u v : Nat → Nat → Nat) (r : Nat → Nat) (sgn : Nat → Nat) (t : Nat) : Nat :=
  ((List.range P.server_number).map
    (fun p => bucket_closed_form P arr1 arr2 E1 E2 u v sgn p t)).sum * r t

/-- The plaintext a query built by `client_query_with` carries at index `i`,
when both filters have size `m`. -/
def query_bit (bfx bfy : BloomFilter) (m i : Nat) : Nat :=
  if i < m then bfx.bits.getD i 0 else bfy.bits.getD (i - m) 0

/-- A data set for the transparency counterexample: 8760 records `(8612, 8612)`
(the same list serves as `arr1` and `arr2`). -/
def false_positive_data : List Int := List.replicate 8760 8612

/-! ## The client: the estimate (`client.cpp`, step 5) -/

/-- The `estimated_count` of the client.  `floor_log lc_length zero_bits_count`
stands for the `int` that the floating-point expression
`std::floor(-lc_length * log(zero_bits_count / static_cast<double>(lc_length)))`
evaluates to; `client_floor_log` gives this value in double arithmetic. -/
def estimated_count (floor_log : Nat → Nat → Int) (dec : Nat → Nat) (received : List Nat) :
    Int :=
  let zero_bits_count := zero_bits_count dec received
  let lc_length := received.length
  if zero_bits_count > 0 then floor_log lc_length zero_bits_count
  else (lc_length : Int)

/-! ## The sizing of the Bloom filter (`bloomfilter.cpp`) -/

/-- The value of a 32-bit `int` whose mathematical value is `z`: two's
complement wrap-around.  For `z` in `[-2^31, 2^31)` it is `z`; outside, signed
overflow is undefined in C++ and the model takes what the machine computes. -/
def wrap_int (z : Int) : Int :=
  (z + 2 ^ 31) % 2 ^ 32 - 2 ^ 31

/-- The conversion `(int)d` of a finite `double` `d` (a rational number) to a
32-bit `int`: truncation toward zero when the truncated value lies in
`[-2^31, 2^31)`.  Outside this range the conversion is undefined in C++; the
model takes `-2^31`, the value the x86 conversion delivers. -/
def double_to_int (d : ℚ) : Int :=
  let t : Int := if 0 ≤ d then ⌊d⌋ else ⌈d⌉
  if -2 ^ 31 ≤ t ∧ t < 2 ^ 31 then t else -2 ^ 31

/-- The `size` that `create_bloom_filter` computes, as a function of the value
`d` of the floating-point expression
`-expected_elements * log(false_positive_rate) / (log(2) * log(2))`:
`size = (int)d`, then `size = (size + 7) / 8 * 8` in 32-bit `int` arithmetic
(the division truncates toward zero). -/
def create_bloom_filter_size (d : ℚ) : Int :=
  let size := double_to_int d
  Int.tdiv (wrap_int (size + 7)) 8 * 8

/-- The function `create_bloom_filter` of `bloomfilter.cpp`, for the value `d`
of its floating-point sizing expression.  `alloc_ok` tells whether `malloc`
and `calloc` succeed; a negative `size` makes `calloc` fail.  There is no
other way to return `NULL` (`none`). -/
def create_bloom_filter (d : ℚ) (alloc_ok : Bool) : Option BloomFilter :=
  let size := create_bloom_filter_size d
  if alloc_ok && decide (0 ≤ size) then some (create_bloom_filter_sized size.toNat)
  else none

/-- A toy query for the reduction counterexample: filters of one bit, both
entries `14`, two zeros and the modulus `15`. -/
def toy_query : List Nat := [14, 14, 0, 0, 15]

/-- A holder response for the shuffle counterexample, for a sketch length of 2
and four providers: bucket 0 of the first provider holds an encryption of `1`,
all other entries are encryptions of `0` (key of `client.cpp`). -/
def sample_response : List Nat :=
  [encrypt 1 ref_sk 5 7, encrypt 0 ref_sk 6 8, encrypt 0 ref_sk 1 2, encrypt 0 ref_sk 3 4,
   encrypt 0 ref_sk 9 1, encrypt 0 ref_sk 2 2, encrypt 0 ref_sk 7 7, encrypt 0 ref_sk 4 0]

/-! ## The copy of `hashr` in `client.cpp` -/

/-- The function `hashr(data_id, length, seed)` of `client.cpp`: the key is
`std::to_string(data_id) + "|" + std::to_string(length)`, the result
`hash_result % length`. -/
def client_hashr (data_id : Int) (length seed : Nat) : Nat :=
  let key := to_string data_id ++ [124] ++ to_string (length : Int)
  MurmurHash3_x86_32 key seed % length

/-! ## Inputs of the wire codec claims -/

/-- The interop vector of the spec (scenario S6). -/
def interop_vector : List Nat := [0, 1, 255, 256, 2 ^ 256 - 1]

/-- The number `256 ^ k`, whose magnitude has `k + 1` bytes. -/
def power_of_256 (k : Nat) : Nat := 256 ^ k

/-! ## The holder's session (`server.cpp`, steps 3 - 5) -/

/-- How the holder's `main` ends once the query has been received: the sketch
vector is sent, or the run has no defined behaviour (an index outside a vector,
a remainder by zero) and the process dies without sending anything.  Between
the receive and the send `main` has no test of the query and no `throw`, so its
exception handler, the only place that reports an error, is not reached. -/
inductive HolderOutcome where
  | sent (sketch : List Nat) : HolderOutcome
  | fault : HolderOutcome
deriving DecidableEq, Repr

/-- Whether steps 4 and 5 of `server.cpp` are defined for the received query.
The accesses `back()`, `[size - 3]` and `[size - 2]` need 3 elements and
`bf_length` must fit its `int`; when the loop over the records runs
(`total_data_size > 0`, `hash_count > 0`), `hashr` takes a remainder by
`bf_length`, which must not be 0 (5 elements), the indices `index1` and
`index2 + bf_length` are then inside the query, and `% pk_N` needs `pk_N != 0`;
`hasht` takes a remainder by `lc_length`. -/
def holder_defined (P : HolderParams) (query : List Nat) : Bool :=
  decide (3 ≤ query.length ∧ query.length < 2 ^ 32 + 3)
    && (P.total_data_size == 0 || P.hash_count == 0
        || (decide (5 ≤ query.length) && query.getLastD 0 != 0))
    && (P.total_data_size == 0 || P.lc_length != 0)

/-- What the holder does with a received query (steps 2 to 5 of `server.cpp`):
it generates its data and, when the run is defined, sends the vector
`lc_sketch_combined`. -/
def server_response (P : HolderParams) (query : List Nat) (u v : Nat → Nat → Nat) :
    HolderOutcome :=
  if holder_defined P query then
    HolderOutcome.sent (lc_sketch_combined P (generated_data P) (generated_data P) query u v)
  else HolderOutcome.fault

/-! ## The decoder with its bounds (`receive_multiple_mpz_class`) -/

/-- How a call of `receive_multiple_mpz_class` ends: it returns the numbers,
`boost::asio::read` throws because the stream ends early (`stream_error`), or
`memcpy` or `mpz_import` reads past the end of `buffer` (`out_of_bounds`),
which is undefined behaviour. -/
inductive DecoderOutcome where
  | numbers (v : List Nat) : DecoderOutcome
  | stream_error : DecoderOutcome
  | out_of_bounds : DecoderOutcome
deriving DecidableEq, Repr

/-- The `while (offset < buffer.size())` loop of `receive_multiple_mpz_class`
with the bounds of its reads: `memcpy` reads the 4 bytes from `offset`,
`mpz_import` the `len` bytes after them.  The code makes neither test. -/
def receive_loop_checked (buffer : List Nat) : Nat → Nat → List Nat → DecoderOutcome
  | 0, _, numbers => DecoderOutcome.numbers numbers
  | fuel + 1, offset, numbers =>
    if offset < buffer.length then
      if buffer.length < offset + 4 then DecoderOutcome.out_of_bounds
      else
        let len := read_u32 buffer (fun _ => 0) offset
        let offset := offset + 4
        if buffer.length < offset + len then DecoderOutcome.out_of_bounds
        else
          let num := mpz_import (read_bytes buffer (fun _ => 0) offset len)
          receive_loop_checked buffer fuel (offset + len) (numbers ++ [num])
    else DecoderOutcome.numbers numbers

/-- The function `receive_multiple_mpz_class(socket)` on the bytes `stream`,
with the bounds of its reads. -/
def receive_checked (stream : List Nat) : DecoderOutcome :=
  if stream.length < 4 then DecoderOutcome.stream_error
  else
    let total_length := read_u32 (stream.take 4) (fun _ => 0) 0
    let rest := stream.drop 4
    if rest.length < total_length then DecoderOutcome.stream_error
    else
      let buffer := rest.take total_length
      receive_loop_checked buffer buffer.length 0 []

/-- A stream whose frame announces 3 payload bytes `01 02 03`: too few for one
record header. -/
def short_header_stream : List Nat := [3, 0, 0, 0, 1, 2, 3, 4]

/-- A query of six elements, so that its length minus 3 is odd. -/
def odd_query : List Nat := [1, 1, 1, 0, 0, 15]

/-- A stream whose frame announces 5 payload bytes, the payload being one
record header that announces 5 bytes of body followed by a single byte. -/
def truncated_record_stream : List Nat := [5, 0, 0, 0, 5, 0, 0, 0, 1]

/-! ## One record of the second inner loop of step 5 -/

/-- The body of the second inner loop of step 5 (`server.cpp`) for record `i`
of provider `p`:
`lc_sketch_combined[lc_index + p * lc_length] += sign_list[data_index]`. -/
def add_sign_record (P : HolderParams) (arr1 arr2 : List Int) (signs : List Nat) (p i : Nat)
    (sketch : List Nat) : List Nat :=
  let data_index := p * P.data_size_per_provider + i
  let lc_index := hasht (arr1.getD data_index 0) (arr2.getD data_index 0) P.lc_length 0
  sketch.set (lc_index + p * P.lc_length)
    (sketch.getD (lc_index + p * P.lc_length) 0 + signs.getD data_index 0)

/-! ## The reference scenario -/

/-- The literal that `client.cpp` prints after "The true range count is: ". -/
def printed_true_count : Nat := 100

/-- Spec side: the number of distinct records `(arr1[k], arr2[k])`, `k < n`,
that lie in the range `[a, b) x [c, d)`. -/
def spec_true_range_count (a b c d : Int) (arr1 arr2 : List Int) (n : Nat) : Nat :=
  (((List.range n).map (fun k => (arr1.getD k 0, arr2.getD k 0))).filter
    (fun r => decide (a ≤ r.1 ∧ r.1 < b ∧ c ≤ r.2 ∧ r.2 < d))).dedup.length

/-! ## The hash keys (`server.cpp`, `linearcounting.cpp`) -/

/-- The `key` of `hasht` in `server.cpp`:
`std::to_string(data_1) + "|" + std::to_string(data_2) + "|" + std::to_string(length)`. -/
def hasht_key (data_1 data_2 length : Int) : List Nat :=
  to_string data_1 ++ [124] ++ to_string data_2 ++ [124] ++ to_string length

/-- The class `LinearCounting` of `linearcounting.h`: the array `bits` and its
`size`. -/
structure LinearCounting where
  bits : List Nat
  size : Nat
deriving DecidableEq, Repr

/-- The `key` of `LinearCounting::insert`:
`std::to_string(x) + "|" + std::to_string(y)`. -/
def LinearCounting.insert_key (x y : Int) : List Nat :=
  to_string x ++ [124] ++ to_string y

/-- The method `LinearCounting::insert(seed, x, y)`: the bit at
`hash_result % size` is set to 1. -/
def LinearCounting.insert (self : LinearCounting) (seed : Nat) (x y : Int) : LinearCounting :=
  let hash_result := MurmurHash3_x86_32 (LinearCounting.insert_key x y) seed
  let bit_index := hash_result % self.size
  { self with bits := self.bits.set bit_index 1 }

/-! ## The double arithmetic of the estimate (`client.cpp`, step 5) -/

/-- Reduction modulo `N = p * q` is invisible modulo `p`. -/
theorem mod_N_mod_p (x : Nat) (sk : SecretKey) : (x % sk.N) % sk.p = x % sk.p := by
  unfold SecretKey.N
  exact Nat.mod_mul_right_mod x sk.p sk.q

/-- Modulo `p` the factor `1 + r' * p` of a fresh ciphertext disappears. -/
theorem encrypt_mod_p (m : Nat) (sk : SecretKey) (r r' : Nat) :
    encrypt m sk r r' % sk.p = (r * sk.L + m) % sk.p := by
  unfold encrypt
  simp only [mod_N_mod_p]
  have h : (r * sk.L + m) * (1 + r' * sk.p) = (r * sk.L + m) + sk.p * ((r * sk.L + m) * r') := by
    ring
  rw [h, Nat.add_mul_mod_self_left]

/-- The noise term of a fresh ciphertext is below `2 ^ k * L` when `r < 2 ^ k`. -/
theorem noise_term_lt (L m r k : Nat) (hm : m < L) (hr : r < 2 ^ k) :
    r * L + m < 2 ^ k * L := by
  have h1 : (r + 1) * L ≤ 2 ^ k * L := Nat.mul_le_mul_right L hr
  have h2 : (r + 1) * L = r * L + L := by ring
  omega

/-! ## Claims C1 - C3: the SHE scheme -/

/-- C1. Encrypt/decrypt round trip: for every key with `L * 2^81 < p`, every
plaintext `m < L` and every noise pair `r < 2^80`, `r' < 2^4096`,
`decrypt (encrypt m) = m`. -/
theorem encrypt_decrypt_roundtrip (sk : SecretKey) (m r r' : Nat)
    (hkey : 2 ^ 81 * sk.L < sk.p) (hm : m < sk.L)
    (hr : r < 2 ^ 80) (_hr' : r' < 2 ^ 4096) :
    decrypt (encrypt m sk r r') sk = m := by
  unfold decrypt
  rw [encrypt_mod_p]
  have h1 := noise_term_lt sk.L m r 80 hm hr
  have h2 : r * sk.L + m < sk.p := by
    have : 2 ^ 80 * sk.L ≤ 2 ^ 81 * sk.L := Nat.mul_le_mul_right _ (by norm_num)
    omega
  rw [Nat.mod_eq_of_lt h2, Nat.mul_comm, Nat.mul_add_mod, Nat.mod_eq_of_lt hm]

/-- Witness of C1 at the key of `client.cpp`, plaintext `1`, noise `(5, 7)`. -/
theorem encrypt_decrypt_roundtrip_witness :
    decrypt (encrypt 1 ref_sk 5 7) ref_sk = 1 :=
  encrypt_decrypt_roundtrip ref_sk 1 5 7 (by decide) (by decide) (by decide)
    (Nat.lt_of_lt_of_le (by decide : 7 < 2 ^ 3) (Nat.pow_le_pow_right (by decide) (by decide)))


/-- C2. Additive homomorphism: for every key with `L * 2^81 < p`, plaintexts
`m1, m2 < L` with `m1 + m2 < L` and noise `r1, r2 < 2^80`, `r1', r2' < 2^4096`,
the sum of the two ciphertexts modulo `N` decrypts to `m1 + m2`. -/
theorem add_homomorphic (sk : SecretKey) (m1 m2 r1 r2 r1' r2' : Nat)
    (hkey : 2 ^ 81 * sk.L < sk.p) (hm1 : m1 < sk.L) (hm2 : m2 < sk.L)
    (hsum : m1 + m2 < sk.L) (hr1 : r1 < 2 ^ 80) (hr2 : r2 < 2 ^ 80)
    (_hr1' : r1' < 2 ^ 4096) (_hr2' : r2' < 2 ^ 4096) :
    decrypt ((encrypt m1 sk r1 r1' + encrypt m2 sk r2 r2') % sk.N) sk = m1 + m2 := by
  unfold decrypt
  rw [mod_N_mod_p, Nat.add_mod, encrypt_mod_p, encrypt_mod_p, ← Nat.add_mod]
  have h1 := noise_term_lt sk.L m1 r1 80 hm1 hr1
  have h2 := noise_term_lt sk.L m2 r2 80 hm2 hr2
  have h3 : 2 ^ 81 * sk.L = 2 ^ 80 * sk.L + 2 ^ 80 * sk.L := by ring
  have h4 : r1 * sk.L + m1 + (r2 * sk.L + m2) < sk.p := by omega
  rw [Nat.mod_eq_of_lt h4]
  have h5 : r1 * sk.L + m1 + (r2 * sk.L + m2) = sk.L * (r1 + r2) + (m1 + m2) := by ring
  rw [h5, Nat.mul_add_mod, Nat.mod_eq_of_lt hsum]

/-- Witness of C2 at the key of `client.cpp`: `1 + 1 = 2`. -/
theorem add_homomorphic_witness :
    decrypt ((encrypt 1 ref_sk 5 7 + encrypt 1 ref_sk 11 13) % ref_sk.N) ref_sk = 1 + 1 :=
  add_homomorphic ref_sk 1 1 5 11 7 13 (by decide) (by decide) (by decide) (by decide)
    (by decide) (by decide)
    (Nat.lt_of_lt_of_le (by decide : 7 < 2 ^ 3) (Nat.pow_le_pow_right (by decide) (by decide)))
    (Nat.lt_of_lt_of_le (by decide : 13 < 2 ^ 4) (Nat.pow_le_pow_right (by decide) (by decide)))

/-- The loop computes `acc * b ^ e` modulo `p`. -/
theorem pow_mod_loop_modEq (p fuel b e acc : Nat) (h : e ≤ fuel) :
    pow_mod_loop p fuel b e acc ≡ acc * b ^ e [MOD p] := by
  induction fuel generalizing b e acc with
  | zero =>
    have : e = 0 := by omega
    subst this
    simp [pow_mod_loop, Nat.ModEq]
  | succ fuel ih =>
    simp only [pow_mod_loop]
    split
    · next h0 =>
      subst h0
      simp [Nat.ModEq]
    · next h0 =>
      have hih := ih (b * b % p) (e / 2) (if e % 2 = 1 then acc * b % p else acc) (by omega)
      refine hih.trans ?_
      have hb : (b * b % p) ^ (e / 2) ≡ (b * b) ^ (e / 2) [MOD p] :=
        Nat.ModEq.pow _ (Nat.mod_modEq _ _)
      have hsq : (b * b) ^ (e / 2) = b ^ (2 * (e / 2)) := by
        rw [pow_mul, pow_two]
      by_cases hodd : e % 2 = 1
      · rw [if_pos hodd]
        have he : e = 2 * (e / 2) + 1 := by omega
        have hacc : acc * b % p ≡ acc * b [MOD p] := Nat.mod_modEq _ _
        have := Nat.ModEq.mul hacc hb
        refine this.trans ?_
        rw [hsq]
        conv_rhs => rw [he, pow_succ]
        rw [Nat.ModEq]
        congr 1
        ring
      · rw [if_neg hodd]
        have he : e = 2 * (e / 2) := by omega
        have := Nat.ModEq.mul_left acc hb
        refine this.trans ?_
        rw [hsq]
        conv_rhs => rw [he]

/-- The function `pow_mod` is the power modulo `p`. -/
theorem pow_mod_eq (a e p : Nat) : pow_mod a e p = a ^ e % p := by
  unfold pow_mod
  have := pow_mod_loop_modEq p e a e 1 (Nat.le_refl e)
  rw [Nat.one_mul] at this
  exact this

/-- Lucas test for a number `3 * 2 ^ n + 1`. -/
theorem prime_of_lucas_3_2 (n a p : Nat) (hn : 1 ≤ n) (hp : p = 3 * 2 ^ n + 1)
    (h1 : pow_mod a (3 * 2 ^ n) p = 1)
    (h2 : pow_mod a (3 * 2 ^ (n - 1)) p ≠ 1)
    (h3 : pow_mod a (2 ^ n) p ≠ 1) : Nat.Prime p := by
  have hp1 : 1 < p := by
    have : 0 < 2 ^ n := Nat.pos_pow_of_pos _ (by decide)
    omega
  have hpm : p - 1 = 3 * 2 ^ n := by omega
  have cast_pow_eq : ∀ k, ((a : ZMod p)) ^ k = 1 ↔ pow_mod a k p = 1 := by
    intro k
    rw [pow_mod_eq]
    have : ((a : ZMod p)) ^ k = ((a ^ k : ℕ) : ZMod p) := by push_cast; rfl
    rw [this]
    have one : (1 : ZMod p) = ((1 : ℕ) : ZMod p) := by push_cast; rfl
    rw [one, ZMod.natCast_eq_natCast_iff]
    unfold Nat.ModEq
    rw [Nat.mod_eq_of_lt hp1]
  apply lucas_primality p (a : ZMod p)
  · rw [hpm, cast_pow_eq]
    exact h1
  · intro q hq hdvd
    rw [hpm] at hdvd ⊢
    rcases (Nat.Prime.dvd_mul hq).mp hdvd with h | h
    · have : q = 3 := (Nat.prime_dvd_prime_iff_eq hq Nat.prime_three).mp h
      subst this
      rw [Nat.mul_div_cancel_left _ (by decide : 0 < 3), Ne, cast_pow_eq]
      exact h3
    · have h' := Nat.Prime.dvd_of_dvd_pow hq h
      have : q = 2 := (Nat.prime_dvd_prime_iff_eq hq Nat.prime_two).mp h'
      subst this
      have e : 3 * 2 ^ n / 2 = 3 * 2 ^ (n - 1) := by
        obtain ⟨k, rfl⟩ : ∃ k, n = k + 1 := ⟨n - 1, by omega⟩
        rw [Nat.add_sub_cancel, pow_succ, ← Nat.mul_assoc, Nat.mul_div_cancel _ (by decide)]
      rw [e, Ne, cast_pow_eq]
      exact h2

set_option maxRecDepth 100000 in
/-- The three numbers of `proth_sk` are prime: `p` by the Lucas test with the
base 10, `q` and `L` by the Lucas-Lehmer test. -/
theorem proth_sk_primes :
    Nat.Prime proth_sk.p ∧ Nat.Prime proth_sk.q ∧ Nat.Prime proth_sk.L := by
  have hp : Nat.Prime (3 * 2 ^ 189 + 1) :=
    prime_of_lucas_3_2 189 10 (3 * 2 ^ 189 + 1) (by decide) rfl (by decide) (by decide)
      (by decide)
  have h521 : (mersenne 521).Prime := lucas_lehmer_sufficiency _ (by norm_num) (by norm_num)
  have h89 : (mersenne 89).Prime := lucas_lehmer_sufficiency _ (by norm_num) (by norm_num)
  exact ⟨hp, h521, h89⟩

set_option maxRecDepth 100000 in
/-- C3, counterexample. The key `proth_sk` has prime `p`, `q` and `L` and
satisfies `gcd(L, p) = 1` and `L < p / 2^81` (with integer and with exact
division); the plaintexts are `1` and `1`; the noise is drawn by `encrypt`
itself: the first call draws the words `2^64 - 1` for `generateRandom(80)`,
which returns 65535, the second the words `2^64 - 2`, which gives 65534.  The
product of the two ciphertexts modulo `N` does not decrypt to `1 * 1`. -/
theorem mul_homomorphic_counterexample :
    Nat.Prime proth_sk.p ∧ Nat.Prime proth_sk.q ∧ Nat.Prime proth_sk.L ∧
    Nat.gcd proth_sk.L proth_sk.p = 1 ∧ proth_sk.L < proth_sk.p / 2 ^ 81 ∧
    2 ^ 81 * proth_sk.L < proth_sk.p ∧
    1 < proth_sk.L ∧ 1 * 1 < proth_sk.L ∧
    generateRandom 80 (fun _ => 2 ^ 64 - 1) = 65535 ∧
    generateRandom 80 (fun _ => 2 ^ 64 - 2) = 65534 ∧
    decrypt ((encrypt_drawn 1 proth_sk (fun _ => 2 ^ 64 - 1) (fun i => i + 1)
        * encrypt_drawn 1 proth_sk (fun _ => 2 ^ 64 - 2) (fun i => 2 * i + 3))
      % proth_sk.N) proth_sk
      = 618970019642690133154096502 ∧
    ¬ (decrypt ((encrypt_drawn 1 proth_sk (fun _ => 2 ^ 64 - 1) (fun i => i + 1)
        * encrypt_drawn 1 proth_sk (fun _ => 2 ^ 64 - 2) (fun i => 2 * i + 3))
      % proth_sk.N) proth_sk = 1 * 1) := by
  refine ⟨proth_sk_primes.1, proth_sk_primes.2.1, proth_sk_primes.2.2, by decide, by decide,
    by decide, by decide, by decide, by decide, by decide, by decide, by decide⟩

/-- C3, amended. Multiplicative homomorphism: for every key with
`2^160 * L^2 <= p`, plaintexts `m1, m2 < L` with `m1 * m2 < L` and noise
`r1, r2 < 2^80`, `r1', r2' < 2^4096`, the product of the two ciphertexts modulo
`N` decrypts to `m1 * m2`. -/
theorem mul_homomorphic (sk : SecretKey) (m1 m2 r1 r2 r1' r2' : Nat)
    (hkey : 2 ^ 160 * sk.L ^ 2 ≤ sk.p) (hm1 : m1 < sk.L) (hm2 : m2 < sk.L)
    (hprod : m1 * m2 < sk.L) (hr1 : r1 < 2 ^ 80) (hr2 : r2 < 2 ^ 80)
    (_hr1' : r1' < 2 ^ 4096) (_hr2' : r2' < 2 ^ 4096) :
    decrypt ((encrypt m1 sk r1 r1' * encrypt m2 sk r2 r2') % sk.N) sk = m1 * m2 := by
  unfold decrypt
  rw [mod_N_mod_p, Nat.mul_mod, encrypt_mod_p, encrypt_mod_p, ← Nat.mul_mod]
  have h1 := noise_term_lt sk.L m1 r1 80 hm1 hr1
  have h2 := noise_term_lt sk.L m2 r2 80 hm2 hr2
  have h3 : (r1 * sk.L + m1) * (r2 * sk.L + m2) < (2 ^ 80 * sk.L) * (2 ^ 80 * sk.L) :=
    Nat.mul_lt_mul_of_lt_of_lt h1 h2
  have h4 : (2 ^ 80 * sk.L) * (2 ^ 80 * sk.L) = 2 ^ 160 * sk.L ^ 2 := by ring
  have h5 : (r1 * sk.L + m1) * (r2 * sk.L + m2) < sk.p := by omega
  rw [Nat.mod_eq_of_lt h5]
  have h6 : (r1 * sk.L + m1) * (r2 * sk.L + m2)
      = sk.L * (r1 * r2 * sk.L + r1 * m2 + m1 * r2) + m1 * m2 := by ring
  rw [h6, Nat.mul_add_mod, Nat.mod_eq_of_lt hprod]

/-- Witness of C3 (amended) at the key of `client.cpp`: `1 * 1 = 1`. -/
theorem mul_homomorphic_witness :
    decrypt ((encrypt 1 ref_sk 5 7 * encrypt 1 ref_sk 11 13) % ref_sk.N) ref_sk = 1 * 1 :=
  mul_homomorphic ref_sk 1 1 5 11 7 13 (by decide) (by decide) (by decide) (by decide)
    (by decide) (by decide)
    (Nat.lt_of_lt_of_le (by decide : 7 < 2 ^ 3) (Nat.pow_le_pow_right (by decide) (by decide)))
    (Nat.lt_of_lt_of_le (by decide : 13 < 2 ^ 4) (Nat.pow_le_pow_right (by decide) (by decide)))

/-! ## Vector helpers -/

/-- Reading a list after one `set`. -/
theorem getD_set (l : List Nat) (i j a d : Nat) :
    (l.set i a).getD j d = if i = j ∧ i < l.length then a else l.getD j d := by
  simp only [List.getD_eq_getElem?_getD, List.getElem?_set]
  by_cases h : i = j
  · subst h
    by_cases h2 : i < l.length
    · simp [h2]
    · simp [h2, List.getElem?_eq_none (Nat.le_of_not_lt h2)]
  · simp [h]

/-! ## Claim C7: the Bloom filter has no false negatives -/

/-- The insert loop keeps the length of the bit array. -/
theorem bloom_filter_insert_loop_length (size : Nat) (x : Int) (n i : Nat) (bits : List Nat) :
    (bloom_filter_insert_loop size x n i bits).length = bits.length := by
  induction n generalizing i bits with
  | zero => rfl
  | succ n ih => simp [bloom_filter_insert_loop, ih]

/-- The insert loop never clears a bit that is set. -/
theorem bloom_filter_insert_loop_keeps (size : Nat) (x : Int) (n i k : Nat) (bits : List Nat)
    (hk : bits.getD k 0 = 1) :
    (bloom_filter_insert_loop size x n i bits).getD k 0 = 1 := by
  induction n generalizing i bits with
  | zero => exact hk
  | succ n ih =>
    simp only [bloom_filter_insert_loop]
    apply ih
    rw [getD_set]
    split
    · rfl
    · exact hk

/-- After the insert loop for seeds `i, ..., i + n - 1`, every bit addressed
with one of these seeds is set. -/
theorem bloom_filter_insert_loop_sets (size : Nat) (x : Int) (n i j : Nat) (bits : List Nat)
    (hlen : bits.length = size) (hsize : 1 ≤ size) (hij : i ≤ j) (hjn : j < i + n) :
    (bloom_filter_insert_loop size x n i bits).getD (hash_result x size j) 0 = 1 := by
  induction n generalizing i bits with
  | zero => omega
  | succ n ih =>
    simp only [bloom_filter_insert_loop]
    by_cases hj : i = j
    · subst hj
      apply bloom_filter_insert_loop_keeps
      rw [getD_set]
      have hlt : hash_result x size i < bits.length := by
        rw [hlen]
        exact Nat.mod_lt _ hsize
      simp [hlt]
    · apply ih
      · simpa using hlen
      · omega
      · omega

/-- The contains loop answers `true` when every addressed bit is set. -/
theorem bloom_filter_contains_loop_true (bf : BloomFilter) (x : Int) (n i : Nat)
    (h : ∀ j, i ≤ j → j < i + n → bf.bits.getD (hash_result x bf.size j) 0 = 1) :
    bloom_filter_contains_loop bf x n i = true := by
  induction n generalizing i with
  | zero => rfl
  | succ n ih =>
    simp only [bloom_filter_contains_loop]
    have h0 := h i (Nat.le_refl i) (by omega)
    rw [if_neg (by omega)]
    apply ih
    intro j h1 h2
    exact h j (by omega) (by omega)

/-- One insertion keeps size, hash count and array length. -/
theorem bloom_filter_insert_shape (bf : BloomFilter) (y : Int) :
    (bloom_filter_insert bf y).size = bf.size ∧
    (bloom_filter_insert bf y).hash_count = bf.hash_count ∧
    (bloom_filter_insert bf y).bits.length = bf.bits.length := by
  refine ⟨rfl, rfl, ?_⟩
  simp [bloom_filter_insert, bloom_filter_insert_loop_length]

/-- A sequence of insertions keeps size, hash count and array length and never
clears a set bit. -/
theorem bloom_filter_foldl_keeps (A : List Int) (bf : BloomFilter) :
    (A.foldl bloom_filter_insert bf).size = bf.size ∧
    (A.foldl bloom_filter_insert bf).hash_count = bf.hash_count ∧
    (A.foldl bloom_filter_insert bf).bits.length = bf.bits.length ∧
    ∀ k, bf.bits.getD k 0 = 1 → (A.foldl bloom_filter_insert bf).bits.getD k 0 = 1 := by
  induction A generalizing bf with
  | nil => simp
  | cons y A ih =>
    obtain ⟨h1, h2, h3, h4⟩ := ih (bloom_filter_insert bf y)
    obtain ⟨s1, s2, s3⟩ := bloom_filter_insert_shape bf y
    refine ⟨by simpa [s1] using h1, by simpa [s2] using h2, by simpa [s3] using h3, ?_⟩
    intro k hk
    apply h4
    exact bloom_filter_insert_loop_keeps bf.size y bf.hash_count 0 k bf.bits hk

/-- Every bit addressed by an inserted element is set after the insertions. -/
theorem bloom_filter_foldl_sets (A : List Int) (bf : BloomFilter) (x : Int) (j : Nat)
    (hlen : bf.bits.length = bf.size) (hsize : 1 ≤ bf.size) (hx : x ∈ A)
    (hj : j < bf.hash_count) :
    (A.foldl bloom_filter_insert bf).bits.getD (hash_result x bf.size j) 0 = 1 := by
  induction A generalizing bf with
  | nil => simp at hx
  | cons y A ih =>
    simp only [List.foldl_cons]
    obtain ⟨s1, s2, s3⟩ := bloom_filter_insert_shape bf y
    rcases List.mem_cons.mp hx with hxy | hxA
    · subst hxy
      apply (bloom_filter_foldl_keeps A (bloom_filter_insert bf x)).2.2.2
      exact bloom_filter_insert_loop_sets bf.size x bf.hash_count 0 j bf.bits hlen hsize
        (Nat.zero_le j) (by omega)
    · have := ih (bloom_filter_insert bf y) (by rw [s3, s1]; exact hlen) (by rw [s1]; exact hsize)
        hxA (by rw [s2]; exact hj)
      rw [s1] at this
      exact this

/-- C7. No false negatives: for a filter of `size >= 1` with `hash_count = 7`
and all bits zero, after inserting the elements of any list `A` in the order of
the list, `bloom_filter_contains` returns `true` for every `x` in `A`. -/
theorem bloom_filter_no_false_negative (size : Nat) (A : List Int) (x : Int)
    (hsize : 1 ≤ size) (hx : x ∈ A) :
    bloom_filter_contains (A.foldl bloom_filter_insert (create_bloom_filter_sized size)) x
      = true := by
  have hk := bloom_filter_foldl_keeps A (create_bloom_filter_sized size)
  unfold bloom_filter_contains
  apply bloom_filter_contains_loop_true
  intro j _ hj
  rw [hk.1]
  rw [hk.2.1] at hj
  exact bloom_filter_foldl_sets A (create_bloom_filter_sized size) x j
    (by simp [create_bloom_filter_sized]) hsize hx (by simpa using hj)

/-- Witness of C7: a filter of 24 bits, the elements `3, 0, -7`, queried at `0`. -/
theorem bloom_filter_no_false_negative_witness :
    bloom_filter_contains
      ([3, 0, -7].foldl bloom_filter_insert (create_bloom_filter_sized 24)) 0 = true :=
  bloom_filter_no_false_negative 24 [3, 0, -7] 0 (by decide) (by decide)

/-! ## Claim C8: the wire codec round trip -/

/-- Importing the exported bytes in front of `acc` is importing `acc` from the
start value `num`. -/
theorem mpz_import_export_loop (fuel num : Nat) (acc : List Nat) (h : num ≤ fuel) :
    (mpz_export_loop fuel num acc).foldl (fun a b => a * 256 + b) 0
      = acc.foldl (fun a b => a * 256 + b) num := by
  induction fuel generalizing num acc with
  | zero =>
    have : num = 0 := by omega
    subst this
    rfl
  | succ fuel ih =>
    simp only [mpz_export_loop]
    split
    · next h0 => subst h0; rfl
    · next h0 =>
      rw [ih (num / 256) _ (by omega)]
      simp only [List.foldl_cons]
      have : num / 256 * 256 + num % 256 = num := by omega
      rw [this]

/-- `mpz_import` inverts `mpz_export`. -/
theorem mpz_import_export (num : Nat) : mpz_import (mpz_export num) = num := by
  unfold mpz_import mpz_export
  rw [mpz_import_export_loop num num [] (Nat.le_refl num)]
  rfl

/-- A byte read inside the middle part of a buffer. -/
theorem read_byte_middle (pre l rest : List Nat) (beyond : Nat → Nat) (i : Nat)
    (hi : i < l.length) :
    read_byte (pre ++ l ++ rest) beyond (pre.length + i) = l.getD i 0 := by
  unfold read_byte
  simp only [List.getD_eq_getElem?_getD]
  rw [List.append_assoc, List.getElem?_append_right (Nat.le_add_right _ _),
    Nat.add_sub_cancel_left, List.getElem?_append_left hi]
  simp [hi]

/-- The length field is read back as it was written. -/
theorem read_u32_le32 (pre rest : List Nat) (beyond : Nat → Nat) (x : Nat) :
    read_u32 (pre ++ le32 x ++ rest) beyond pre.length = x % 2 ^ 32 := by
  have h0 := read_byte_middle pre (le32 x) rest beyond 0 (by simp [le32])
  have h1 := read_byte_middle pre (le32 x) rest beyond 1 (by simp [le32])
  have h2 := read_byte_middle pre (le32 x) rest beyond 2 (by simp [le32])
  have h3 := read_byte_middle pre (le32 x) rest beyond 3 (by simp [le32])
  simp only [Nat.add_zero] at h0
  unfold read_u32
  rw [h0, h1, h2, h3]
  simp only [le32, List.getD_cons_zero, List.getD_cons_succ]
  have hx : x % 2 ^ 32 < 2 ^ 32 := Nat.mod_lt _ (by norm_num)
  generalize x % 2 ^ 32 = y at hx
  norm_num at hx ⊢
  omega

/-- The bytes of a record body are read back as they were written. -/
theorem read_bytes_middle (pre l rest : List Nat) (beyond : Nat → Nat) :
    read_bytes (pre ++ l ++ rest) beyond pre.length l.length = l := by
  unfold read_bytes
  apply List.ext_getElem
  · simp
  · intro i h1 h2
    simp only [List.getElem_map, List.getElem_range]
    rw [read_byte_middle pre l rest beyond i h2]
    simp [List.getD_eq_getElem?_getD, h2]

/-- The buffer of a nonempty vector is the first record followed by the buffer
of the remaining numbers. -/
theorem send_buffer_cons (x : Nat) (v : List Nat) :
    send_buffer (x :: v) = send_record x ++ send_buffer v := by
  unfold send_buffer
  simp only [List.foldl_cons, List.nil_append]
  generalize send_record x = init
  induction v generalizing init with
  | nil => simp
  | cons y v ih =>
    simp only [List.foldl_cons, List.nil_append]
    rw [ih (init ++ send_record y), ih (send_record y), List.append_assoc]

/-- The receive loop, started at the end of `pre` in the buffer
`pre ++ send_buffer v`, appends exactly `v` to the numbers read so far. -/
theorem receive_loop_send_buffer (v : List Nat) (pre numbers : List Nat)
    (beyond : Nat → Nat) (fuel : Nat) (hfuel : v.length ≤ fuel)
    (hfit : ∀ x ∈ v, (mpz_export x).length < 2 ^ 32) :
    receive_loop (pre ++ send_buffer v) beyond fuel pre.length numbers = numbers ++ v := by
  induction v generalizing pre numbers fuel with
  | nil =>
    cases fuel with
    | zero => simp [receive_loop]
    | succ fuel => simp [receive_loop, send_buffer]
  | cons x v ih =>
    cases fuel with
    | zero => simp at hfuel
    | succ fuel =>
      have hx : (mpz_export x).length < 2 ^ 32 := hfit x (List.mem_cons_self x v)
      have hrec : send_record x = le32 (mpz_export x).length ++ mpz_export x := by
        simp only [send_record, Nat.mod_eq_of_lt hx, List.take_length]
      have hbuf : pre ++ send_buffer (x :: v)
          = pre ++ le32 (mpz_export x).length ++ (mpz_export x ++ send_buffer v) := by
        rw [send_buffer_cons, hrec]
        simp only [List.append_assoc]
      have hbuf2 : pre ++ send_buffer (x :: v)
          = (pre ++ le32 (mpz_export x).length) ++ mpz_export x ++ send_buffer v := by
        rw [hbuf]
        simp only [List.append_assoc]
      have hbuf3 : pre ++ send_buffer (x :: v)
          = (pre ++ le32 (mpz_export x).length ++ mpz_export x) ++ send_buffer v := by
        rw [hbuf2]
      have hlen4 : (pre ++ le32 (mpz_export x).length).length = pre.length + 4 := by
        simp [le32]
      have hlt : pre.length < (pre ++ send_buffer (x :: v)).length := by
        rw [hbuf]
        simp [le32]
      rw [receive_loop, if_pos hlt]
      have hlen : read_u32 (pre ++ send_buffer (x :: v)) beyond pre.length
          = (mpz_export x).length := by
        rw [hbuf, read_u32_le32, Nat.mod_eq_of_lt hx]
      have hbytes : read_bytes (pre ++ send_buffer (x :: v)) beyond (pre.length + 4)
          (mpz_export x).length = mpz_export x := by
        rw [hbuf2, ← hlen4]
        exact read_bytes_middle _ _ _ _
      simp only [hlen, hbytes, mpz_import_export]
      have hoff : pre.length + 4 + (mpz_export x).length
          = (pre ++ le32 (mpz_export x).length ++ mpz_export x).length := by
        rw [List.length_append, hlen4]
      rw [hoff, hbuf3, ih _ _ fuel (by simpa using hfuel)
        (fun y hy => hfit y (List.mem_cons_of_mem x hy))]
      simp

/-- A buffer holds at least four bytes for each number. -/
theorem send_buffer_length_ge (v : List Nat) : v.length ≤ (send_buffer v).length := by
  induction v with
  | nil => simp [send_buffer]
  | cons x v ih =>
    rw [send_buffer_cons]
    simp only [List.length_cons, List.length_append, send_record, le32]
    simp only [List.length_cons, List.length_nil]
    omega

/-- C8. Wire codec round trip: when every magnitude and the whole payload are
shorter than `2^32` bytes, `receive_multiple_mpz_class` applied to the frame that
`send_multiple_mpz_class` writes for `v` returns `v`, whatever lies in memory
after the receive buffer. -/
theorem wire_codec_roundtrip (v : List Nat) (beyond : Nat → Nat)
    (hfit : ∀ x ∈ v, (mpz_export x).length < 2 ^ 32)
    (htotal : (send_buffer v).length < 2 ^ 32) :
    receive_multiple_mpz_class (send_multiple_mpz_class v) beyond = some v := by
  unfold receive_multiple_mpz_class send_multiple_mpz_class
  have h4 : (le32 ((send_buffer v).length % 2 ^ 32)).length = 4 := by simp [le32]
  have hge : ¬ (le32 ((send_buffer v).length % 2 ^ 32) ++ send_buffer v).length < 4 := by
    rw [List.length_append, h4]
    omega
  have htake : (le32 ((send_buffer v).length % 2 ^ 32) ++ send_buffer v).take 4
      = le32 ((send_buffer v).length % 2 ^ 32) := by
    rw [← h4, List.take_left]
  have hdrop : (le32 ((send_buffer v).length % 2 ^ 32) ++ send_buffer v).drop 4
      = send_buffer v := by
    rw [← h4, List.drop_left]
  have hread : read_u32 (le32 ((send_buffer v).length % 2 ^ 32)) beyond 0
      = (send_buffer v).length := by
    have := read_u32_le32 [] [] beyond ((send_buffer v).length % 2 ^ 32)
    simp only [List.nil_append, List.append_nil, List.length_nil] at this
    rw [this, Nat.mod_mod, Nat.mod_eq_of_lt htotal]
  simp only [hge, if_false, htake, hdrop, hread, Nat.lt_irrefl, List.take_length]
  have := receive_loop_send_buffer v [] [] beyond (send_buffer v).length
    (send_buffer_length_ge v) hfit
  simp only [List.nil_append, List.length_nil] at this
  rw [this]

/-- Witness of C8: a vector with zeros inside and at the end. -/
theorem wire_codec_roundtrip_witness :
    receive_multiple_mpz_class (send_multiple_mpz_class [0, 1, 255, 256, 2 ^ 256 - 1, 0])
      (fun _ => 7) = some [0, 1, 255, 256, 2 ^ 256 - 1, 0] :=
  wire_codec_roundtrip [0, 1, 255, 256, 2 ^ 256 - 1, 0] (fun _ => 7) (by decide) (by decide)

/-! ## The sketch vectors entry by entry -/

/-- A `for` loop that sets entry `i + off` to `val i` for `i < n`. -/
theorem foldl_set_range (n off : Nat) (val : Nat → Nat) (s : List Nat) :
    ((List.range n).foldl (fun s i => s.set (i + off) (val i)) s).length = s.length ∧
    ∀ k, ((List.range n).foldl (fun s i => s.set (i + off) (val i)) s).getD k 0
      = if off ≤ k ∧ k < off + n ∧ k < s.length then val (k - off) else s.getD k 0 := by
  induction n with
  | zero =>
    refine ⟨rfl, fun k => ?_⟩
    simp only [List.range_zero, List.foldl_nil]
    rw [if_neg (by omega)]
  | succ n ih =>
    obtain ⟨ih1, ih2⟩ := ih
    rw [List.range_succ, List.foldl_append]
    simp only [List.foldl_cons, List.foldl_nil, List.length_set]
    refine ⟨ih1, fun k => ?_⟩
    rw [getD_set, ih1, ih2 k]
    by_cases h1 : n + off = k
    · subst h1
      by_cases h2 : n + off < s.length
      · rw [if_pos ⟨rfl, h2⟩, if_pos (by omega)]
        congr 1
        omega
      · rw [if_neg (by omega), if_neg (by omega), if_neg (by omega)]
    · rw [if_neg (by omega)]
      by_cases h3 : off ≤ k ∧ k < off + n ∧ k < s.length
      · rw [if_pos h3, if_pos (by omega)]
      · rw [if_neg h3, if_neg (by omega)]

/-- A `for` loop that adds `g i` to entry `f i` for `i < n`. -/
theorem foldl_add_range (n : Nat) (f g : Nat → Nat) (s : List Nat)
    (hf : ∀ i, i < n → f i < s.length) :
    ((List.range n).foldl (fun s i => s.set (f i) (s.getD (f i) 0 + g i)) s).length = s.length ∧
    ∀ k, ((List.range n).foldl (fun s i => s.set (f i) (s.getD (f i) 0 + g i)) s).getD k 0
      = s.getD k 0 + ((List.range n).map (fun i => if f i = k then g i else 0)).sum := by
  induction n with
  | zero => simp
  | succ n ih =>
    obtain ⟨ih1, ih2⟩ := ih (fun i hi => hf i (Nat.lt_succ_of_lt hi))
    rw [List.range_succ, List.foldl_append]
    simp only [List.foldl_cons, List.foldl_nil, List.length_set, List.map_append, List.map_cons,
      List.map_nil, List.sum_append, List.sum_cons, List.sum_nil, Nat.add_zero]
    refine ⟨ih1, fun k => ?_⟩
    rw [getD_set, ih1]
    have hlt := hf n (Nat.lt_succ_self n)
    by_cases h1 : f n = k
    · subst h1
      rw [if_pos ⟨rfl, hlt⟩, if_pos rfl, ih2]
      omega
    · rw [if_neg (by tauto), if_neg h1, ih2]
      omega

/-- An accumulating loop `acc += f j` computes a sum. -/
theorem foldl_add_eq_sum (l : List Nat) (f : Nat → Nat) (a : Nat) :
    l.foldl (fun acc j => acc + f j) a = a + (l.map f).sum := by
  induction l generalizing a with
  | nil => simp
  | cons x l ih =>
    simp only [List.foldl_cons, List.map_cons, List.sum_cons]
    rw [ih]
    omega

/-- Reading a list built by a `push_back` loop. -/
theorem getD_map_range (n : Nat) (f : Nat → Nat) (k : Nat) (hk : k < n) :
    ((List.range n).map f).getD k 0 = f k := by
  simp [List.getD_eq_getElem?_getD, List.getElem?_range hk]

/-- The bucket `hasht` selects lies inside the sketch. -/
theorem hasht_lt (x y : Int) (length seed : Nat) (h : 1 ≤ length) :
    hasht x y length seed < length :=
  Nat.mod_lt _ h

/-- The bit `hashr` selects lies inside the filter. -/
theorem hashr_lt (x : Int) (length seed : Nat) (h : 1 ≤ length) :
    hashr x length seed < length :=
  Nat.mod_lt _ h

/-- The work of the holder for one provider `p`: only the entries
`[p * lc_length, (p + 1) * lc_length)` change, and entry `t + p * lc_length`
becomes the blinded zero plus the signs of the records of `p` hashing to `t`. -/
theorem provider_step (P : HolderParams) (arr1 arr2 : List Int) (signs : List Nat)
    (E1 E2 : Nat) (u v : Nat → Nat → Nat) (p : Nat) (s : List Nat)
    (hlc : 1 ≤ P.lc_length) (hp : p < P.server_number)
    (hs : s.length = P.lc_length * P.server_number) :
    (add_signs P arr1 arr2 signs p (init_sketch P E1 E2 u v p s)).length = s.length ∧
    ∀ k, (add_signs P arr1 arr2 signs p (init_sketch P E1 E2 u v p s)).getD k 0
      = if p * P.lc_length ≤ k ∧ k < p * P.lc_length + P.lc_length then
          u p (k - p * P.lc_length) * E1 + v p (k - p * P.lc_length) * E2
            + ((List.range P.data_size_per_provider).map (fun i =>
                if hasht (arr1.getD (p * P.data_size_per_provider + i) 0)
                    (arr2.getD (p * P.data_size_per_provider + i) 0) P.lc_length 0
                    + p * P.lc_length = k
                then signs.getD (p * P.data_size_per_provider + i) 0 else 0)).sum
        else s.getD k 0 := by
  have hin : p * P.lc_length + P.lc_length ≤ s.length := by
    rw [hs]
    have : (p + 1) * P.lc_length ≤ P.server_number * P.lc_length :=
      Nat.mul_le_mul_right _ hp
    have e1 : (p + 1) * P.lc_length = p * P.lc_length + P.lc_length := by ring
    have e2 : P.server_number * P.lc_length = P.lc_length * P.server_number := by ring
    omega
  obtain ⟨i1, i2⟩ := foldl_set_range P.lc_length (p * P.lc_length)
    (fun i => u p i * E1 + v p i * E2) s
  have a := foldl_add_range P.data_size_per_provider
    (fun i => hasht (arr1.getD (p * P.data_size_per_provider + i) 0)
      (arr2.getD (p * P.data_size_per_provider + i) 0) P.lc_length 0 + p * P.lc_length)
    (fun i => signs.getD (p * P.data_size_per_provider + i) 0)
    (init_sketch P E1 E2 u v p s)
    (by
      intro i _
      have := hasht_lt (arr1.getD (p * P.data_size_per_provider + i) 0)
        (arr2.getD (p * P.data_size_per_provider + i) 0) P.lc_length 0 hlc
      have hl : (init_sketch P E1 E2 u v p s).length = s.length := i1
      simp only [hl]
      omega)
  obtain ⟨a1, a2⟩ := a
  refine ⟨by rw [← i1]; exact a1, fun k => ?_⟩
  have a2k := a2 k
  have i2k : (init_sketch P E1 E2 u v p s).getD k 0 = _ := i2 k
  unfold add_signs
  rw [a2k, i2k]
  by_cases hk : p * P.lc_length ≤ k ∧ k < p * P.lc_length + P.lc_length
  · rw [if_pos hk, if_pos (by omega)]
  · rw [if_neg hk, if_neg (by omega)]
    have hz : ((List.range P.data_size_per_provider).map (fun i =>
        if hasht (arr1.getD (p * P.data_size_per_provider + i) 0)
            (arr2.getD (p * P.data_size_per_provider + i) 0) P.lc_length 0
            + p * P.lc_length = k
        then signs.getD (p * P.data_size_per_provider + i) 0 else 0)).sum = 0 := by
      apply List.sum_eq_zero
      intro x hx
      obtain ⟨i, _, rfl⟩ := List.mem_map.mp hx
      have := hasht_lt (arr1.getD (p * P.data_size_per_provider + i) 0)
        (arr2.getD (p * P.data_size_per_provider + i) 0) P.lc_length 0 hlc
      rw [if_neg (by omega)]
    rw [hz, Nat.add_zero]

/-- The holder loop over the first `n` providers. -/
theorem holder_fold (P : HolderParams) (arr1 arr2 : List Int) (signs : List Nat)
    (E1 E2 : Nat) (u v : Nat → Nat → Nat) (hlc : 1 ≤ P.lc_length) (n : Nat)
    (hn : n ≤ P.server_number) :
    ((List.range n).foldl
        (fun s p => add_signs P arr1 arr2 signs p (init_sketch P E1 E2 u v p s))
        (List.replicate (P.lc_length * P.server_number) 0)).length
      = P.lc_length * P.server_number ∧
    ∀ p t, p < n → t < P.lc_length →
      ((List.range n).foldl
        (fun s p => add_signs P arr1 arr2 signs p (init_sketch P E1 E2 u v p s))
        (List.replicate (P.lc_length * P.server_number) 0)).getD (t + p * P.lc_length) 0
      = bucket_closed_form P arr1 arr2 E1 E2 u v (fun k => signs.getD k 0) p t := by
  induction n with
  | zero =>
    refine ⟨by simp, fun p t hp _ => ?_⟩
    omega
  | succ n ih =>
    obtain ⟨ih1, ih2⟩ := ih (Nat.le_of_succ_le hn)
    rw [List.range_succ, List.foldl_append]
    simp only [List.foldl_cons, List.foldl_nil]
    obtain ⟨s1, s2⟩ := provider_step P arr1 arr2 signs E1 E2 u v n _ hlc hn ih1
    refine ⟨by rw [s1, ih1], fun p t hp ht => ?_⟩
    rw [s2]
    by_cases hpn : p = n
    · subst hpn
      rw [if_pos (by omega)]
      unfold bucket_closed_form
      simp only [Nat.add_sub_cancel, Nat.add_right_cancel_iff]
    · have hlt : p < n := by omega
      have hb : (p + 1) * P.lc_length ≤ n * P.lc_length := Nat.mul_le_mul_right _ hlt
      have e1 : (p + 1) * P.lc_length = p * P.lc_length + P.lc_length := by ring
      rw [if_neg (by omega)]
      exact ih2 p t hlt ht

/-- Entry `t + p * lc_length` of the vector the holder sends. -/
theorem lc_sketch_combined_bucket (P : HolderParams) (arr1 arr2 : List Int) (query : List Nat)
    (u v : Nat → Nat → Nat) (hlc : 1 ≤ P.lc_length) (p t : Nat)
    (hp : p < P.server_number) (ht : t < P.lc_length) :
    (lc_sketch_combined P arr1 arr2 query u v).length = P.lc_length * P.server_number ∧
    (lc_sketch_combined P arr1 arr2 query u v).getD (t + p * P.lc_length) 0
      = bucket_closed_form P arr1 arr2 (query.getD (query.length - 3) 0)
          (query.getD (query.length - 2) 0) u v
          (fun k => holder_sign query (bf_length_of query.length) (query.getLastD 0)
            (arr1.getD k 0) (arr2.getD k 0) P.hash_count) p t := by
  obtain ⟨h1, h2⟩ := holder_fold P arr1 arr2 (sign_list P arr1 arr2 query)
    (query.getD (query.length - 3) 0) (query.getD (query.length - 2) 0) u v hlc
    P.server_number (Nat.le_refl _)
  refine ⟨h1, ?_⟩
  have h3 := h2 p t hp ht
  unfold lc_sketch_combined
  simp only []
  rw [h3]
  unfold bucket_closed_form
  congr 2
  apply List.map_congr_left
  intro i hi
  have hi2 : i < P.data_size_per_provider := List.mem_range.mp hi
  have hk : p * P.data_size_per_provider + i < P.total_data_size := by
    unfold HolderParams.total_data_size
    have hb : (p + 1) * P.data_size_per_provider
        ≤ P.server_number * P.data_size_per_provider := Nat.mul_le_mul_right _ hp
    have e1 : (p + 1) * P.data_size_per_provider
        = p * P.data_size_per_provider + P.data_size_per_provider := by ring
    have e2 : P.server_number * P.data_size_per_provider
        = P.data_size_per_provider * P.server_number := by ring
    omega
  split
  · unfold sign_list
    simp only []
    rw [getD_map_range _ _ _ hk]
  · rfl

/-- Entry `t` of the blinded sum of the aggregator, for the vector the holder
sends. -/
theorem blinded_bucket (P : HolderParams) (arr1 arr2 : List Int) (query : List Nat)
    (u v : Nat → Nat → Nat) (r : Nat → Nat) (hlc : 1 ≤ P.lc_length)
    (hS : 1 ≤ P.server_number) (t : Nat) (ht : t < P.lc_length) :
    (private_lc_sketch
        (lc_sketch_agg P.server_number (lc_sketch_combined P arr1 arr2 query u v)) r).length
      = P.lc_length ∧
    (private_lc_sketch
        (lc_sketch_agg P.server_number (lc_sketch_combined P arr1 arr2 query u v)) r).getD t 0
      = blinded_closed_form P arr1 arr2 (query.getD (query.length - 3) 0)
          (query.getD (query.length - 2) 0) u v r
          (fun k => holder_sign query (bf_length_of query.length) (query.getLastD 0)
            (arr1.getD k 0) (arr2.getD k 0) P.hash_count) t := by
  have hlen : (lc_sketch_combined P arr1 arr2 query u v).length
      = P.lc_length * P.server_number :=
    (lc_sketch_combined_bucket P arr1 arr2 query u v hlc 0 0 hS hlc).1
  have hdiv : (lc_sketch_combined P arr1 arr2 query u v).length / P.server_number
      = P.lc_length := by
    rw [hlen]
    exact Nat.mul_div_cancel _ hS
  have hagglen : (lc_sketch_agg P.server_number
      (lc_sketch_combined P arr1 arr2 query u v)).length = P.lc_length := by
    unfold lc_sketch_agg
    simp only [List.length_map, List.length_range]
    exact hdiv
  refine ⟨by simp [private_lc_sketch, hagglen], ?_⟩
  unfold private_lc_sketch
  rw [List.getD_eq_getElem?_getD, List.getElem?_mapIdx]
  have hget : (lc_sketch_agg P.server_number
      (lc_sketch_combined P arr1 arr2 query u v))[t]?
      = some ((lc_sketch_agg P.server_number
          (lc_sketch_combined P arr1 arr2 query u v)).getD t 0) := by
    rw [List.getD_eq_getElem?_getD, List.getElem?_eq_getElem (by rw [hagglen]; exact ht)]
    rfl
  rw [hget]
  simp only [Option.map_some', Option.getD_some]
  unfold blinded_closed_form
  congr 1
  unfold lc_sketch_agg
  simp only []
  rw [hdiv, getD_map_range _ _ _ ht, foldl_add_eq_sum, Nat.zero_add]
  congr 1
  apply List.map_congr_left
  intro p hp
  exact (lc_sketch_combined_bucket P arr1 arr2 query u v hlc p t (List.mem_range.mp hp) ht).2

/-! ## Congruences and bounds for the closed forms -/

/-- Sums of termwise congruent maps are congruent. -/
theorem sum_map_modEq (l : List Nat) (f g : Nat → Nat) (n : Nat)
    (h : ∀ a ∈ l, f a ≡ g a [MOD n]) : (l.map f).sum ≡ (l.map g).sum [MOD n] := by
  induction l with
  | nil => exact Nat.ModEq.refl _
  | cons a l ih =>
    simp only [List.map_cons, List.sum_cons]
    exact Nat.ModEq.add (h a (List.mem_cons_self a l))
      (ih (fun b hb => h b (List.mem_cons_of_mem a hb)))

/-- Products of termwise congruent maps are congruent. -/
theorem prod_map_modEq (l : List Nat) (f g : Nat → Nat) (n : Nat)
    (h : ∀ a ∈ l, f a ≡ g a [MOD n]) : (l.map f).prod ≡ (l.map g).prod [MOD n] := by
  induction l with
  | nil => exact Nat.ModEq.refl _
  | cons a l ih =>
    simp only [List.map_cons, List.prod_cons]
    exact Nat.ModEq.mul (h a (List.mem_cons_self a l))
      (ih (fun b hb => h b (List.mem_cons_of_mem a hb)))

/-- A sum of terms bounded by `B`. -/
theorem sum_map_le (l : List Nat) (f : Nat → Nat) (B : Nat) (h : ∀ a ∈ l, f a ≤ B) :
    (l.map f).sum ≤ l.length * B := by
  induction l with
  | nil => simp
  | cons a l ih =>
    simp only [List.map_cons, List.sum_cons, List.length_cons]
    have h1 := h a (List.mem_cons_self a l)
    have h2 := ih (fun b hb => h b (List.mem_cons_of_mem a hb))
    have e : (l.length + 1) * B = l.length * B + B := by ring
    omega

/-- A product of factors bounded by `B`. -/
theorem prod_map_le (l : List Nat) (f : Nat → Nat) (B : Nat) (h : ∀ a ∈ l, f a ≤ B) :
    (l.map f).prod ≤ B ^ l.length := by
  induction l with
  | nil => simp
  | cons a l ih =>
    simp only [List.map_cons, List.prod_cons, List.length_cons]
    have h1 := h a (List.mem_cons_self a l)
    have h2 := ih (fun b hb => h b (List.mem_cons_of_mem a hb))
    calc f a * (l.map f).prod ≤ B * B ^ l.length := Nat.mul_le_mul h1 h2
      _ = B ^ (l.length + 1) := by ring

/-- A product of bits is `1` when all of them are `1`, and `0` otherwise. -/
theorem prod_map_bits (l : List Nat) (f : Nat → Nat) (h : ∀ a ∈ l, f a ≤ 1) :
    (l.map f).prod = if ∀ a ∈ l, f a = 1 then 1 else 0 := by
  induction l with
  | nil => simp
  | cons a l ih =>
    simp only [List.map_cons, List.prod_cons]
    rw [ih (fun b hb => h b (List.mem_cons_of_mem a hb))]
    have h1 := h a (List.mem_cons_self a l)
    by_cases ha : f a = 1
    · by_cases hl : ∀ b ∈ l, f b = 1
      · rw [if_pos hl, if_pos (by simpa [ha] using hl), ha]
      · rw [if_neg hl, if_neg (by simpa [ha] using hl), Nat.mul_zero]
    · have h0 : f a = 0 := by omega
      rw [h0, Nat.zero_mul, if_neg (by simp [h0])]

/-- The closed form of a bucket respects congruences of its inputs. -/
theorem bucket_closed_form_modEq (P : HolderParams) (arr1 arr2 : List Int)
    (E1 E2 E1' E2' : Nat) (u v : Nat → Nat → Nat) (sgn sgn' : Nat → Nat) (n p t : Nat)
    (h1 : E1 ≡ E1' [MOD n]) (h2 : E2 ≡ E2' [MOD n]) (hs : ∀ k, sgn k ≡ sgn' k [MOD n]) :
    bucket_closed_form P arr1 arr2 E1 E2 u v sgn p t
      ≡ bucket_closed_form P arr1 arr2 E1' E2' u v sgn' p t [MOD n] := by
  unfold bucket_closed_form
  refine Nat.ModEq.add (Nat.ModEq.add (Nat.ModEq.mul_left _ h1) (Nat.ModEq.mul_left _ h2)) ?_
  apply sum_map_modEq
  intro i _
  split
  · exact hs _
  · exact Nat.ModEq.refl _

/-- The closed form of a blinded entry respects congruences of its inputs. -/
theorem blinded_closed_form_modEq (P : HolderParams) (arr1 arr2 : List Int)
    (E1 E2 E1' E2' : Nat) (u v : Nat → Nat → Nat) (r : Nat → Nat) (sgn sgn' : Nat → Nat)
    (n t : Nat)
    (h1 : E1 ≡ E1' [MOD n]) (h2 : E2 ≡ E2' [MOD n]) (hs : ∀ k, sgn k ≡ sgn' k [MOD n]) :
    blinded_closed_form P arr1 arr2 E1 E2 u v r sgn t
      ≡ blinded_closed_form P arr1 arr2 E1' E2' u v r sgn' t [MOD n] := by
  unfold blinded_closed_form
  apply Nat.ModEq.mul_right
  apply sum_map_modEq
  intro p _
  exact bucket_closed_form_modEq P arr1 arr2 E1 E2 E1' E2' u v sgn sgn' n p t h1 h2 hs

/-- A bound on the closed form of a blinded entry. -/
theorem blinded_closed_form_le (P : HolderParams) (arr1 arr2 : List Int)
    (E1 E2 : Nat) (u v : Nat → Nat → Nat) (r : Nat → Nat) (sgn : Nat → Nat) (t B0 B1 : Nat)
    (h1 : E1 ≤ B0) (h2 : E2 ≤ B0) (hs : ∀ k, sgn k ≤ B1)
    (hu : ∀ p i, u p i ≤ 100) (hv : ∀ p i, v p i ≤ 100) (hr : ∀ i, r i ≤ 100) :
    blinded_closed_form P arr1 arr2 E1 E2 u v r sgn t
      ≤ P.server_number * (100 * B0 + 100 * B0 + P.data_size_per_provider * B1) * 100 := by
  unfold blinded_closed_form
  refine Nat.mul_le_mul ?_ (hr t)
  have := sum_map_le (List.range P.server_number)
    (fun p => bucket_closed_form P arr1 arr2 E1 E2 u v sgn p t)
    (100 * B0 + 100 * B0 + P.data_size_per_provider * B1) (by
      intro p _
      show bucket_closed_form P arr1 arr2 E1 E2 u v sgn p t ≤ _
      unfold bucket_closed_form
      have a1 : u p t * E1 ≤ 100 * B0 := Nat.mul_le_mul (hu p t) h1
      have a2 : v p t * E2 ≤ 100 * B0 := Nat.mul_le_mul (hv p t) h2
      have a3 := sum_map_le (List.range P.data_size_per_provider)
        (fun i => if hasht (arr1.getD (p * P.data_size_per_provider + i) 0)
            (arr2.getD (p * P.data_size_per_provider + i) 0) P.lc_length 0 = t
          then sgn (p * P.data_size_per_provider + i) else 0) B1 (by
          intro i _
          show (if _ then _ else _) ≤ B1
          split
          · exact hs _
          · exact Nat.zero_le _)
      rw [List.length_range] at a3
      omega)
  rw [List.length_range] at this
  exact this

/-! ## The sign of a record -/

/-- The two running products of the holder, reduced modulo `pk_N` at every
round, are the reductions of the plain products. -/
theorem sign_loop_eq (query : List Nat) (m N : Nat) (x y : Int) (k : Nat) (hN : 2 ≤ N) :
    sign_loop query m N x y k
      = (((List.range k).map (fun j => query.getD (hashr x m j) 0)).prod % N,
         ((List.range k).map (fun j => query.getD (hashr y m j + m) 0)).prod % N) := by
  induction k with
  | zero =>
    simp only [sign_loop, List.range_zero, List.foldl_nil, List.map_nil, List.prod_nil]
    rw [Nat.mod_eq_of_lt (by omega)]
  | succ k ih =>
    unfold sign_loop at ih ⊢
    rw [List.range_succ, List.foldl_append, ih]
    simp only [List.foldl_cons, List.foldl_nil, List.map_append, List.map_cons, List.map_nil,
      List.prod_append, List.prod_cons, List.prod_nil, Nat.mul_one, Nat.mod_mul_mod]

/-- Modulo a divisor `d` of `pk_N` the sign of a record is the closed form over
the entries of the query. -/
theorem holder_sign_modEq (query : List Nat) (m N d : Nat) (x y : Int) (k : Nat)
    (hN : 2 ≤ N) (hd : d ∣ N) :
    holder_sign query m N x y k ≡ sign_closed_form (fun i => query.getD i 0) m x y k [MOD d] := by
  unfold holder_sign sign_closed_form
  simp only [sign_loop_eq query m N x y k hN]
  exact Nat.ModEq.mul (Nat.mod_mod_of_dvd _ hd) (Nat.mod_mod_of_dvd _ hd)

/-- The closed form of the sign respects congruences of the query entries. -/
theorem sign_closed_form_modEq (val val' : Nat → Nat) (m n : Nat) (x y : Int) (k : Nat)
    (hm : 1 ≤ m) (h : ∀ i, i < 2 * m → val i ≡ val' i [MOD n]) :
    sign_closed_form val m x y k ≡ sign_closed_form val' m x y k [MOD n] := by
  unfold sign_closed_form
  apply Nat.ModEq.mul
  · apply prod_map_modEq
    intro j _
    have := hashr_lt x m j hm
    exact h _ (by omega)
  · apply prod_map_modEq
    intro j _
    have := hashr_lt y m j hm
    exact h _ (by omega)

/-- A bound on the closed form of the sign. -/
theorem sign_closed_form_le (val : Nat → Nat) (m B : Nat) (x y : Int) (k : Nat)
    (hm : 1 ≤ m) (h : ∀ i, i < 2 * m → val i ≤ B) :
    sign_closed_form val m x y k ≤ B ^ (2 * k) := by
  unfold sign_closed_form
  have h1 := prod_map_le (List.range k) (fun j => val (hashr x m j)) B (by
    intro j _
    have := hashr_lt x m j hm
    exact h _ (by omega))
  have h2 := prod_map_le (List.range k) (fun j => val (hashr y m j + m)) B (by
    intro j _
    have := hashr_lt y m j hm
    exact h _ (by omega))
  rw [List.length_range] at h1 h2
  calc _ ≤ B ^ k * B ^ k := Nat.mul_le_mul h1 h2
    _ = B ^ (2 * k) := by ring

/-- On bits the closed form of the sign is the indicator that all addressed
bits are `1`. -/
theorem sign_closed_form_bits (val : Nat → Nat) (m : Nat) (x y : Int) (k : Nat)
    (hm : 1 ≤ m) (h : ∀ i, i < 2 * m → val i ≤ 1) :
    sign_closed_form val m x y k
      = if (∀ j, j < k → val (hashr x m j) = 1 ∧ val (hashr y m j + m) = 1) then 1 else 0 := by
  unfold sign_closed_form
  rw [prod_map_bits (List.range k) (fun j => val (hashr x m j)) (by
      intro j _
      have := hashr_lt x m j hm
      exact h _ (by omega)),
    prod_map_bits (List.range k) (fun j => val (hashr y m j + m)) (by
      intro j _
      have := hashr_lt y m j hm
      exact h _ (by omega))]
  simp only [List.mem_range]
  by_cases h1 : ∀ j, j < k → val (hashr x m j) = 1
  · by_cases h2 : ∀ j, j < k → val (hashr y m j + m) = 1
    · rw [if_pos h1, if_pos h2, if_pos (fun j hj => ⟨h1 j hj, h2 j hj⟩)]
    · rw [if_pos h1, if_neg h2, if_neg (fun hc => h2 (fun j hj => (hc j hj).2))]
  · have hneg : ¬ ∀ j, j < k → val (hashr x m j) = 1 ∧ val (hashr y m j + m) = 1 :=
      fun hc => h1 (fun j hj => (hc j hj).1)
    rw [if_neg h1, if_neg hneg, Nat.zero_mul]

/-! ## The layout of the query -/

/-- The shape of the query that `client_query_with` builds from two filters of
size `m`: its length, the entries carrying the bits, the two encryptions of
zero and the modulus. -/
theorem client_query_with_layout (enc : Nat → Nat → Nat) (N : Nat) (bfx bfy : BloomFilter)
    (m : Nat) (hx : bfx.size = m) (hy : bfy.size = m) :
    (client_query_with enc N bfx bfy).length = 2 * m + 3 ∧
    (∀ i, i < 2 * m →
      (client_query_with enc N bfx bfy).getD i 0 = enc i (query_bit bfx bfy m i)) ∧
    (client_query_with enc N bfx bfy).getD (2 * m) 0 = enc (2 * m) 0 ∧
    (client_query_with enc N bfx bfy).getD (2 * m + 1) 0 = enc (2 * m + 1) 0 ∧
    (client_query_with enc N bfx bfy).getLastD 0 = N := by
  unfold client_query_with
  rw [hx, hy]
  refine ⟨by simp; omega, ?_, ?_, ?_, ?_⟩
  · intro i hi
    unfold query_bit
    simp only [List.getD_eq_getElem?_getD]
    by_cases him : i < m
    · rw [List.append_assoc, List.getElem?_append_left (by simpa using him)]
      simp [List.getElem?_range him, him]
    · have h2 : i - m < m := by omega
      rw [List.getElem?_append_left (by simp; omega),
        List.getElem?_append_right (by simp; omega)]
      simp only [List.length_map, List.length_range, List.getElem?_map,
        List.getElem?_range h2, Option.map_some', Option.getD_some, if_neg him]
      congr 1
      omega
  · simp only [List.getD_eq_getElem?_getD]
    rw [List.getElem?_append_right (by simp; omega)]
    simp
    have : 2 * m - (m + m) = 0 := by omega
    rw [this]
    simp
    congr 1
    omega
  · simp only [List.getD_eq_getElem?_getD]
    rw [List.getElem?_append_right (by simp; omega)]
    simp
    have : 2 * m + 1 - (m + m) = 1 := by omega
    rw [this]
    simp
    congr 1
    omega
  · have e : ∀ (l : List Nat) (a b c : Nat), l ++ [a, b, c] = (l ++ [a, b]) ++ [c] := by
      intro l a b c
      simp
    rw [e, List.getLastD_concat]

/-- The holder recovers the filter size from the length of the query. -/
theorem bf_length_of_query (m : Nat) (hm : m < 2 ^ 31) : bf_length_of (2 * m + 3) = m := by
  unfold bf_length_of
  have e : 2 * m + 3 + 2 ^ 64 - 3 = 2 * m + 2 ^ 64 := by omega
  rw [e, Nat.add_mod_right, Nat.mod_eq_of_lt (by omega)]
  omega

/-! ## Decryption of the sign of a record -/

/-- The plaintext bits of a query are bits. -/
theorem query_bit_le_one (bfx bfy : BloomFilter) (m i : Nat)
    (hbx : ∀ b ∈ bfx.bits, b ≤ 1) (hby : ∀ b ∈ bfy.bits, b ≤ 1) :
    query_bit bfx bfy m i ≤ 1 := by
  have aux : ∀ (l : List Nat) (j : Nat), (∀ b ∈ l, b ≤ 1) → l.getD j 0 ≤ 1 := by
    intro l j hl
    by_cases hj : j < l.length
    · rw [List.getD_eq_getElem l 0 hj]
      exact hl _ (List.getElem_mem hj)
    · rw [List.getD_eq_default l 0 (Nat.le_of_not_lt hj)]
      exact Nat.zero_le 1
  unfold query_bit
  split
  · exact aux _ _ hbx
  · exact aux _ _ hby

/-- The closed form over the plaintext bits is the indicator of the spec. -/
theorem sign_closed_form_query_bit (bfx bfy : BloomFilter) (m : Nat) (x y : Int) (k : Nat)
    (hm : 1 ≤ m) (hx : bfx.size = m) (hy : bfy.size = m)
    (hbx : ∀ b ∈ bfx.bits, b ≤ 1) (hby : ∀ b ∈ bfy.bits, b ≤ 1) :
    sign_closed_form (query_bit bfx bfy m) m x y k
      = if spec_addressed_bits_set k bfx bfy x y = true then 1 else 0 := by
  rw [sign_closed_form_bits (query_bit bfx bfy m) m x y k hm
    (fun i _ => query_bit_le_one bfx bfy m i hbx hby)]
  have hiff : (∀ j, j < k → query_bit bfx bfy m (hashr x m j) = 1
        ∧ query_bit bfx bfy m (hashr y m j + m) = 1)
      ↔ spec_addressed_bits_set k bfx bfy x y = true := by
    unfold spec_addressed_bits_set
    simp only [List.all_eq_true, List.mem_range, Bool.and_eq_true, beq_iff_eq, hx, hy]
    constructor
    · intro h j hj
      have h1 := h j hj
      have := hashr_lt x m j hm
      unfold query_bit at h1
      rw [if_pos this, if_neg (by omega), Nat.add_sub_cancel] at h1
      exact h1
    · intro h j hj
      have h1 := h j hj
      have := hashr_lt x m j hm
      unfold query_bit
      rw [if_pos this, if_neg (by omega), Nat.add_sub_cancel]
      exact h1
  by_cases h : spec_addressed_bits_set k bfx bfy x y = true
  · rw [if_pos h, if_pos (hiff.mpr h)]
  · rw [if_neg h, if_neg (fun hc => h (hiff.mp hc))]

/-- The noise term of the ciphertext at index `i` of the query is at most
`2 ^ nb * L` when the noise `rr i` has at most `nb` bits. -/
theorem query_noise_le (sk : SecretKey) (bfx bfy : BloomFilter) (m nb : Nat) (rr : Nat → Nat)
    (i : Nat) (hL : 1 ≤ sk.L) (hrr : ∀ k, rr k < 2 ^ nb)
    (hbx : ∀ b ∈ bfx.bits, b ≤ 1) (hby : ∀ b ∈ bfy.bits, b ≤ 1) :
    rr i * sk.L + query_bit bfx bfy m i ≤ 2 ^ nb * sk.L := by
  have h1 := query_bit_le_one bfx bfy m i hbx hby
  have h2 : (rr i + 1) * sk.L ≤ 2 ^ nb * sk.L := Nat.mul_le_mul_right _ (hrr i)
  have h3 : (rr i + 1) * sk.L = rr i * sk.L + sk.L := by ring
  omega

/-- Modulo `p` the sign of a record is the product of the noise terms
`rr i * L + bit i` of the ciphertexts it addresses. -/
theorem holder_sign_mod_p (sk : SecretKey) (bfx bfy : BloomFilter) (m k : Nat)
    (rr rr' : Nat → Nat) (x y : Int)
    (hm1 : 1 ≤ m) (hx : bfx.size = m) (hy : bfy.size = m) (hN : 2 ≤ sk.N) :
    holder_sign (client_query_with (fun i b => encrypt b sk (rr i) (rr' i)) sk.N bfx bfy)
        m sk.N x y k
      ≡ sign_closed_form (fun i => rr i * sk.L + query_bit bfx bfy m i) m x y k [MOD sk.p] := by
  obtain ⟨_, l2, _, _, _⟩ := client_query_with_layout
    (fun i b => encrypt b sk (rr i) (rr' i)) sk.N bfx bfy m hx hy
  have c1 := holder_sign_modEq
    (client_query_with (fun i b => encrypt b sk (rr i) (rr' i)) sk.N bfx bfy) m sk.N sk.p x y k
    hN (Dvd.intro _ rfl)
  have c2 := sign_closed_form_modEq
    (fun i => (client_query_with (fun i b => encrypt b sk (rr i) (rr' i)) sk.N bfx bfy).getD i 0)
    (fun i => rr i * sk.L + query_bit bfx bfy m i) m sk.p x y k hm1 (by
      intro i hi
      unfold Nat.ModEq
      beta_reduce
      rw [l2 i hi]
      exact encrypt_mod_p _ sk _ _)
  exact c1.trans c2

/-- Modulo `L` the product of the noise terms is the indicator that all the
addressed bits are `1`. -/
theorem noise_sign_mod_L (sk : SecretKey) (bfx bfy : BloomFilter) (m k : Nat)
    (rr : Nat → Nat) (x y : Int)
    (hm1 : 1 ≤ m) (hx : bfx.size = m) (hy : bfy.size = m)
    (hbx : ∀ b ∈ bfx.bits, b ≤ 1) (hby : ∀ b ∈ bfy.bits, b ≤ 1) :
    sign_closed_form (fun i => rr i * sk.L + query_bit bfx bfy m i) m x y k
      ≡ (if spec_addressed_bits_set k bfx bfy x y = true then 1 else 0) [MOD sk.L] := by
  have c4 := sign_closed_form_modEq (fun i => rr i * sk.L + query_bit bfx bfy m i)
    (query_bit bfx bfy m) m sk.L x y k hm1 (by
      intro i _
      unfold Nat.ModEq
      beta_reduce
      rw [Nat.mul_comm, Nat.mul_add_mod])
  rw [sign_closed_form_query_bit bfx bfy m x y k hm1 hx hy hbx hby] at c4
  exact c4

/-- The sign of any record of the holder, on a query of fresh ciphertexts with
noise of at most `nb` bits, decrypts to the indicator that all the addressed
bits are `1`, provided `(2 ^ nb * L) ^ (2 * hash_count) < p`. -/
theorem decrypt_holder_sign (sk : SecretKey) (bfx bfy : BloomFilter) (m nb k : Nat)
    (rr rr' : Nat → Nat) (x y : Int)
    (hm1 : 1 ≤ m) (hm2 : m < 2 ^ 31) (hx : bfx.size = m) (hy : bfy.size = m)
    (hbx : ∀ b ∈ bfx.bits, b ≤ 1) (hby : ∀ b ∈ bfy.bits, b ≤ 1)
    (hrr : ∀ i, rr i < 2 ^ nb) (hL : 2 ≤ sk.L) (hN : 2 ≤ sk.N)
    (hbound : (2 ^ nb * sk.L) ^ (2 * k) < sk.p) :
    decrypt (holder_sign (client_query_with (fun i b => encrypt b sk (rr i) (rr' i)) sk.N bfx bfy)
        (bf_length_of (client_query_with (fun i b => encrypt b sk (rr i) (rr' i)) sk.N bfx bfy).length)
        ((client_query_with (fun i b => encrypt b sk (rr i) (rr' i)) sk.N bfx bfy).getLastD 0)
        x y k) sk
      = if spec_addressed_bits_set k bfx bfy x y = true then 1 else 0 := by
  obtain ⟨l1, _, _, _, l5⟩ := client_query_with_layout
    (fun i b => encrypt b sk (rr i) (rr' i)) sk.N bfx bfy m hx hy
  rw [l1, l5, bf_length_of_query m hm2]
  have c12 := holder_sign_mod_p sk bfx bfy m k rr rr' x y hm1 hx hy hN
  have c3 := sign_closed_form_le (fun i => rr i * sk.L + query_bit bfx bfy m i) m
    (2 ^ nb * sk.L) x y k hm1
    (fun i _ => query_noise_le sk bfx bfy m nb rr i (by omega) hrr hbx hby)
  have c4 := noise_sign_mod_L sk bfx bfy m k rr x y hm1 hx hy hbx hby
  unfold decrypt
  unfold Nat.ModEq at c12 c4
  rw [c12, Nat.mod_eq_of_lt (Nat.lt_of_le_of_lt c3 hbound), c4]
  apply Nat.mod_eq_of_lt
  split <;> omega

/-- A noise value drawn with a bit count `k` that is not a multiple of 64 is
below `2 ^ (k % 64)`: the mask is applied to the whole number. -/
theorem generateRandom_lt_of_not_multiple (k : Nat) (words : Nat → Nat) (hk : k % 64 ≠ 0) :
    generateRandom k words < 2 ^ (k % 64) := by
  unfold generateRandom
  simp only [hk, ne_eq, not_false_eq_true, if_true, Nat.one_shiftLeft]
  exact Nat.and_lt_two_pow _ (Nat.sub_lt (Nat.pos_pow_of_pos _ (by decide)) (by decide))

/-! ## Claims C5 and C6: the range indicator -/

/-- C6. Range indicator for the code as written: with the key of `client.cpp`,
`hash_count = 7`, and a query the client builds with `encrypt` (noise drawn by
`generateRandom(80)` and `generateRandom(4096)`) from two filters of equal size
`m`, the sign `sign_1 * sign_2` of every record `(x, y)` decrypts to `1` if all
14 addressed bits are `1` and to `0` otherwise. -/
theorem range_indicator_as_implemented (bfx bfy : BloomFilter) (m : Nat)
    (words80 words4096 : Nat → Nat → Nat) (x y : Int)
    (hm1 : 1 ≤ m) (hm2 : m < 2 ^ 31) (hx : bfx.size = m) (hy : bfy.size = m)
    (hbx : ∀ b ∈ bfx.bits, b ≤ 1) (hby : ∀ b ∈ bfy.bits, b ≤ 1) :
    decrypt (holder_sign (client_query ref_sk bfx bfy words80 words4096)
        (bf_length_of (client_query ref_sk bfx bfy words80 words4096).length)
        ((client_query ref_sk bfx bfy words80 words4096).getLastD 0)
        x y server_params.hash_count) ref_sk
      = if spec_addressed_bits_set 7 bfx bfy x y = true then 1 else 0 :=
  decrypt_holder_sign ref_sk bfx bfy m 16 7 (fun i => generateRandom 80 (words80 i))
    (fun i => generateRandom 4096 (words4096 i)) x y hm1 hm2 hx hy hbx hby
    (fun i => generateRandom_lt_of_not_multiple 80 (words80 i) (by decide))
    (by decide) (by decide) (by decide)

/-- Witness of C6: the client's filters for the range `[0, 1)` (size 24), the
record `(0, 7)`. -/
theorem range_indicator_as_implemented_witness :
    decrypt (holder_sign
        (client_query ref_sk (client_filter 24 0 1) (client_filter 24 0 1)
          (fun _ _ => 5) (fun _ _ => 9))
        (bf_length_of
          (client_query ref_sk (client_filter 24 0 1) (client_filter 24 0 1)
            (fun _ _ => 5) (fun _ _ => 9)).length)
        ((client_query ref_sk (client_filter 24 0 1) (client_filter 24 0 1)
          (fun _ _ => 5) (fun _ _ => 9)).getLastD 0)
        0 7 server_params.hash_count) ref_sk
      = if spec_addressed_bits_set 7 (client_filter 24 0 1) (client_filter 24 0 1) 0 7 = true
        then 1 else 0 :=
  range_indicator_as_implemented (client_filter 24 0 1) (client_filter 24 0 1) 24
    (fun _ _ => 5) (fun _ _ => 9) 0 7 (by decide) (by decide) (by decide) (by decide)
    (by decide) (by decide)

/-- The filter the client builds has the requested size, an array of that
length, and only bits `0` and `1`. -/
theorem client_filter_shape (size : Nat) (a b : Int) :
    (client_filter size a b).size = size ∧ (client_filter size a b).bits.length = size ∧
    ∀ x ∈ (client_filter size a b).bits, x ≤ 1 := by
  unfold client_filter
  have hk := bloom_filter_foldl_keeps (range_values a b) (create_bloom_filter_sized size)
  refine ⟨hk.1, by simpa [create_bloom_filter_sized] using hk.2.2.1, ?_⟩
  have gen : ∀ (A : List Int) (bf : BloomFilter), (∀ x ∈ bf.bits, x ≤ 1) →
      ∀ x ∈ (A.foldl bloom_filter_insert bf).bits, x ≤ 1 := by
    intro A
    induction A with
    | nil => intro bf h; simpa using h
    | cons y A ih =>
      intro bf h
      simp only [List.foldl_cons]
      apply ih
      have loop : ∀ (n i : Nat) (bits : List Nat), (∀ x ∈ bits, x ≤ 1) →
          ∀ x ∈ bloom_filter_insert_loop bf.size y n i bits, x ≤ 1 := by
        intro n
        induction n with
        | zero => intro i bits hb; simpa [bloom_filter_insert_loop] using hb
        | succ n ihn =>
          intro i bits hb
          simp only [bloom_filter_insert_loop]
          apply ihn
          intro x hx
          rcases List.mem_or_eq_of_mem_set hx with h1 | h1
          · exact hb x h1
          · omega
      exact loop _ _ _ h
  apply gen
  intro x hx
  simp only [create_bloom_filter_sized] at hx
  rw [List.eq_of_mem_replicate hx]
  exact Nat.zero_le 1

/-- Every value of the range `[a, b)` addresses only set bits of the filter the
client builds for the range. -/
theorem client_filter_bit_set (size : Nat) (a b x : Int) (j : Nat)
    (hsize : 1 ≤ size) (ha : a ≤ x) (hb : x < b) (hj : j < 7) :
    (client_filter size a b).bits.getD (hashr x size j) 0 = 1 := by
  have hmem : x ∈ range_values a b := by
    simp only [range_values, List.mem_map, List.mem_range]
    have h1 : ((x - a).toNat : Int) = x - a := Int.toNat_of_nonneg (by omega)
    have h2 : ((b - a).toNat : Int) = b - a := Int.toNat_of_nonneg (by omega)
    refine ⟨(x - a).toNat, ?_, ?_⟩
    · omega
    · omega
  exact bloom_filter_foldl_sets (range_values a b) (create_bloom_filter_sized size) x j
    (by simp [create_bloom_filter_sized]) hsize hmem hj

/-- With noise `r = 2^80 - 1` in every ciphertext of the query, under the key of
`client.cpp`, a record whose 14 addressed bits are all `1` gets a sign that
decrypts to `80610842603252578229658`: the product of the 14 noise terms
exceeds `p`. -/
theorem decrypt_sign_full_noise (bfx bfy : BloomFilter) (m : Nat) (x y : Int)
    (hm1 : 1 ≤ m) (hm2 : m < 2 ^ 31) (hx : bfx.size = m) (hy : bfy.size = m)
    (hset : spec_addressed_bits_set 7 bfx bfy x y = true) :
    decrypt (holder_sign
        (client_query_with (fun _ b => encrypt b ref_sk (2 ^ 80 - 1) 1) ref_sk.N bfx bfy)
        (bf_length_of
          (client_query_with (fun _ b => encrypt b ref_sk (2 ^ 80 - 1) 1) ref_sk.N bfx bfy).length)
        ((client_query_with (fun _ b => encrypt b ref_sk (2 ^ 80 - 1) 1) ref_sk.N bfx bfy).getLastD 0)
        x y 7) ref_sk = 80610842603252578229658 := by
  obtain ⟨l1, _, _, _, l5⟩ := client_query_with_layout
    (fun _ b => encrypt b ref_sk (2 ^ 80 - 1) 1) ref_sk.N bfx bfy m hx hy
  rw [l1, l5, bf_length_of_query m hm2]
  have c12 := holder_sign_mod_p ref_sk bfx bfy m 7 (fun _ => 2 ^ 80 - 1) (fun _ => 1) x y
    hm1 hx hy (by decide)
  have hone : ∀ j, j < 7 → query_bit bfx bfy m (hashr x m j) = 1
      ∧ query_bit bfx bfy m (hashr y m j + m) = 1 := by
    intro j hj
    unfold spec_addressed_bits_set at hset
    simp only [List.all_eq_true, List.mem_range, Bool.and_eq_true, beq_iff_eq, hx, hy] at hset
    have h1 := hashr_lt x m j hm1
    unfold query_bit
    rw [if_pos h1, if_neg (by omega), Nat.add_sub_cancel]
    exact hset j hj
  have hval : sign_closed_form
      (fun i => (2 ^ 80 - 1) * ref_sk.L + query_bit bfx bfy m i) m x y 7
      = (List.replicate 7 ((2 ^ 80 - 1) * ref_sk.L + 1)).prod
          * (List.replicate 7 ((2 ^ 80 - 1) * ref_sk.L + 1)).prod := by
    unfold sign_closed_form
    have e1 : (List.range 7).map (fun j => (2 ^ 80 - 1) * ref_sk.L
          + query_bit bfx bfy m (hashr x m j))
        = (List.range 7).map (fun _ => (2 ^ 80 - 1) * ref_sk.L + 1) :=
      List.map_congr_left (fun j hj => by rw [(hone j (List.mem_range.mp hj)).1])
    have e2 : (List.range 7).map (fun j => (2 ^ 80 - 1) * ref_sk.L
          + query_bit bfx bfy m (hashr y m j + m))
        = (List.range 7).map (fun _ => (2 ^ 80 - 1) * ref_sk.L + 1) :=
      List.map_congr_left (fun j hj => by rw [(hone j (List.mem_range.mp hj)).2])
    rw [e1, e2]
    simp only [List.map_const', List.length_range]
  unfold decrypt
  unfold Nat.ModEq at c12
  beta_reduce at c12
  rw [c12, hval]
  decide

/-- C5, counterexample. The client's filters for the range `[0, 100)` have size
1920; the record `(5, 5)` lies in the range, so all 14 bits it addresses are `1`.
When every ciphertext of the bits is `((r * L + b) * (1 + r' * p)) mod N` with
`r = 2^80 - 1 < 2^80` and `r' = 1 < 2^4096` under the key of `client.cpp`, the
sign of the record does not decrypt to `1`. -/
theorem range_indicator_specified_noise_counterexample :
    2 ^ 80 - 1 < 2 ^ 80 ∧ 1 < 2 ^ 4096 ∧
    spec_addressed_bits_set 7 (client_filter 1920 0 100) (client_filter 1920 0 100) 5 5 = true ∧
    decrypt (holder_sign
        (client_query_with (fun _ b => encrypt b ref_sk (2 ^ 80 - 1) 1) ref_sk.N
          (client_filter 1920 0 100) (client_filter 1920 0 100))
        (bf_length_of (client_query_with (fun _ b => encrypt b ref_sk (2 ^ 80 - 1) 1) ref_sk.N
          (client_filter 1920 0 100) (client_filter 1920 0 100)).length)
        ((client_query_with (fun _ b => encrypt b ref_sk (2 ^ 80 - 1) 1) ref_sk.N
          (client_filter 1920 0 100) (client_filter 1920 0 100)).getLastD 0)
        5 5 7) ref_sk ≠ 1 := by
  obtain ⟨hsz, _, _⟩ := client_filter_shape 1920 0 100
  have hset : spec_addressed_bits_set 7 (client_filter 1920 0 100) (client_filter 1920 0 100)
      5 5 = true := by
    unfold spec_addressed_bits_set
    simp only [List.all_eq_true, List.mem_range, Bool.and_eq_true, beq_iff_eq, hsz]
    intro j hj
    exact ⟨client_filter_bit_set 1920 0 100 5 j (by decide) (by decide) (by decide) hj,
      client_filter_bit_set 1920 0 100 5 j (by decide) (by decide) (by decide) hj⟩
  refine ⟨by decide, Nat.one_lt_two_pow (by decide), hset, ?_⟩
  rw [decrypt_sign_full_noise (client_filter 1920 0 100) (client_filter 1920 0 100) 1920 5 5
    (by decide) (by decide) hsz hsz hset]
  decide

/-- C5, amended. With the key of `client.cpp`, `hash_count = 7`, and every query
ciphertext of the form `((r * L + b) * (1 + r' * p)) mod N` with a bit `b` and
noise `r < 2^66` (any `r'`), the sign of every record decrypts to `1` if all 14
addressed bits are `1` and to `0` otherwise. -/
theorem range_indicator_bounded_noise (bfx bfy : BloomFilter) (m : Nat)
    (rr rr' : Nat → Nat) (x y : Int)
    (hm1 : 1 ≤ m) (hm2 : m < 2 ^ 31) (hx : bfx.size = m) (hy : bfy.size = m)
    (hbx : ∀ b ∈ bfx.bits, b ≤ 1) (hby : ∀ b ∈ bfy.bits, b ≤ 1)
    (hrr : ∀ i, rr i < 2 ^ 66) :
    decrypt (holder_sign
        (client_query_with (fun i b => encrypt b ref_sk (rr i) (rr' i)) ref_sk.N bfx bfy)
        (bf_length_of
          (client_query_with (fun i b => encrypt b ref_sk (rr i) (rr' i)) ref_sk.N bfx bfy).length)
        ((client_query_with (fun i b => encrypt b ref_sk (rr i) (rr' i)) ref_sk.N bfx bfy).getLastD 0)
        x y server_params.hash_count) ref_sk
      = if spec_addressed_bits_set 7 bfx bfy x y = true then 1 else 0 :=
  decrypt_holder_sign ref_sk bfx bfy m 66 7 rr rr' x y hm1 hm2 hx hy hbx hby hrr
    (by decide) (by decide) (by decide)

/-- Witness of C5 (amended): the client's filters for the range `[0, 1)` (size
24), noise `2^66 - 1`, the record `(0, 0)`. -/
theorem range_indicator_bounded_noise_witness :
    decrypt (holder_sign
        (client_query_with (fun i b => encrypt b ref_sk ((fun _ => 2 ^ 66 - 1) i) ((fun _ => 3) i))
          ref_sk.N (client_filter 24 0 1) (client_filter 24 0 1))
        (bf_length_of
          (client_query_with (fun i b => encrypt b ref_sk ((fun _ => 2 ^ 66 - 1) i) ((fun _ => 3) i))
            ref_sk.N (client_filter 24 0 1) (client_filter 24 0 1)).length)
        ((client_query_with (fun i b => encrypt b ref_sk ((fun _ => 2 ^ 66 - 1) i) ((fun _ => 3) i))
          ref_sk.N (client_filter 24 0 1) (client_filter 24 0 1)).getLastD 0)
        0 0 server_params.hash_count) ref_sk
      = if spec_addressed_bits_set 7 (client_filter 24 0 1) (client_filter 24 0 1) 0 0 = true
        then 1 else 0 :=
  range_indicator_bounded_noise (client_filter 24 0 1) (client_filter 24 0 1) 24
    (fun _ => 2 ^ 66 - 1) (fun _ => 3) 0 0 (by decide) (by decide) (by decide) (by decide)
    (by decide) (by decide) (fun _ => (by decide : 2 ^ 66 - 1 < 2 ^ 66))

/-! ## The decrypted sketch -/

/-- The zero count of the client on a shuffled vector: the shuffle does not
change it, and it can be counted over the positions before the shuffle. -/
theorem zero_bits_count_shuffle (dec : Nat → Nat) (xs order : List Nat) (n : Nat)
    (q : Nat → Bool) (horder : order.Perm (List.range n))
    (hq : ∀ t, t < n → (dec (xs.getD t 0) == 0) = q t) :
    zero_bits_count dec (shuffle xs order) = (List.range n).countP q := by
  unfold zero_bits_count shuffle
  rw [List.countP_map, List.countP_map, horder.countP_eq]
  apply List.countP_congr
  intro t ht
  have := hq t (List.mem_range.mp ht)
  simp only [Function.comp_apply]
  rw [this]

/-- Without the blinded zeros, an entry of the blinded sum vanishes exactly when
every record that hashes to it has sign `0`. -/
theorem blinded_closed_form_zero_iff (P : HolderParams) (arr1 arr2 : List Int)
    (u v : Nat → Nat → Nat) (r : Nat → Nat) (sgn : Nat → Nat) (t : Nat) (hr : 1 ≤ r t) :
    blinded_closed_form P arr1 arr2 0 0 u v r sgn t = 0
      ↔ ∀ p, p < P.server_number → ∀ i, i < P.data_size_per_provider →
          hasht (arr1.getD (p * P.data_size_per_provider + i) 0)
            (arr2.getD (p * P.data_size_per_provider + i) 0) P.lc_length 0 = t →
          sgn (p * P.data_size_per_provider + i) = 0 := by
  unfold blinded_closed_form bucket_closed_form
  simp only [Nat.mul_zero, Nat.add_zero, Nat.zero_add]
  rw [Nat.mul_eq_zero]
  constructor
  · intro h p hp i hi hh
    rcases h with h | h
    · have h1 := List.sum_eq_zero_iff.mp h _ (List.mem_map.mpr ⟨p, List.mem_range.mpr hp, rfl⟩)
      have h2 := List.sum_eq_zero_iff.mp h1 _ (List.mem_map.mpr ⟨i, List.mem_range.mpr hi, rfl⟩)
      rw [if_pos hh] at h2
      exact h2
    · omega
  · intro h
    left
    apply List.sum_eq_zero
    intro a ha
    obtain ⟨p, hp, rfl⟩ := List.mem_map.mp ha
    apply List.sum_eq_zero
    intro b hb
    obtain ⟨i, hi, rfl⟩ := List.mem_map.mp hb
    split
    · next hh => exact h p (List.mem_range.mp hp) i (List.mem_range.mp hi) hh
    · rfl

/-- The spec's "bucket `t` is touched" in terms of the records. -/
theorem spec_bucket_touched_eq_false_iff (P : HolderParams) (bfx bfy : BloomFilter)
    (arr1 arr2 : List Int) (t : Nat) :
    spec_bucket_touched P bfx bfy arr1 arr2 t = false
      ↔ ∀ p, p < P.server_number → ∀ i, i < P.data_size_per_provider →
          hasht (arr1.getD (p * P.data_size_per_provider + i) 0)
            (arr2.getD (p * P.data_size_per_provider + i) 0) P.lc_length 0 = t →
          (if spec_addressed_bits_set P.hash_count bfx bfy
              (arr1.getD (p * P.data_size_per_provider + i) 0)
              (arr2.getD (p * P.data_size_per_provider + i) 0) = true then 1 else 0) = 0 := by
  unfold spec_bucket_touched
  simp only [List.any_eq_false, List.mem_range, Bool.and_eq_true, beq_iff_eq, not_and,
    Bool.not_eq_true, List.any_eq_true, not_exists]
  constructor
  · intro h p hp i hi hh
    have := h p hp i hi hh
    rw [if_neg (by rw [this]; exact Bool.false_ne_true)]
  · intro h p hp i hi hh
    have := h p hp i hi hh
    by_cases hc : spec_addressed_bits_set P.hash_count bfx bfy
        (arr1.getD (p * P.data_size_per_provider + i) 0)
        (arr2.getD (p * P.data_size_per_provider + i) 0) = true
    · rw [if_pos hc] at this
      omega
    · simpa using hc

/-- Entry `t` of the blinded sum of the aggregator, on a query of fresh
ciphertexts with noise of at most `nb` bits, decrypts to the blinding factor
times the number of records that hash to `t` and address only set bits,
provided the noise of the whole sum stays below `p` and the counts stay below
`L`. -/
theorem decrypt_blinded_bucket (sk : SecretKey) (P : HolderParams) (bfx bfy : BloomFilter)
    (m nb : Nat) (rr rr' : Nat → Nat) (arr1 arr2 : List Int) (u v : Nat → Nat → Nat)
    (r : Nat → Nat) (t : Nat)
    (hm1 : 1 ≤ m) (hm2 : m < 2 ^ 31) (hx : bfx.size = m) (hy : bfy.size = m)
    (hbx : ∀ b ∈ bfx.bits, b ≤ 1) (hby : ∀ b ∈ bfy.bits, b ≤ 1)
    (hrr : ∀ i, rr i < 2 ^ nb) (hL : 2 ≤ sk.L) (hN : 2 ≤ sk.N)
    (hlc : 1 ≤ P.lc_length) (hS : 1 ≤ P.server_number) (ht : t < P.lc_length)
    (hu : ∀ p i, u p i ≤ 100) (hv : ∀ p i, v p i ≤ 100) (hr : ∀ i, r i ≤ 100)
    (hnoise : P.server_number * (100 * (2 ^ nb * sk.L) + 100 * (2 ^ nb * sk.L)
      + P.data_size_per_provider * (2 ^ nb * sk.L) ^ (2 * P.hash_count)) * 100 < sk.p)
    (hcount : P.server_number * (100 * 0 + 100 * 0 + P.data_size_per_provider * 1) * 100
      < sk.L) :
    decrypt ((private_lc_sketch (lc_sketch_agg P.server_number
        (lc_sketch_combined P arr1 arr2
          (client_query_with (fun i b => encrypt b sk (rr i) (rr' i)) sk.N bfx bfy) u v)) r).getD
        t 0) sk
      = blinded_closed_form P arr1 arr2 0 0 u v r
          (fun k => if spec_addressed_bits_set P.hash_count bfx bfy (arr1.getD k 0)
            (arr2.getD k 0) = true then 1 else 0) t := by
  obtain ⟨l1, _, l3, l4, l5⟩ := client_query_with_layout
    (fun i b => encrypt b sk (rr i) (rr' i)) sk.N bfx bfy m hx hy
  rw [(blinded_bucket P arr1 arr2 _ u v r hlc hS t ht).2, l1, l5, bf_length_of_query m hm2]
  have e3 : 2 * m + 3 - 3 = 2 * m := by omega
  have e4 : 2 * m + 3 - 2 = 2 * m + 1 := by omega
  rw [e3, e4, l3, l4]
  have hL1 : 1 ≤ sk.L := by omega
  -- modulo p: the noise terms
  have c1 := blinded_closed_form_modEq P arr1 arr2
    (encrypt 0 sk (rr (2 * m)) (rr' (2 * m))) (encrypt 0 sk (rr (2 * m + 1)) (rr' (2 * m + 1)))
    (rr (2 * m) * sk.L + 0) (rr (2 * m + 1) * sk.L + 0) u v r
    (fun k => holder_sign (client_query_with (fun i b => encrypt b sk (rr i) (rr' i)) sk.N bfx bfy)
      m sk.N (arr1.getD k 0) (arr2.getD k 0) P.hash_count)
    (fun k => sign_closed_form (fun i => rr i * sk.L + query_bit bfx bfy m i) m
      (arr1.getD k 0) (arr2.getD k 0) P.hash_count)
    sk.p t (encrypt_mod_p 0 sk _ _) (encrypt_mod_p 0 sk _ _)
    (fun k => holder_sign_mod_p sk bfx bfy m P.hash_count rr rr' _ _ hm1 hx hy hN)
  have hE : ∀ i, rr i * sk.L + 0 ≤ 2 ^ nb * sk.L := by
    intro i
    have h2 : (rr i + 1) * sk.L ≤ 2 ^ nb * sk.L := Nat.mul_le_mul_right _ (hrr i)
    have h3 : (rr i + 1) * sk.L = rr i * sk.L + sk.L := by ring
    omega
  have c2 := blinded_closed_form_le P arr1 arr2
    (rr (2 * m) * sk.L + 0) (rr (2 * m + 1) * sk.L + 0) u v r
    (fun k => sign_closed_form (fun i => rr i * sk.L + query_bit bfx bfy m i) m
      (arr1.getD k 0) (arr2.getD k 0) P.hash_count) t
    (2 ^ nb * sk.L) ((2 ^ nb * sk.L) ^ (2 * P.hash_count)) (hE _) (hE _)
    (fun k => sign_closed_form_le _ m (2 ^ nb * sk.L) _ _ P.hash_count hm1
      (fun i _ => query_noise_le sk bfx bfy m nb rr i hL1 hrr hbx hby))
    hu hv hr
  -- modulo L: the plaintexts
  have c3 := blinded_closed_form_modEq P arr1 arr2
    (rr (2 * m) * sk.L + 0) (rr (2 * m + 1) * sk.L + 0) 0 0 u v r
    (fun k => sign_closed_form (fun i => rr i * sk.L + query_bit bfx bfy m i) m
      (arr1.getD k 0) (arr2.getD k 0) P.hash_count)
    (fun k => if spec_addressed_bits_set P.hash_count bfx bfy (arr1.getD k 0)
      (arr2.getD k 0) = true then 1 else 0)
    sk.L t
    (by unfold Nat.ModEq; rw [Nat.mul_comm, Nat.mul_add_mod])
    (by unfold Nat.ModEq; rw [Nat.mul_comm, Nat.mul_add_mod])
    (fun k => noise_sign_mod_L sk bfx bfy m P.hash_count rr _ _ hm1 hx hy hbx hby)
  have c4 := blinded_closed_form_le P arr1 arr2 0 0 u v r
    (fun k => if spec_addressed_bits_set P.hash_count bfx bfy (arr1.getD k 0)
      (arr2.getD k 0) = true then 1 else 0) t 0 1 (Nat.le_refl 0) (Nat.le_refl 0)
    (fun k => by beta_reduce; split <;> omega) hu hv hr
  unfold decrypt
  unfold Nat.ModEq at c1 c3
  rw [c1, Nat.mod_eq_of_lt (Nat.lt_of_le_of_lt c2 hnoise), c3,
    Nat.mod_eq_of_lt (Nat.lt_of_le_of_lt c4 hcount)]

/-- The client's zero count on the response of the aggregator, when entry `t`
of the blinded sum decrypts to zero exactly for the untouched buckets. -/
theorem zero_count_of_response (dec : Nat → Nat) (P : HolderParams) (bfx bfy : BloomFilter)
    (arr1 arr2 : List Int) (query : List Nat) (u v : Nat → Nat → Nat) (r : Nat → Nat)
    (order : List Nat) (hlc : 1 ≤ P.lc_length) (hS : 1 ≤ P.server_number)
    (horder : order.Perm (List.range P.lc_length))
    (hdec : ∀ t, t < P.lc_length →
      (dec ((private_lc_sketch (lc_sketch_agg P.server_number
          (lc_sketch_combined P arr1 arr2 query u v)) r).getD t 0) = 0
        ↔ spec_bucket_touched P bfx bfy arr1 arr2 t = false)) :
    ∃ resp, center_response P.server_number (lc_sketch_combined P arr1 arr2 query u v) r order
        = some resp ∧
      zero_bits_count dec resp = spec_untouched_buckets P bfx bfy arr1 arr2 := by
  have hlen : (lc_sketch_combined P arr1 arr2 query u v).length
      = P.lc_length * P.server_number :=
    (lc_sketch_combined_bucket P arr1 arr2 query u v hlc 0 0 hS hlc).1
  refine ⟨shuffle (private_lc_sketch (lc_sketch_agg P.server_number
    (lc_sketch_combined P arr1 arr2 query u v)) r) order, ?_, ?_⟩
  · unfold center_response
    rw [hlen, Nat.mul_mod_left]
    simp only [ne_eq, not_true_eq_false, if_false]
  · unfold spec_untouched_buckets
    apply zero_bits_count_shuffle dec _ order P.lc_length _ horder
    intro t ht
    have h := hdec t ht
    by_cases hb : spec_bucket_touched P bfx bfy arr1 arr2 t = false
    · rw [hb, beq_iff_eq.mpr (h.mpr hb)]
      rfl
    · have hb2 : spec_bucket_touched P bfx bfy arr1 arr2 t = true := by simpa using hb
      rw [hb2]
      have : ¬ dec ((private_lc_sketch (lc_sketch_agg P.server_number
          (lc_sketch_combined P arr1 arr2 query u v)) r).getD t 0) = 0 := fun hc => hb (h.mp hc)
      simpa using this

/-! ## Claim C4: the sketch with encryption on -/

/-- C4. End-to-end sketch correctness with encryption on: with the key of
`client.cpp`, the constants of `server.cpp` (`hash_count = 7`, `lc_length = 2048`,
`server_number = 4`, 2190 records per provider), a query built by the client
with `encrypt` (noise drawn by `generateRandom(80)` and `generateRandom(4096)`),
any data, any blinding coefficients `u, v` and factors `r` in `[1, 100]`: bucket
`t` of the blinded sum of the aggregator decrypts to `0` exactly when no record
of any provider that addresses only set bits hashes to `t`; and the client's
zero count on the shuffled response is the number of such buckets. -/
theorem sketch_correct_encrypted (bfx bfy : BloomFilter) (m : Nat)
    (words80 words4096 : Nat → Nat → Nat) (arr1 arr2 : List Int)
    (u v : Nat → Nat → Nat) (r : Nat → Nat) (order : List Nat)
    (hm1 : 1 ≤ m) (hm2 : m < 2 ^ 31) (hx : bfx.size = m) (hy : bfy.size = m)
    (hbx : ∀ b ∈ bfx.bits, b ≤ 1) (hby : ∀ b ∈ bfy.bits, b ≤ 1)
    (hu : ∀ p i, 1 ≤ u p i ∧ u p i ≤ 100) (hv : ∀ p i, 1 ≤ v p i ∧ v p i ≤ 100)
    (hr : ∀ i, 1 ≤ r i ∧ r i ≤ 100)
    (horder : order.Perm (List.range server_params.lc_length)) :
    (∀ t, t < server_params.lc_length →
      (decrypt ((private_lc_sketch (lc_sketch_agg server_params.server_number
          (lc_sketch_combined server_params arr1 arr2
            (client_query ref_sk bfx bfy words80 words4096) u v)) r).getD t 0) ref_sk = 0
        ↔ spec_bucket_touched server_params bfx bfy arr1 arr2 t = false)) ∧
    ∃ resp, center_response server_params.server_number
        (lc_sketch_combined server_params arr1 arr2
          (client_query ref_sk bfx bfy words80 words4096) u v) r order = some resp ∧
      zero_bits_count (fun c => decrypt c ref_sk) resp
        = spec_untouched_buckets server_params bfx bfy arr1 arr2 := by
  have hdec : ∀ t, t < server_params.lc_length →
      (decrypt ((private_lc_sketch (lc_sketch_agg server_params.server_number
          (lc_sketch_combined server_params arr1 arr2
            (client_query ref_sk bfx bfy words80 words4096) u v)) r).getD t 0) ref_sk = 0
        ↔ spec_bucket_touched server_params bfx bfy arr1 arr2 t = false) := by
    intro t ht
    have h := decrypt_blinded_bucket ref_sk server_params bfx bfy m 16
      (fun i => generateRandom 80 (words80 i)) (fun i => generateRandom 4096 (words4096 i))
      arr1 arr2 u v r t hm1 hm2 hx hy hbx hby
      (fun i => generateRandom_lt_of_not_multiple 80 (words80 i) (by decide))
      (by decide) (by decide) (by decide) (by decide) ht
      (fun p i => (hu p i).2) (fun p i => (hv p i).2) (fun i => (hr i).2)
      (by decide) (by decide)
    have h' : decrypt ((private_lc_sketch (lc_sketch_agg server_params.server_number
          (lc_sketch_combined server_params arr1 arr2
            (client_query ref_sk bfx bfy words80 words4096) u v)) r).getD t 0) ref_sk
        = blinded_closed_form server_params arr1 arr2 0 0 u v r
          (fun k => if spec_addressed_bits_set server_params.hash_count bfx bfy (arr1.getD k 0)
            (arr2.getD k 0) = true then 1 else 0) t := h
    rw [h', blinded_closed_form_zero_iff server_params arr1 arr2 u v r _ t (hr t).1,
      spec_bucket_touched_eq_false_iff]
  exact ⟨hdec, zero_count_of_response (fun c => decrypt c ref_sk) server_params bfx bfy arr1 arr2
    _ u v r order (by decide) (by decide) horder hdec⟩

/-- Witness of C4: the client's filters for the range `[0, 1)` (size 24), the
data `server.cpp` generates, all coefficients `3`, the identity permutation. -/
theorem sketch_correct_encrypted_witness :
    ∃ resp, center_response server_params.server_number
        (lc_sketch_combined server_params (generated_data server_params)
          (generated_data server_params)
          (client_query ref_sk (client_filter 24 0 1) (client_filter 24 0 1)
            (fun _ _ => 5) (fun _ _ => 9)) (fun _ _ => 3) (fun _ _ => 3)) (fun _ => 3)
        (List.range server_params.lc_length) = some resp ∧
      zero_bits_count (fun c => decrypt c ref_sk) resp
        = spec_untouched_buckets server_params (client_filter 24 0 1) (client_filter 24 0 1)
            (generated_data server_params) (generated_data server_params) :=
  (sketch_correct_encrypted (client_filter 24 0 1) (client_filter 24 0 1) 24
    (fun _ _ => 5) (fun _ _ => 9) (generated_data server_params) (generated_data server_params)
    (fun _ _ => 3) (fun _ _ => 3) (fun _ => 3) (List.range server_params.lc_length)
    (by decide) (by decide) (by decide) (by decide) (by decide) (by decide)
    (fun _ _ => ⟨(by decide : 1 ≤ 3), (by decide : 3 ≤ 100)⟩)
    (fun _ _ => ⟨(by decide : 1 ≤ 3), (by decide : 3 ≤ 100)⟩)
    (fun _ => ⟨(by decide : 1 ≤ 3), (by decide : 3 ≤ 100)⟩) (List.Perm.refl _)).2

/-! ## Claim C9: the pipeline with the identity scheme -/

/-- With the identity scheme (every bit sent in clear, modulus `N >= 2`) the
sign of a record is the indicator that all its addressed bits are `1`. -/
theorem identity_holder_sign (N : Nat) (bfx bfy : BloomFilter) (m k : Nat) (x y : Int)
    (hN : 2 ≤ N) (hm1 : 1 ≤ m) (hx : bfx.size = m) (hy : bfy.size = m)
    (hbx : ∀ b ∈ bfx.bits, b ≤ 1) (hby : ∀ b ∈ bfy.bits, b ≤ 1) :
    holder_sign (client_query_with (fun _ b => b) N bfx bfy) m N x y k
      = if spec_addressed_bits_set k bfx bfy x y = true then 1 else 0 := by
  obtain ⟨_, l2, _, _, _⟩ := client_query_with_layout (fun _ b => b) N bfx bfy m hx hy
  have e1 : (List.range k).map
        (fun j => (client_query_with (fun _ b => b) N bfx bfy).getD (hashr x m j) 0)
      = (List.range k).map (fun j => query_bit bfx bfy m (hashr x m j)) :=
    List.map_congr_left (fun j _ => l2 _ (by have := hashr_lt x m j hm1; omega))
  have e2 : (List.range k).map
        (fun j => (client_query_with (fun _ b => b) N bfx bfy).getD (hashr y m j + m) 0)
      = (List.range k).map (fun j => query_bit bfx bfy m (hashr y m j + m)) :=
    List.map_congr_left (fun j _ => l2 _ (by have := hashr_lt y m j hm1; omega))
  have b1 := prod_map_bits (List.range k) (fun j => query_bit bfx bfy m (hashr x m j))
    (fun j _ => query_bit_le_one bfx bfy m _ hbx hby)
  have b2 := prod_map_bits (List.range k) (fun j => query_bit bfx bfy m (hashr y m j + m))
    (fun j _ => query_bit_le_one bfx bfy m _ hbx hby)
  have s1 : ((List.range k).map (fun j => query_bit bfx bfy m (hashr x m j))).prod < N := by
    rw [b1]
    split <;> omega
  have s2 : ((List.range k).map (fun j => query_bit bfx bfy m (hashr y m j + m))).prod < N := by
    rw [b2]
    split <;> omega
  unfold holder_sign
  simp only [sign_loop_eq _ m N x y k hN]
  rw [e1, e2, Nat.mod_eq_of_lt s1, Nat.mod_eq_of_lt s2]
  exact sign_closed_form_query_bit bfx bfy m x y k hm1 hx hy hbx hby

/-- With the identity scheme entry `t` of the blinded sum of the aggregator is
zero exactly when no record that addresses only set bits hashes to `t`. -/
theorem identity_blinded_zero_iff (N : Nat) (P : HolderParams) (bfx bfy : BloomFilter)
    (m : Nat) (arr1 arr2 : List Int) (u v : Nat → Nat → Nat) (r : Nat → Nat) (t : Nat)
    (hN : 2 ≤ N) (hm1 : 1 ≤ m) (hm2 : m < 2 ^ 31) (hx : bfx.size = m) (hy : bfy.size = m)
    (hbx : ∀ b ∈ bfx.bits, b ≤ 1) (hby : ∀ b ∈ bfy.bits, b ≤ 1)
    (hlc : 1 ≤ P.lc_length) (hS : 1 ≤ P.server_number) (ht : t < P.lc_length)
    (hr : 1 ≤ r t) :
    (private_lc_sketch (lc_sketch_agg P.server_number
        (lc_sketch_combined P arr1 arr2 (client_query_with (fun _ b => b) N bfx bfy) u v)) r).getD
        t 0 = 0
      ↔ spec_bucket_touched P bfx bfy arr1 arr2 t = false := by
  obtain ⟨l1, _, l3, l4, l5⟩ := client_query_with_layout (fun _ b => b) N bfx bfy m hx hy
  rw [(blinded_bucket P arr1 arr2 _ u v r hlc hS t ht).2, l1, l5, bf_length_of_query m hm2]
  have e3 : 2 * m + 3 - 3 = 2 * m := by omega
  have e4 : 2 * m + 3 - 2 = 2 * m + 1 := by omega
  rw [e3, e4, l3, l4]
  have hs : (fun k => holder_sign (client_query_with (fun _ b => b) N bfx bfy) m N
        (arr1.getD k 0) (arr2.getD k 0) P.hash_count)
      = (fun k => if spec_addressed_bits_set P.hash_count bfx bfy (arr1.getD k 0)
          (arr2.getD k 0) = true then 1 else 0) :=
    funext (fun k => identity_holder_sign N bfx bfy m P.hash_count _ _ hN hm1 hx hy hbx hby)
  rw [hs, blinded_closed_form_zero_iff P arr1 arr2 u v r _ t hr,
    spec_bucket_touched_eq_false_iff]

/-- A record of the true in-range set addresses only set bits of the client's
filters. -/
theorem in_range_bits_set (m : Nat) (a b c d x y : Int) (hm1 : 1 ≤ m)
    (hx : a ≤ x ∧ x < b) (hy : c ≤ y ∧ y < d) :
    spec_addressed_bits_set 7 (client_filter m a b) (client_filter m c d) x y = true := by
  unfold spec_addressed_bits_set
  simp only [List.all_eq_true, List.mem_range, Bool.and_eq_true, beq_iff_eq,
    (client_filter_shape m a b).1, (client_filter_shape m c d).1]
  intro j hj
  exact ⟨client_filter_bit_set m a b x j hm1 hx.1 hx.2 hj,
    client_filter_bit_set m c d y j hm1 hy.1 hy.2 hj⟩

/-- The buckets that no passing record touches are among the buckets that no
record of the true in-range set touches. -/
theorem spec_untouched_le_plain (P : HolderParams) (m : Nat) (a b c d : Int)
    (arr1 arr2 : List Int) (hm1 : 1 ≤ m) (hk : P.hash_count = 7) :
    spec_untouched_buckets P (client_filter m a b) (client_filter m c d) arr1 arr2
      ≤ spec_plain_zero_count P a b c d arr1 arr2 := by
  unfold spec_untouched_buckets spec_plain_zero_count
  apply List.countP_mono_left
  intro t _ h
  simp only [Bool.not_eq_true'] at h ⊢
  rw [spec_bucket_touched_eq_false_iff] at h
  rw [List.any_eq_false]
  intro k hkmem hc
  have hklt : k < P.data_size_per_provider * P.server_number := List.mem_range.mp hkmem
  simp only [Bool.and_eq_true, decide_eq_true_eq, beq_iff_eq] at hc
  obtain ⟨⟨h1, h2, h3, h4⟩, h5⟩ := hc
  have hpos : 0 < P.data_size_per_provider := by
    rcases Nat.eq_zero_or_pos P.data_size_per_provider with h0 | h0
    · rw [h0, Nat.zero_mul] at hklt
      omega
    · exact h0
  have hdecomp : k / P.data_size_per_provider * P.data_size_per_provider
      + k % P.data_size_per_provider = k := Nat.div_add_mod' k _
  have hp : k / P.data_size_per_provider < P.server_number :=
    Nat.div_lt_of_lt_mul hklt
  have hi : k % P.data_size_per_provider < P.data_size_per_provider := Nat.mod_lt _ hpos
  have := h (k / P.data_size_per_provider) hp (k % P.data_size_per_provider) hi
    (by rw [hdecomp]; exact h5)
  rw [hdecomp, hk, in_range_bits_set m a b c d _ _ hm1 ⟨h1, h2⟩ ⟨h3, h4⟩] at this
  simp at this

/-- When no record outside the range passes both filters, the buckets that no
record of the true in-range set touches are untouched by every passing
record. -/
theorem spec_plain_le_untouched (P : HolderParams) (bfx bfy : BloomFilter) (a b c d : Int)
    (arr1 arr2 : List Int)
    (hfp : ∀ k, k < P.total_data_size →
      spec_addressed_bits_set P.hash_count bfx bfy (arr1.getD k 0) (arr2.getD k 0) = true →
      a ≤ arr1.getD k 0 ∧ arr1.getD k 0 < b ∧ c ≤ arr2.getD k 0 ∧ arr2.getD k 0 < d) :
    spec_plain_zero_count P a b c d arr1 arr2
      ≤ spec_untouched_buckets P bfx bfy arr1 arr2 := by
  unfold spec_untouched_buckets spec_plain_zero_count
  apply List.countP_mono_left
  intro t _ h
  simp only [Bool.not_eq_true'] at h ⊢
  rw [spec_bucket_touched_eq_false_iff]
  rw [List.any_eq_false] at h
  intro p hp i hi hh
  have hk : p * P.data_size_per_provider + i < P.total_data_size := by
    unfold HolderParams.total_data_size
    have h1 : (p + 1) * P.data_size_per_provider
        ≤ P.server_number * P.data_size_per_provider := Nat.mul_le_mul_right _ hp
    have h2 : (p + 1) * P.data_size_per_provider
        = p * P.data_size_per_provider + P.data_size_per_provider := by ring
    have h3 : P.server_number * P.data_size_per_provider
        = P.data_size_per_provider * P.server_number := Nat.mul_comm _ _
    omega
  split
  · next hset =>
    exfalso
    have hin := hfp _ hk hset
    apply h (p * P.data_size_per_provider + i) (List.mem_range.mpr hk)
    simp only [Bool.and_eq_true, decide_eq_true_eq, beq_iff_eq]
    exact ⟨hin, hh⟩
  · rfl

/-- The response of the pipeline run with the identity scheme on filters of one
size `m`, and its zero count. -/
theorem identity_scheme_zero_count (N m : Nat) (a b c d : Int) (arr1 arr2 : List Int)
    (u v : Nat → Nat → Nat) (r : Nat → Nat) (order : List Nat)
    (hN : 2 ≤ N) (hm1 : 1 ≤ m) (hm2 : m < 2 ^ 31) (hr : ∀ i, 1 ≤ r i ∧ r i ≤ 100)
    (horder : order.Perm (List.range server_params.lc_length)) :
    ∃ resp, center_response server_params.server_number
        (lc_sketch_combined server_params arr1 arr2
          (client_query_with (fun _ bit => bit) N (client_filter m a b) (client_filter m c d))
          u v) r order = some resp ∧
      zero_bits_count (fun x => x) resp
        = spec_untouched_buckets server_params (client_filter m a b) (client_filter m c d)
            arr1 arr2 ∧
      zero_bits_count (fun x => x) resp
        ≤ spec_plain_zero_count server_params a b c d arr1 arr2 ∧
      ((∀ k, k < server_params.total_data_size →
          spec_addressed_bits_set server_params.hash_count (client_filter m a b)
            (client_filter m c d) (arr1.getD k 0) (arr2.getD k 0) = true →
          a ≤ arr1.getD k 0 ∧ arr1.getD k 0 < b ∧ c ≤ arr2.getD k 0 ∧ arr2.getD k 0 < d) →
        zero_bits_count (fun x => x) resp
          = spec_plain_zero_count server_params a b c d arr1 arr2) := by
  obtain ⟨sx, _, bx⟩ := client_filter_shape m a b
  obtain ⟨sy, _, by'⟩ := client_filter_shape m c d
  obtain ⟨resp, h1, h2⟩ := zero_count_of_response (fun x => x) server_params
    (client_filter m a b) (client_filter m c d) arr1 arr2
    (client_query_with (fun _ bit => bit) N (client_filter m a b) (client_filter m c d))
    u v r order (by decide) (by decide) horder
    (fun t ht => identity_blinded_zero_iff N server_params _ _ m arr1 arr2 u v r t hN hm1 hm2
      sx sy bx by' (by decide) (by decide) ht (hr t).1)
  have hle := spec_untouched_le_plain server_params m a b c d arr1 arr2 hm1 rfl
  refine ⟨resp, h1, h2, ?_, ?_⟩
  · rw [h2]
    exact hle
  · intro hfp
    rw [h2]
    exact Nat.le_antisymm hle
      (spec_plain_le_untouched server_params _ _ a b c d arr1 arr2 hfp)

/-- C9, amended. Aggregator transparency with the identity scheme: for the
client's filters of the ranges `[a, b)` and `[c, d)` when both have the same
size `m`, every bit sent in clear, both `E(0)` equal to `0`, any modulus
`N >= 2`, any data and any random choices of holder and aggregator, the zero
count `V` of the client equals the number of buckets to which no record hashes
whose 14 addressed bits are all `1`; every record of the true in-range set is
such a record, so `V` is at most the zero count of the plaintext sketch of
that set, and `V` equals it when no record outside the range passes both
filters. -/
theorem transparency_identity_scheme (N m : Nat) (a b c d : Int) (arr1 arr2 : List Int)
    (u v : Nat → Nat → Nat) (r : Nat → Nat) (order : List Nat)
    (hN : 2 ≤ N) (hm1 : 1 ≤ m) (hm2 : m < 2 ^ 31) (hr : ∀ i, 1 ≤ r i ∧ r i ≤ 100)
    (horder : order.Perm (List.range server_params.lc_length)) :
    ∃ resp, center_response server_params.server_number
        (lc_sketch_combined server_params arr1 arr2
          (client_query_with (fun _ bit => bit) N (client_filter m a b) (client_filter m c d))
          u v) r order = some resp ∧
      zero_bits_count (fun x => x) resp
        = spec_untouched_buckets server_params (client_filter m a b) (client_filter m c d)
            arr1 arr2 ∧
      zero_bits_count (fun x => x) resp
        ≤ spec_plain_zero_count server_params a b c d arr1 arr2 ∧
      ((∀ k, k < server_params.total_data_size →
          spec_addressed_bits_set server_params.hash_count (client_filter m a b)
            (client_filter m c d) (arr1.getD k 0) (arr2.getD k 0) = true →
          a ≤ arr1.getD k 0 ∧ arr1.getD k 0 < b ∧ c ≤ arr2.getD k 0 ∧ arr2.getD k 0 < d) →
        zero_bits_count (fun x => x) resp
          = spec_plain_zero_count server_params a b c d arr1 arr2) :=
  identity_scheme_zero_count N m a b c d arr1 arr2 u v r order hN hm1 hm2 hr horder

/-- Witness of C9 (amended): the range `[0, 100) x [0, 100)` with filters of size
1920 and the data `server.cpp` generates. -/
theorem transparency_identity_scheme_witness :
    ∃ resp, center_response server_params.server_number
        (lc_sketch_combined server_params (generated_data server_params)
          (generated_data server_params)
          (client_query_with (fun _ bit => bit) 2 (client_filter 1920 0 100)
            (client_filter 1920 0 100))
          (fun _ _ => 3) (fun _ _ => 3)) (fun _ => 3) (List.range server_params.lc_length)
        = some resp ∧
      zero_bits_count (fun x => x) resp
        = spec_untouched_buckets server_params (client_filter 1920 0 100)
            (client_filter 1920 0 100) (generated_data server_params)
            (generated_data server_params) ∧
      zero_bits_count (fun x => x) resp
        ≤ spec_plain_zero_count server_params 0 100 0 100 (generated_data server_params)
            (generated_data server_params) ∧
      ((∀ k, k < server_params.total_data_size →
          spec_addressed_bits_set server_params.hash_count (client_filter 1920 0 100)
            (client_filter 1920 0 100) ((generated_data server_params).getD k 0)
            ((generated_data server_params).getD k 0) = true →
          0 ≤ (generated_data server_params).getD k 0 ∧
            (generated_data server_params).getD k 0 < 100 ∧
            0 ≤ (generated_data server_params).getD k 0 ∧
            (generated_data server_params).getD k 0 < 100) →
        zero_bits_count (fun x => x) resp
          = spec_plain_zero_count server_params 0 100 0 100 (generated_data server_params)
              (generated_data server_params)) :=
  transparency_identity_scheme 2 1920 0 100 0 100 (generated_data server_params)
    (generated_data server_params) (fun _ _ => 3) (fun _ _ => 3) (fun _ => 3)
    (List.range server_params.lc_length) (by decide) (by decide) (by decide)
    (fun _ => ⟨(by decide : 1 ≤ 3), (by decide : 3 ≤ 100)⟩) (List.Perm.refl _)

/-- A value whose index under seed `j` collides with the index of a value `w` of
the range under seed `i` addresses a set bit. -/
theorem client_filter_bit_set_of_collision (size : Nat) (a b x w : Int) (j i : Nat)
    (hcol : hashr x size j = hashr w size i) (hsize : 1 ≤ size) (ha : a ≤ w) (hb : w < b)
    (hi : i < 7) :
    (client_filter size a b).bits.getD (hashr x size j) 0 = 1 := by
  rw [hcol]
  exact client_filter_bit_set size a b w i hsize ha hb hi

/-- The spec's "all addressed bits are set", from the seven bits of each
coordinate. -/
theorem spec_addressed_bits_set_of (bfx bfy : BloomFilter) (x y : Int)
    (h : ∀ j, j < 7 → bfx.bits.getD (hashr x bfx.size j) 0 = 1
      ∧ bfy.bits.getD (hashr y bfy.size j) 0 = 1) :
    spec_addressed_bits_set 7 bfx bfy x y = true := by
  unfold spec_addressed_bits_set
  simp only [List.all_eq_true, List.mem_range, Bool.and_eq_true, beq_iff_eq]
  exact h

/-- The value 8612 is a false positive of the client's filter for `[0, 100)`:
each of the seven bits it addresses is set by a value of the range. -/
theorem false_positive_8612 :
    spec_addressed_bits_set 7 (client_filter 1920 0 100) (client_filter 1920 0 100) 8612 8612
      = true := by
  have hsz := (client_filter_shape 1920 0 100).1
  have hbit : ∀ j, j < 7 →
      (client_filter 1920 0 100).bits.getD (hashr 8612 1920 j) 0 = 1 := by
    intro j hj
    interval_cases j
    · exact client_filter_bit_set_of_collision 1920 0 100 8612 55 0 6 (by decide)
        (by decide) (by decide) (by decide) (by decide)
    · exact client_filter_bit_set_of_collision 1920 0 100 8612 40 1 2 (by decide)
        (by decide) (by decide) (by decide) (by decide)
    · exact client_filter_bit_set_of_collision 1920 0 100 8612 2 2 3 (by decide)
        (by decide) (by decide) (by decide) (by decide)
    · exact client_filter_bit_set_of_collision 1920 0 100 8612 94 3 0 (by decide)
        (by decide) (by decide) (by decide) (by decide)
    · exact client_filter_bit_set_of_collision 1920 0 100 8612 39 4 5 (by decide)
        (by decide) (by decide) (by decide) (by decide)
    · exact client_filter_bit_set_of_collision 1920 0 100 8612 2 5 6 (by decide)
        (by decide) (by decide) (by decide) (by decide)
    · exact client_filter_bit_set_of_collision 1920 0 100 8612 92 6 4 (by decide)
        (by decide) (by decide) (by decide) (by decide)
  apply spec_addressed_bits_set_of
  intro j hj
  rw [hsz]
  exact ⟨hbit j hj, hbit j hj⟩

/-- Every entry of `false_positive_data` is `8612`. -/
theorem false_positive_data_getD (k : Nat) (hk : k < 8760) :
    false_positive_data.getD k 0 = 8612 := by
  unfold false_positive_data
  rw [List.getD_eq_getElem?_getD, List.getElem?_replicate, if_pos hk]
  rfl

/-- C9, counterexample. Range `[0, 100) x [0, 100)` (filters of size 1920),
identity scheme with `N = 2`, data consisting of the record `(8612, 8612)`
repeated: no record lies in the range, so the plaintext sketch of the true
in-range set has all 2048 buckets zero; but 8612 passes the Bloom filter, its
bucket is nonzero in the response, and the client's zero count is not 2048. -/
theorem transparency_counterexample :
    ∃ resp, center_response server_params.server_number
        (lc_sketch_combined server_params false_positive_data false_positive_data
          (client_query_with (fun _ bit => bit) 2 (client_filter 1920 0 100)
            (client_filter 1920 0 100))
          (fun _ _ => 1) (fun _ _ => 1)) (fun _ => 1) (List.range server_params.lc_length)
        = some resp ∧
      spec_plain_zero_count server_params 0 100 0 100 false_positive_data false_positive_data
        = 2048 ∧
      zero_bits_count (fun x => x) resp
        ≠ spec_plain_zero_count server_params 0 100 0 100 false_positive_data
            false_positive_data := by
  obtain ⟨resp, h1, h2, _, _⟩ := identity_scheme_zero_count 2 1920 0 100 0 100
    false_positive_data false_positive_data (fun _ _ => 1) (fun _ _ => 1) (fun _ => 1)
    (List.range server_params.lc_length) (by decide) (by decide) (by decide)
    (fun _ => ⟨(by decide : 1 ≤ 1), (by decide : 1 ≤ 100)⟩) (List.Perm.refl _)
  have hplain : spec_plain_zero_count server_params 0 100 0 100 false_positive_data
      false_positive_data = 2048 := by
    unfold spec_plain_zero_count
    have hlen : (List.range server_params.lc_length).length = 2048 := by
      rw [List.length_range]
      rfl
    rw [← hlen, List.countP_eq_length]
    intro t _
    simp only [Bool.not_eq_true']
    rw [List.any_eq_false]
    intro k hk
    have hk2 : k < 8760 := List.mem_range.mp hk
    rw [false_positive_data_getD k hk2]
    have hd : decide ((0 : Int) ≤ 8612 ∧ (8612 : Int) < 100 ∧ (0 : Int) ≤ 8612
        ∧ (8612 : Int) < 100) = false := by decide
    rw [hd, Bool.false_and]
    exact Bool.false_ne_true
  refine ⟨resp, h1, hplain, ?_⟩
  rw [h2, hplain]
  intro hc
  have hlen : (List.range server_params.lc_length).length = 2048 := by
    rw [List.length_range]
    rfl
  unfold spec_untouched_buckets at hc
  rw [← hlen, List.countP_eq_length] at hc
  have ht0 := hc (hasht 8612 8612 server_params.lc_length 0)
    (List.mem_range.mpr (hasht_lt 8612 8612 server_params.lc_length 0 (by decide)))
  simp only [Bool.not_eq_true'] at ht0
  rw [spec_bucket_touched_eq_false_iff] at ht0
  have h0 := ht0 0 (by decide) 0 (by decide)
  have e0 : 0 * server_params.data_size_per_provider + 0 = 0 := by decide
  rw [e0, false_positive_data_getD 0 (by decide)] at h0
  have h00 := h0 rfl
  have hk : server_params.hash_count = 7 := rfl
  rw [hk, false_positive_8612] at h00
  simp at h00

/-! ## Claims C11 - C16: the aggregator and the homomorphic operations -/

/-- C11. Aggregation: for every holder response of length `4 * n`, the summed
sketch of the aggregator has length `n` and its entry `t` is the sum over
`p < 4` of `response[t + p * n]`. -/
theorem aggregate_sums_providers (response : List Nat) (n : Nat)
    (hlen : response.length = 4 * n) :
    (lc_sketch_agg 4 response).length = n ∧
    ∀ t, t < n → (lc_sketch_agg 4 response).getD t 0
      = response.getD (t + 0 * n) 0 + response.getD (t + 1 * n) 0
        + response.getD (t + 2 * n) 0 + response.getD (t + 3 * n) 0 := by
  have hdiv : response.length / 4 = n := by omega
  unfold lc_sketch_agg
  simp only [hdiv, List.length_map, List.length_range, true_and]
  intro t ht
  rw [getD_map_range _ _ _ ht, foldl_add_eq_sum]
  simp [List.range_succ]
  ring

/-- Witness of C11: a response of length 8. -/
theorem aggregate_sums_providers_witness :
    (lc_sketch_agg 4 [1, 2, 3, 4, 5, 6, 7, 8]).length = 2 ∧
    ∀ t, t < 2 → (lc_sketch_agg 4 [1, 2, 3, 4, 5, 6, 7, 8]).getD t 0
      = [1, 2, 3, 4, 5, 6, 7, 8].getD (t + 0 * 2) 0 + [1, 2, 3, 4, 5, 6, 7, 8].getD (t + 1 * 2) 0
        + [1, 2, 3, 4, 5, 6, 7, 8].getD (t + 2 * 2) 0
        + [1, 2, 3, 4, 5, 6, 7, 8].getD (t + 3 * 2) 0 :=
  aggregate_sums_providers [1, 2, 3, 4, 5, 6, 7, 8] 2 (by decide)

/-- C12. Blinding keeps the zero pattern: if `c mod p = rho * L + m` with
`m < L`, `100 * m < L` and `100 * (rho * L + m) < p`, then for every factor `r`
in `[1, 100]`, `decrypt (c * r) = 0` if and only if `decrypt c = 0`. -/
theorem blinding_keeps_zero (sk : SecretKey) (c rho m r : Nat)
    (hc : c % sk.p = rho * sk.L + m) (hm : m < sk.L) (hm100 : 100 * m < sk.L)
    (hnoise : 100 * (rho * sk.L + m) < sk.p) (hr1 : 1 ≤ r) (hr2 : r ≤ 100) :
    decrypt (c * r) sk = 0 ↔ decrypt c sk = 0 := by
  have h1 : (rho * sk.L + m) * r ≤ 100 * (rho * sk.L + m) := by
    rw [Nat.mul_comm]
    exact Nat.mul_le_mul_right _ hr2
  have h2 : m * r ≤ 100 * m := by
    rw [Nat.mul_comm]
    exact Nat.mul_le_mul_right _ hr2
  have e1 : decrypt c sk = m := by
    unfold decrypt
    rw [hc, Nat.mul_comm, Nat.mul_add_mod, Nat.mod_eq_of_lt hm]
  have e2 : decrypt (c * r) sk = m * r := by
    unfold decrypt
    have h3 : (rho * sk.L + m) * r < sk.p := by omega
    have h4 : m * r < sk.L := by omega
    rw [← Nat.mod_mul_mod, hc, Nat.mod_eq_of_lt h3]
    have e : (rho * sk.L + m) * r = sk.L * (rho * r) + m * r := by ring
    rw [e, Nat.mul_add_mod, Nat.mod_eq_of_lt h4]
  rw [e1, e2, Nat.mul_eq_zero]
  constructor
  · intro h
    rcases h with h | h
    · exact h
    · omega
  · intro h
    exact Or.inl h

/-- Witness of C12: a fresh encryption of `1` under the key of `client.cpp`,
factor `37`. -/
theorem blinding_keeps_zero_witness :
    decrypt (encrypt 1 ref_sk 5 7 * 37) ref_sk = 0 ↔ decrypt (encrypt 1 ref_sk 5 7) ref_sk = 0 :=
  blinding_keeps_zero ref_sk (encrypt 1 ref_sk 5 7) 5 1 37 (by decide) (by decide) (by decide)
    (by decide) (by decide) (by decide)

/-- C13, counterexample. For the holder response `sample_response`, two runs of
the aggregator with the same (identity) permutation and blinding factors `1`
and `2` give responses whose decryptions are `[1, 0]` and `[2, 0]`: the
multisets differ. -/
theorem shuffle_runs_counterexample :
    center_response 4 sample_response (fun _ => 1) [0, 1]
      = some [encrypt 1 ref_sk 5 7 + encrypt 0 ref_sk 1 2 + encrypt 0 ref_sk 9 1
          + encrypt 0 ref_sk 7 7,
        encrypt 0 ref_sk 6 8 + encrypt 0 ref_sk 3 4 + encrypt 0 ref_sk 2 2
          + encrypt 0 ref_sk 4 0] ∧
    center_response 4 sample_response (fun _ => 2) [0, 1]
      = some [(encrypt 1 ref_sk 5 7 + encrypt 0 ref_sk 1 2 + encrypt 0 ref_sk 9 1
          + encrypt 0 ref_sk 7 7) * 2,
        (encrypt 0 ref_sk 6 8 + encrypt 0 ref_sk 3 4 + encrypt 0 ref_sk 2 2
          + encrypt 0 ref_sk 4 0) * 2] ∧
    ((center_response 4 sample_response (fun _ => 1) [0, 1]).map
      (fun resp => resp.map (fun c => decrypt c ref_sk))) = some [1, 0] ∧
    ((center_response 4 sample_response (fun _ => 2) [0, 1]).map
      (fun resp => resp.map (fun c => decrypt c ref_sk))) = some [2, 0] ∧
    ¬ List.Perm [1, 0] [2, 0] := by
  refine ⟨by decide, by decide, by decide, by decide, by decide⟩

/-- C13, amended. For every holder response whose length is a multiple of 4,
two runs of the aggregator with the same blinding factors that differ only in
the permutation give responses that are permutations of each other; hence the
multisets of their decryptions are equal. -/
theorem shuffle_runs_same_factors (sk : SecretKey) (response : List Nat) (r : Nat → Nat)
    (order1 order2 : List Nat)
    (hlen : response.length % 4 = 0)
    (h1 : order1.Perm (List.range (response.length / 4)))
    (h2 : order2.Perm (List.range (response.length / 4))) :
    ∃ resp1 resp2, center_response 4 response r order1 = some resp1 ∧
      center_response 4 response r order2 = some resp2 ∧
      resp1.Perm resp2 ∧
      (resp1.map (fun c => decrypt c sk)).Perm (resp2.map (fun c => decrypt c sk)) := by
  have hp : order1.Perm order2 := h1.trans h2.symm
  refine ⟨shuffle (private_lc_sketch (lc_sketch_agg 4 response) r) order1,
    shuffle (private_lc_sketch (lc_sketch_agg 4 response) r) order2, ?_, ?_, ?_, ?_⟩
  · simp [center_response, hlen]
  · simp [center_response, hlen]
  · exact hp.map _
  · exact (hp.map _).map _

/-- Witness of C13 (amended): the response `sample_response`, the two orders of
two buckets. -/
theorem shuffle_runs_same_factors_witness :
    ∃ resp1 resp2, center_response 4 sample_response (fun _ => 3) [0, 1] = some resp1 ∧
      center_response 4 sample_response (fun _ => 3) [1, 0] = some resp2 ∧
      resp1.Perm resp2 ∧
      (resp1.map (fun c => decrypt c ref_sk)).Perm (resp2.map (fun c => decrypt c ref_sk)) :=
  shuffle_runs_same_factors ref_sk sample_response (fun _ => 3) [0, 1] [1, 0] (by decide)
    (by decide) (by decide)

/-- C14. The client's zero count and estimate depend only on the multiset of
the received values: they are the same for every permutation of the received
vector. -/
theorem estimate_permutation_invariant (floor_log : Nat → Nat → Int) (dec : Nat → Nat)
    (received received' : List Nat) (h : received.Perm received') :
    zero_bits_count dec received = zero_bits_count dec received' ∧
    estimated_count floor_log dec received = estimated_count floor_log dec received' := by
  have hz : zero_bits_count dec received = zero_bits_count dec received' := by
    unfold zero_bits_count
    exact (h.map dec).countP_eq _
  refine ⟨hz, ?_⟩
  unfold estimated_count
  simp only [hz, h.length_eq]

/-- Witness of C14: a vector of three values and its reversal. -/
theorem estimate_permutation_invariant_witness :
    zero_bits_count (fun c => decrypt c ref_sk) [7, 0, ref_L]
      = zero_bits_count (fun c => decrypt c ref_sk) [ref_L, 0, 7] ∧
    estimated_count (fun _ _ => 0) (fun c => decrypt c ref_sk) [7, 0, ref_L]
      = estimated_count (fun _ _ => 0) (fun c => decrypt c ref_sk) [ref_L, 0, 7] :=
  estimate_permutation_invariant (fun _ _ => 0) (fun c => decrypt c ref_sk) [7, 0, ref_L]
    [ref_L, 0, 7] (by decide)

/-- C15. Scalar multiplication: for a fresh ciphertext `c = encrypt m` with
`m < L` and noise term `r * L + m`, and a constant `a` with
`a * (r * L + m) < p`, `decrypt ((a * c) mod N) = (a * m) mod L`. -/
theorem scalar_mul_homomorphic (sk : SecretKey) (m r r' a : Nat)
    (_hm : m < sk.L) (hnoise : a * (r * sk.L + m) < sk.p) :
    decrypt ((a * encrypt m sk r r') % sk.N) sk = (a * m) % sk.L := by
  unfold decrypt
  rw [mod_N_mod_p, ← Nat.mul_mod_mod, encrypt_mod_p, Nat.mul_mod_mod,
    Nat.mod_eq_of_lt hnoise]
  have e : a * (r * sk.L + m) = sk.L * (a * r) + a * m := by ring
  rw [e, Nat.mul_add_mod]

/-- Witness of C15: `3 * E(2)` under the key of `client.cpp`. -/
theorem scalar_mul_homomorphic_witness :
    decrypt ((3 * encrypt 2 ref_sk 5 7) % ref_sk.N) ref_sk = (3 * 2) % ref_sk.L :=
  scalar_mul_homomorphic ref_sk 2 5 7 3 (by decide) (by decide)

/-- C16. Decryption absorbs the reduction modulo `N = p * q`:
`decrypt (c mod N) = decrypt c` for every `c`. -/
theorem decrypt_mod_N (sk : SecretKey) (c : Nat) :
    decrypt (c % sk.N) sk = decrypt c sk := by
  unfold decrypt
  rw [mod_N_mod_p]

/-! ## Claim C17: the holder does not reduce its results modulo `N` -/

set_option maxRecDepth 100000 in
/-- C17, counterexample. On the query `[14, 14, 0, 0, 15]` (filters of one bit,
`N = 15`) the holder computes `sign_1 = sign_2 = 14` for the record `(0, 0)` and
stores `sign_1 * sign_2 = 196`, which is neither below `N` nor equal to
`(14 * 14) mod 15 = 1`.  On a query the client builds with the key of
`client.cpp` the stored sign of the record `(0, 0)` is at least `N` as well. -/
theorem holder_reduction_counterexample :
    bf_length_of toy_query.length = 1 ∧ toy_query.getLastD 0 = 15 ∧
    sign_loop toy_query 1 15 0 0 7 = (14, 14) ∧
    holder_sign toy_query (bf_length_of toy_query.length) (toy_query.getLastD 0) 0 0 7 = 196 ∧
    (14 * 14) % 15 = 1 ∧
    ref_sk.N ≤ holder_sign
      (client_query ref_sk (client_filter 24 0 1) (client_filter 24 0 1)
        (fun _ _ => 5) (fun _ _ => 9)) 24 ref_sk.N 0 0 7 := by
  refine ⟨by decide, by decide, by decide, by decide, by decide, by decide⟩

/-- C17, amended. For every query of at least 5 and fewer than `2^32` elements
(so that `bf_length = (size - 3) / 2` is at least 1 and every index lies inside
the query) whose modulus `N` (its last entry) is at least 2: the two running
products `sign_1`, `sign_2` of every record lie in `[0, N)`, the stored sign is
their integer product (below `N * N`, not reduced), and every bucket of the
emitted vector is the integer sum of the blinded zero `u * E_0_1 + v * E_0_2`
and the signs of the records hashing to it (not reduced). -/
theorem holder_values_unreduced (P : HolderParams) (arr1 arr2 : List Int) (query : List Nat)
    (u v : Nat → Nat → Nat) (hlen : 5 ≤ query.length) (hmax : query.length < 2 ^ 32)
    (hN : 2 ≤ query.getLastD 0) (hlc : 1 ≤ P.lc_length) :
    (bf_length_of query.length = (query.length - 3) / 2 ∧ 1 ≤ bf_length_of query.length ∧
      ∀ (x : Int) (j : Nat),
        hashr x (bf_length_of query.length) j + bf_length_of query.length < query.length - 3) ∧
    (∀ x y,
      (sign_loop query (bf_length_of query.length) (query.getLastD 0) x y P.hash_count).1
        < query.getLastD 0 ∧
      (sign_loop query (bf_length_of query.length) (query.getLastD 0) x y P.hash_count).2
        < query.getLastD 0 ∧
      holder_sign query (bf_length_of query.length) (query.getLastD 0) x y P.hash_count
        = (sign_loop query (bf_length_of query.length) (query.getLastD 0) x y P.hash_count).1
          * (sign_loop query (bf_length_of query.length) (query.getLastD 0) x y P.hash_count).2 ∧
      holder_sign query (bf_length_of query.length) (query.getLastD 0) x y P.hash_count
        < query.getLastD 0 * query.getLastD 0) ∧
    (∀ p t, p < P.server_number → t < P.lc_length →
      (lc_sketch_combined P arr1 arr2 query u v).getD (t + p * P.lc_length) 0
        = u p t * query.getD (query.length - 3) 0 + v p t * query.getD (query.length - 2) 0
          + ((List.range P.data_size_per_provider).map (fun i =>
              if hasht (arr1.getD (p * P.data_size_per_provider + i) 0)
                  (arr2.getD (p * P.data_size_per_provider + i) 0) P.lc_length 0 = t
              then holder_sign query (bf_length_of query.length) (query.getLastD 0)
                (arr1.getD (p * P.data_size_per_provider + i) 0)
                (arr2.getD (p * P.data_size_per_provider + i) 0) P.hash_count
              else 0)).sum) := by
  have hpos : 0 < query.getLastD 0 := by omega
  have hbf : bf_length_of query.length = (query.length - 3) / 2 := by
    unfold bf_length_of
    have e1 : query.length + 2 ^ 64 - 3 = (query.length - 3) + 2 ^ 64 := by omega
    rw [e1, Nat.add_mod_right, Nat.mod_eq_of_lt (by omega)]
  refine ⟨⟨hbf, by omega, fun x j => ?_⟩, ?_, ?_⟩
  · have h := hashr_lt x (bf_length_of query.length) j (by omega)
    omega
  · intro x y
    have h := sign_loop_eq query (bf_length_of query.length) (query.getLastD 0) x y
      P.hash_count hN
    have h1 : (sign_loop query (bf_length_of query.length) (query.getLastD 0) x y
        P.hash_count).1 < query.getLastD 0 := by
      rw [h]
      exact Nat.mod_lt _ hpos
    have h2 : (sign_loop query (bf_length_of query.length) (query.getLastD 0) x y
        P.hash_count).2 < query.getLastD 0 := by
      rw [h]
      exact Nat.mod_lt _ hpos
    refine ⟨h1, h2, rfl, ?_⟩
    unfold holder_sign
    exact Nat.mul_lt_mul_of_lt_of_lt h1 h2
  · intro p t hp ht
    exact (lc_sketch_combined_bucket P arr1 arr2 query u v hlc p t hp ht).2

/-- Witness of C17 (amended): the toy query with the parameters of `server.cpp`. -/
theorem holder_values_unreduced_witness :
    (sign_loop toy_query (bf_length_of toy_query.length) (toy_query.getLastD 0) 0 0
        server_params.hash_count).1 < toy_query.getLastD 0 :=
  ((holder_values_unreduced server_params [] [] toy_query (fun _ _ => 1) (fun _ _ => 1)
    (by decide) (by decide) (by decide) (by decide)).2.1 0 0).1

/-! ## Claim C18: the noise sampler -/

/-- C18, the code at the failing input `k = 80`: whatever the two drawn words
are, `generateRandom(80)` is below `2^16`; with both words `2^64 - 1` it returns
`2^16 - 1`.  No value in `[2^16, 2^80)` is ever produced. -/
theorem generateRandom_80_range :
    (∀ words, generateRandom 80 words < 2 ^ 16) ∧
    generateRandom 80 (fun _ => 2 ^ 64 - 1) = 2 ^ 16 - 1 ∧
    (∀ words, generateRandom 80 words ≠ 2 ^ 16) := by
  have h : ∀ words, generateRandom 80 words < 2 ^ 16 :=
    fun words => generateRandom_lt_of_not_multiple 80 words (by decide)
  refine ⟨h, by decide, fun words hc => ?_⟩
  have := h words
  omega

/-! ## Claims C19 and C20: `create_bloom_filter` -/

/-- The exact value of the sizing expression for `n = 1`, `fpr = 1/64` is
`6 / ln 2`, between 8 and 9. -/
theorem sizing_value_1_64 :
    8 < -(1 : ℝ) * Real.log (1 / 64) / (Real.log 2 * Real.log 2) ∧
    -(1 : ℝ) * Real.log (1 / 64) / (Real.log 2 * Real.log 2) < 9 := by
  have hlog : Real.log (1 / 64) = -(6 * Real.log 2) := by
    have : (1 / 64 : ℝ) = (2 ^ 6)⁻¹ := by norm_num
    rw [this, Real.log_inv, Real.log_pow]
    norm_num
  have h1 := Real.log_two_gt_d9
  have h2 := Real.log_two_lt_d9
  have hpos : 0 < Real.log 2 := by linarith
  have hval : -(1 : ℝ) * Real.log (1 / 64) / (Real.log 2 * Real.log 2) = 6 / Real.log 2 := by
    rw [hlog]
    field_simp
    ring
  rw [hval]
  constructor
  · rw [lt_div_iff₀ hpos]
    linarith
  · rw [div_lt_iff₀ hpos]
    linarith

/-- The size for a value `d` of the sizing expression in `[0, 2^31 - 7)`, where
neither the conversion nor the addition overflows. -/
theorem create_bloom_filter_size_of_floor (d : ℚ) (hd : 0 ≤ d) (hmax : d < 2 ^ 31 - 7) :
    create_bloom_filter_size d = (⌊d⌋ + 7) / 8 * 8 := by
  have hf : 0 ≤ ⌊d⌋ := Int.floor_nonneg.mpr hd
  have hlt : ⌊d⌋ < 2 ^ 31 - 7 := by
    rw [Int.floor_lt]
    push_cast
    linarith
  have h7 : (0 : Int) ≤ ⌊d⌋ + 7 := by omega
  have hconv : double_to_int d = ⌊d⌋ := by
    unfold double_to_int
    simp only [if_pos hd]
    rw [if_pos ⟨by omega, by omega⟩]
  have hwrap : wrap_int (⌊d⌋ + 7) = ⌊d⌋ + 7 := by
    unfold wrap_int
    omega
  unfold create_bloom_filter_size
  simp only [hconv, hwrap]
  exact congrArg (fun z => z * 8) (Int.tdiv_eq_ediv h7 (by decide))

/-- C19, counterexample. For `n = 1` and `fpr = 1/64` the exact value of the
sizing expression lies strictly between 8 and 9, so the claimed size
(ceiling, then the next multiple of 8) is 16; but for every value `d` of the
floating-point expression between 8 and 9 the code computes the size 8. -/
theorem bloom_size_counterexample :
    (∀ d : ℚ, 8 < d → d < 9 → create_bloom_filter_size d = 8) ∧
    8 < -(1 : ℝ) * Real.log (1 / 64) / (Real.log 2 * Real.log 2) ∧
    -(1 : ℝ) * Real.log (1 / 64) / (Real.log 2 * Real.log 2) < 9 ∧
    (⌈-(1 : ℝ) * Real.log (1 / 64) / (Real.log 2 * Real.log 2)⌉ + 7) / 8 * 8 = 16 := by
  obtain ⟨h1, h2⟩ := sizing_value_1_64
  refine ⟨?_, h1, h2, ?_⟩
  · intro d hd1 hd2
    have hf : ⌊d⌋ = 8 := by
      rw [Int.floor_eq_iff]
      constructor <;> push_cast <;> linarith
    rw [create_bloom_filter_size_of_floor d (by linarith) (by linarith), hf]
    decide
  · have hc : ⌈-(1 : ℝ) * Real.log (1 / 64) / (Real.log 2 * Real.log 2)⌉ = 9 := by
      rw [Int.ceil_eq_iff]
      constructor <;> push_cast <;> linarith
    rw [hc]
    decide

/-- C19, amended. For every value `d` of the sizing expression with
`0 <= d < 2^31 - 7` (as for `n >= 1` and `fpr` in `(0, 1)` when the value fits
the 32-bit `int`), the size is the floor of `d` rounded up to the next multiple
of 8: it is `(floor d + 7) / 8 * 8`, a multiple of 8, at least `floor d`, less
than `floor d + 8` and below `2^31`; when the allocations succeed the function
returns a filter of this size. -/
theorem bloom_size_floor (d : ℚ) (hd : 0 ≤ d) (hmax : d < 2 ^ 31 - 7) :
    create_bloom_filter_size d = (⌊d⌋ + 7) / 8 * 8 ∧
    create_bloom_filter_size d % 8 = 0 ∧
    ⌊d⌋ ≤ create_bloom_filter_size d ∧ create_bloom_filter_size d < ⌊d⌋ + 8 ∧
    create_bloom_filter_size d < 2 ^ 31 ∧
    ∃ bf, create_bloom_filter d true = some bf ∧
      (bf.size : Int) = (⌊d⌋ + 7) / 8 * 8 ∧ bf.bits.length = bf.size ∧ bf.hash_count = 7 := by
  have hf : 0 ≤ ⌊d⌋ := Int.floor_nonneg.mpr hd
  have hlt : ⌊d⌋ < 2 ^ 31 - 7 := by
    rw [Int.floor_lt]
    push_cast
    linarith
  have e := create_bloom_filter_size_of_floor d hd hmax
  have hnn : 0 ≤ (⌊d⌋ + 7) / 8 * 8 := by omega
  refine ⟨e, ?_, ?_, ?_, ?_, ?_⟩
  · rw [e]
    omega
  · rw [e]
    omega
  · rw [e]
    omega
  · rw [e]
    omega
  · refine ⟨create_bloom_filter_sized ((⌊d⌋ + 7) / 8 * 8).toNat, ?_, ?_, ?_, rfl⟩
    · unfold create_bloom_filter
      simp only [e]
      rw [if_pos (by simpa using hnn)]
    · simp only [create_bloom_filter_sized]
      exact Int.toNat_of_nonneg hnn
    · simp [create_bloom_filter_sized]

/-- Witness of C19 (amended): the value `1917.01` of the sizing expression for
`n = 100` and `fpr = 10^-4` gives the size 1920. -/
theorem bloom_size_floor_witness :
    create_bloom_filter_size (191701 / 100) = (⌊(191701 / 100 : ℚ)⌋ + 7) / 8 * 8 ∧
    create_bloom_filter_size (191701 / 100) % 8 = 0 ∧
    ⌊(191701 / 100 : ℚ)⌋ ≤ create_bloom_filter_size (191701 / 100) ∧
    create_bloom_filter_size (191701 / 100) < ⌊(191701 / 100 : ℚ)⌋ + 8 ∧
    create_bloom_filter_size (191701 / 100) < 2 ^ 31 ∧
    ∃ bf, create_bloom_filter (191701 / 100) true = some bf ∧
      (bf.size : Int) = (⌊(191701 / 100 : ℚ)⌋ + 7) / 8 * 8 ∧ bf.bits.length = bf.size ∧
      bf.hash_count = 7 :=
  bloom_size_floor (191701 / 100) (by norm_num) (by norm_num)

/-- The exact value of the sizing expression for `n = -1`, `fpr = 4` is
`2 / ln 2`, between 2 and 3. -/
theorem sizing_value_neg1_4 :
    2 < -((-1 : ℤ) : ℝ) * Real.log 4 / (Real.log 2 * Real.log 2) ∧
    -((-1 : ℤ) : ℝ) * Real.log 4 / (Real.log 2 * Real.log 2) < 3 := by
  have hlog : Real.log 4 = 2 * Real.log 2 := by
    have : (4 : ℝ) = 2 ^ 2 := by norm_num
    rw [this, Real.log_pow]
    norm_num
  have h1 := Real.log_two_gt_d9
  have h2 := Real.log_two_lt_d9
  have hpos : 0 < Real.log 2 := by linarith
  have hval : -((-1 : ℤ) : ℝ) * Real.log 4 / (Real.log 2 * Real.log 2) = 2 / Real.log 2 := by
    rw [hlog]
    push_cast
    field_simp
    ring
  rw [hval]
  constructor
  · rw [lt_div_iff₀ hpos]
    linarith
  · rw [div_lt_iff₀ hpos]
    linarith

/-- C20, counterexample. The call `create_bloom_filter(-1, 4.0)` has `n <= 0` and
`fpr` outside `(0, 1)`; the exact value of its sizing expression lies between
2 and 3, and for every value `d` of the floating-point expression between 2
and 3 the function returns a filter (of 8 bits), not `NULL`. -/
theorem create_rejects_counterexample :
    (-1 : ℤ) ≤ 0 ∧ ¬ ((0 : ℝ) < 4 ∧ (4 : ℝ) < 1) ∧
    2 < -((-1 : ℤ) : ℝ) * Real.log 4 / (Real.log 2 * Real.log 2) ∧
    -((-1 : ℤ) : ℝ) * Real.log 4 / (Real.log 2 * Real.log 2) < 3 ∧
    (∀ d : ℚ, 2 < d → d < 3 →
      create_bloom_filter d true = some (create_bloom_filter_sized 8)) := by
  obtain ⟨h1, h2⟩ := sizing_value_neg1_4
  refine ⟨by decide, by norm_num, h1, h2, ?_⟩
  intro d hd1 hd2
  have hf : ⌊d⌋ = 2 := by
    rw [Int.floor_eq_iff]
    constructor <;> push_cast <;> linarith
  have hs : create_bloom_filter_size d = 8 := by
    rw [create_bloom_filter_size_of_floor d (by linarith) (by linarith), hf]
    decide
  unfold create_bloom_filter
  simp only [hs]
  decide

/-- C20, amended. `create_bloom_filter` does not inspect its parameters: it
returns no filter exactly when an allocation fails, which includes the case of
a negative computed size. -/
theorem create_fails_iff (d : ℚ) (alloc_ok : Bool) :
    create_bloom_filter d alloc_ok = none
      ↔ alloc_ok = false ∨ create_bloom_filter_size d < 0 := by
  unfold create_bloom_filter
  simp only []
  by_cases h1 : alloc_ok = true
  · by_cases h2 : 0 ≤ create_bloom_filter_size d
    · simp [h1, h2]
    · simp [h1, h2]
      omega
  · simp [h1]

/-! ## Claims C21 - C23: the Bloom filter and the hash helpers -/

/-- Writing `1` over an entry that is `1` changes nothing. -/
theorem set_one_of_getD_one (l : List Nat) (i : Nat) (h : l.getD i 0 = 1) : l.set i 1 = l := by
  apply List.ext_getElem?
  intro k
  rw [List.getElem?_set]
  by_cases hik : i = k
  · subst hik
    by_cases hlt : i < l.length
    · rw [if_pos rfl, if_pos hlt]
      rw [List.getD_eq_getElem l 0 hlt] at h
      rw [List.getElem?_eq_getElem hlt, h]
    · rw [List.getD_eq_default l 0 (Nat.le_of_not_lt hlt)] at h
      omega
  · rw [if_neg hik]

/-- The insert loop leaves the array as it is when every bit it addresses is
already set. -/
theorem bloom_filter_insert_loop_fixed (size : Nat) (x : Int) (n i : Nat) (bits : List Nat)
    (h : ∀ j, i ≤ j → j < i + n → bits.getD (hash_result x size j) 0 = 1) :
    bloom_filter_insert_loop size x n i bits = bits := by
  induction n generalizing i with
  | zero => rfl
  | succ n ih =>
    simp only [bloom_filter_insert_loop]
    rw [set_one_of_getD_one bits _ (h i (Nat.le_refl i) (by omega))]
    exact ih (i + 1) (fun j h1 h2 => h j (by omega) (by omega))

/-- C21. Insert is idempotent: for every filter with `size >= 1` (and a bit
array of `size` entries) and every `x`, inserting `x` twice gives exactly the
filter (bits, size, hash count) that inserting `x` once gives. -/
theorem bloom_filter_insert_idempotent (bf : BloomFilter) (x : Int)
    (hsize : 1 ≤ bf.size) (hlen : bf.bits.length = bf.size) :
    bloom_filter_insert (bloom_filter_insert bf x) x = bloom_filter_insert bf x := by
  unfold bloom_filter_insert
  simp only
  congr 1
  apply bloom_filter_insert_loop_fixed
  intro j _ hj
  exact bloom_filter_insert_loop_sets bf.size x bf.hash_count 0 j bf.bits hlen hsize
    (Nat.zero_le j) hj

/-- Witness of C21: the client's filter of `[0, 1)` (size 24), the value `5`. -/
theorem bloom_filter_insert_idempotent_witness :
    bloom_filter_insert (bloom_filter_insert (client_filter 24 0 1) 5) 5
      = bloom_filter_insert (client_filter 24 0 1) 5 :=
  bloom_filter_insert_idempotent (client_filter 24 0 1) 5 (by decide) (by decide)

/-- C22. Hash indices are in range: for every `x`, every `length >= 1` and every
seed, `hash_result x length seed` lies in `[0, length)`; hence for a filter of
`size >= 1` with a bit array of `size` entries every index that
`bloom_filter_insert` and `bloom_filter_contains` compute is a valid index. -/
theorem hash_result_in_range (x : Int) (length seed : Nat) (bf : BloomFilter) (y : Int)
    (i : Nat) (hlength : 1 ≤ length) (hsize : 1 ≤ bf.size)
    (hlen : bf.bits.length = bf.size) :
    hash_result x length seed < length ∧ hash_result y bf.size i < bf.bits.length := by
  constructor
  · exact Nat.mod_lt _ hlength
  · rw [hlen]
    exact Nat.mod_lt _ hsize

/-- Witness of C22: length 1920, seed 3, and the client's filter of `[0, 1)`. -/
theorem hash_result_in_range_witness :
    hash_result (-17) 1920 3 < 1920
      ∧ hash_result 42 (client_filter 24 0 1).size 6 < (client_filter 24 0 1).bits.length :=
  hash_result_in_range (-17) 1920 3 (client_filter 24 0 1) 42 6 (by decide) (by decide)
    (by decide)

/-- C23. Cross-party hash agreement: for every `x`, every `length >= 1` and every
seed, `hash_result` of `bloomfilter.cpp`, `hashr` of `client.cpp` and `hashr` of
`server.cpp` return the same index, MurmurHash3 of the key
`decimal(x) | decimal(length)` under the seed, reduced modulo `length`. -/
theorem hash_agreement (x : Int) (length seed : Nat) (_hlength : 1 ≤ length) :
    hash_result x length seed = client_hashr x length seed ∧
    client_hashr x length seed = hashr x length seed ∧
    hashr x length seed
      = MurmurHash3_x86_32 (to_string x ++ [124] ++ to_string (length : Int)) seed % length :=
  ⟨rfl, rfl, rfl⟩

/-- Witness of C23: the value `-17`, length 1920, seed 3. -/
theorem hash_agreement_witness :
    hash_result (-17) 1920 3 = client_hashr (-17) 1920 3 ∧
    client_hashr (-17) 1920 3 = hashr (-17) 1920 3 ∧
    hashr (-17) 1920 3
      = MurmurHash3_x86_32 (to_string (-17) ++ [124] ++ to_string ((1920 : Nat) : Int)) 3 % 1920 :=
  hash_agreement (-17) 1920 3 (by decide)

/-! ## Claims C24 and C25: the layout of the frame -/

/-- The exported bytes are bytes. -/
theorem mpz_export_loop_bytes (fuel num : Nat) (acc : List Nat) (hacc : ∀ b ∈ acc, b < 256) :
    ∀ b ∈ mpz_export_loop fuel num acc, b < 256 := by
  induction fuel generalizing num acc with
  | zero => simpa [mpz_export_loop] using hacc
  | succ fuel ih =>
    simp only [mpz_export_loop]
    split
    · exact hacc
    · apply ih
      intro b hb
      rcases List.mem_cons.mp hb with h | h
      · rw [h]
        exact Nat.mod_lt _ (by decide)
      · exact hacc b h

/-- The first exported byte of a nonzero number is not zero. -/
theorem mpz_export_loop_head (fuel num : Nat) (acc : List Nat) (hfuel : num ≤ fuel)
    (hnum : num ≠ 0) : (mpz_export_loop fuel num acc).head? ≠ some 0 := by
  induction fuel generalizing num acc with
  | zero => omega
  | succ fuel ih =>
    simp only [mpz_export_loop, if_neg hnum]
    by_cases hq : num / 256 = 0
    · have hlt : num < 256 := by omega
      have hstop : mpz_export_loop fuel (num / 256) (num % 256 :: acc) = num % 256 :: acc := by
        rw [hq]
        cases fuel with
        | zero => rfl
        | succ f => simp [mpz_export_loop]
      rw [hstop, List.head?_cons]
      intro hc
      have := Option.some.inj hc
      omega
    · exact ih (num / 256) _ (by omega) hq

/-- The number of exported bytes of `256 ^ k` is `k + 1`. -/
theorem mpz_export_loop_pow_length (k fuel : Nat) (acc : List Nat) (hfuel : 256 ^ k ≤ fuel) :
    (mpz_export_loop fuel (256 ^ k) acc).length = acc.length + (k + 1) := by
  induction k generalizing fuel acc with
  | zero =>
    cases fuel with
    | zero => simp at hfuel
    | succ f =>
      simp only [mpz_export_loop, Nat.pow_zero]
      rw [if_neg (by decide)]
      have e : (1 : Nat) / 256 = 0 := by decide
      rw [e]
      cases f with
      | zero => simp [mpz_export_loop]
      | succ g => simp [mpz_export_loop]
  | succ k ih =>
    have hpos : 0 < 256 ^ k := Nat.pos_pow_of_pos _ (by decide)
    have hs : 256 ^ (k + 1) = 256 ^ k * 256 := pow_succ 256 k
    cases fuel with
    | zero => omega
    | succ f =>
      simp only [mpz_export_loop]
      rw [if_neg (by omega)]
      have hdiv : 256 ^ (k + 1) / 256 = 256 ^ k := by
        rw [hs]
        exact Nat.mul_div_cancel _ (by decide)
      rw [hdiv, ih f _ (by omega)]
      simp only [List.length_cons]
      omega

/-- A number whose magnitude has exactly `2 ^ 32` bytes is sent as the record of
length zero. -/
theorem send_record_of_length_2_32 (num : Nat) (h : (mpz_export num).length = 2 ^ 32) :
    send_record num = [0, 0, 0, 0] := by
  unfold send_record
  simp only [h, Nat.mod_self, List.take_zero, List.append_nil]
  decide

/-- C24, counterexample. The magnitude of `256 ^ (2^32 - 1)` has `2^32` bytes,
the length is narrowed to 32 bits, and the record written for this number is
`00 00 00 00` without any byte of the magnitude: the record of `0`. -/
theorem record_layout_counterexample :
    power_of_256 (2 ^ 32 - 1) ≠ 0 ∧
    (mpz_export (power_of_256 (2 ^ 32 - 1))).length = 2 ^ 32 ∧
    send_record (power_of_256 (2 ^ 32 - 1)) = [0, 0, 0, 0] ∧
    send_record 0 = [0, 0, 0, 0] := by
  have hne : ∀ k, power_of_256 k ≠ 0 := by
    intro k
    unfold power_of_256
    exact Nat.pos_iff_ne_zero.mp (Nat.pos_pow_of_pos _ (by decide))
  have hlen : ∀ k, (mpz_export (power_of_256 k)).length = k + 1 := by
    intro k
    unfold mpz_export power_of_256
    rw [mpz_export_loop_pow_length k _ [] (Nat.le_refl _)]
    simp
  have h32 : (mpz_export (power_of_256 (2 ^ 32 - 1))).length = 2 ^ 32 :=
    (hlen (2 ^ 32 - 1)).trans (by decide)
  exact ⟨hne _, h32, send_record_of_length_2_32 _ h32, by decide⟩

/-- C24, amended. Record layout: for every vector of numbers whose magnitudes
are shorter than `2^32` bytes, the payload is the concatenation, in order, of
one record per number, a 4-byte little-endian length followed by that many
bytes; these bytes are the big-endian magnitude (importing them gives the
number back, every byte is below 256) without a leading zero byte, and zero
has a record of length 0. -/
theorem record_layout (v : List Nat) (hfit : ∀ x ∈ v, (mpz_export x).length < 2 ^ 32) :
    send_buffer v = (v.map send_record).flatten ∧
    (∀ x ∈ v,
      send_record x
        = [(mpz_export x).length % 256, (mpz_export x).length / 2 ^ 8 % 256,
            (mpz_export x).length / 2 ^ 16 % 256, (mpz_export x).length / 2 ^ 24 % 256]
          ++ mpz_export x ∧
      mpz_import (mpz_export x) = x ∧
      (∀ b ∈ mpz_export x, b < 256) ∧
      (mpz_export x).head? ≠ some 0) ∧
    mpz_export 0 = [] := by
  refine ⟨?_, ?_, rfl⟩
  · clear hfit
    induction v with
    | nil => rfl
    | cons x v ih => rw [send_buffer_cons, ih, List.map_cons, List.flatten_cons]
  · intro x hx
    have hlt := hfit x hx
    refine ⟨?_, mpz_import_export x, ?_, ?_⟩
    · unfold send_record le32
      simp only [Nat.mod_eq_of_lt hlt, List.take_length]
    · exact mpz_export_loop_bytes x x [] (by simp)
    · by_cases h0 : x = 0
      · subst h0
        simp [mpz_export, mpz_export_loop]
      · exact mpz_export_loop_head x x [] (Nat.le_refl x) h0

/-- Witness of C24 (amended): the interop vector `[0, 1, 255, 256, 2^256 - 1]`
and the bytes of its payload. -/
theorem record_layout_witness :
    (send_buffer interop_vector = (interop_vector.map send_record).flatten ∧
      (∀ x ∈ interop_vector,
        send_record x
          = [(mpz_export x).length % 256, (mpz_export x).length / 2 ^ 8 % 256,
              (mpz_export x).length / 2 ^ 16 % 256, (mpz_export x).length / 2 ^ 24 % 256]
            ++ mpz_export x ∧
        mpz_import (mpz_export x) = x ∧
        (∀ b ∈ mpz_export x, b < 256) ∧
        (mpz_export x).head? ≠ some 0) ∧
      mpz_export 0 = []) ∧
    send_buffer interop_vector
      = [0, 0, 0, 0] ++ [1, 0, 0, 0, 1] ++ [1, 0, 0, 0, 255] ++ [2, 0, 0, 0, 1, 0]
        ++ [32, 0, 0, 0] ++ List.replicate 32 255 :=
  ⟨record_layout interop_vector (by decide), by decide⟩

/-- C25, counterexample. The frame written for the interop vector does not
begin with `04 00 00 00  00 00 00 00`: its payload has 56 bytes and the prefix
is `38 00 00 00`. -/
theorem frame_prefix_counterexample :
    (send_buffer interop_vector).length = 56 ∧
    (send_multiple_mpz_class interop_vector).take 4 = [56, 0, 0, 0] ∧
    ¬ ((send_multiple_mpz_class interop_vector).take 8 = [4, 0, 0, 0, 0, 0, 0, 0]) := by
  refine ⟨by decide, by decide, by decide⟩

/-- C25, amended. The frame written for the interop vector begins with the
prefix `38 00 00 00` (the payload length 56), followed by `00 00 00 00` for the
zero-length record of `0`. -/
theorem frame_prefix_interop :
    (send_multiple_mpz_class interop_vector).take 8 = [56, 0, 0, 0, 0, 0, 0, 0] ∧
    (send_multiple_mpz_class interop_vector).length = 4 + 56 := by
  refine ⟨by decide, by decide⟩

/-! ## Claims C26 - C28: error handling of decoder, holder and aggregator -/

/-- A byte inside the buffer does not depend on what lies behind it. -/
theorem read_byte_inside (buffer : List Nat) (beyond beyond2 : Nat → Nat) (i : Nat)
    (h : i < buffer.length) : read_byte buffer beyond i = read_byte buffer beyond2 i := by
  unfold read_byte
  rw [List.getD_eq_getElem _ _ h, List.getD_eq_getElem _ _ h]

/-- Four bytes inside the buffer do not depend on what lies behind it. -/
theorem read_u32_inside (buffer : List Nat) (beyond beyond2 : Nat → Nat) (offset : Nat)
    (h : offset + 4 ≤ buffer.length) :
    read_u32 buffer beyond offset = read_u32 buffer beyond2 offset := by
  unfold read_u32
  rw [read_byte_inside buffer beyond beyond2 offset (by omega),
    read_byte_inside buffer beyond beyond2 (offset + 1) (by omega),
    read_byte_inside buffer beyond beyond2 (offset + 2) (by omega),
    read_byte_inside buffer beyond beyond2 (offset + 3) (by omega)]

/-- Bytes inside the buffer do not depend on what lies behind it. -/
theorem read_bytes_inside (buffer : List Nat) (beyond beyond2 : Nat → Nat) (offset len : Nat)
    (h : offset + len ≤ buffer.length) :
    read_bytes buffer beyond offset len = read_bytes buffer beyond2 offset len := by
  unfold read_bytes
  apply List.map_congr_left
  intro i hi
  exact read_byte_inside buffer beyond beyond2 (offset + i) (by
    have := List.mem_range.mp hi
    omega)

/-- The loop reports no stream error: only the two reads from the socket do. -/
theorem receive_loop_checked_no_stream_error (buffer : List Nat) (fuel offset : Nat)
    (numbers : List Nat) :
    receive_loop_checked buffer fuel offset numbers ≠ DecoderOutcome.stream_error := by
  induction fuel generalizing offset numbers with
  | zero => simp [receive_loop_checked]
  | succ fuel ih =>
    simp only [receive_loop_checked]
    split
    · split
      · simp
      · split
        · simp
        · exact ih _ _
    · simp

/-- A run of the loop that stays inside the buffer returns the same numbers
whatever lies behind the buffer. -/
theorem receive_loop_checked_numbers (buffer : List Nat) (beyond : Nat → Nat)
    (fuel offset : Nat) (numbers v : List Nat)
    (h : receive_loop_checked buffer fuel offset numbers = DecoderOutcome.numbers v) :
    receive_loop buffer beyond fuel offset numbers = v := by
  induction fuel generalizing offset numbers with
  | zero =>
    simp only [receive_loop_checked] at h
    simp only [receive_loop]
    exact DecoderOutcome.numbers.inj h
  | succ fuel ih =>
    simp only [receive_loop_checked] at h
    simp only [receive_loop]
    by_cases h1 : offset < buffer.length
    · rw [if_pos h1] at h ⊢
      by_cases h2 : buffer.length < offset + 4
      · rw [if_pos h2] at h
        exact absurd h (by simp)
      · rw [if_neg h2] at h
        by_cases h3 : buffer.length < offset + 4 + read_u32 buffer (fun _ => 0) offset
        · rw [if_pos h3] at h
          exact absurd h (by simp)
        · rw [if_neg h3] at h
          rw [read_u32_inside buffer beyond (fun _ => 0) offset (by omega),
            read_bytes_inside buffer beyond (fun _ => 0) (offset + 4) _ (by omega)]
          exact ih _ _ h
    · rw [if_neg h1] at h ⊢
      exact DecoderOutcome.numbers.inj h

/-- C26, the code at the failing inputs.  The frame `03 00 00 00 | 01 02 03`
holds fewer payload bytes than one record header, the frame
`05 00 00 00 | 05 00 00 00 01` a record whose body runs past the end of the
payload.  In both runs the decoder reads past the end of its buffer instead of
reporting an error.  It reports an error only when the stream ends before the
prefix or before `total_length` bytes of payload; a run that stays inside the
buffer returns its numbers whatever lies behind the buffer, as the run on the
frame of `[0, 1, 255, 256, 2^256 - 1, 0]` does. -/
theorem decoder_reads_out_of_bounds :
    receive_checked short_header_stream = DecoderOutcome.out_of_bounds ∧
    receive_checked truncated_record_stream = DecoderOutcome.out_of_bounds ∧
    receive_checked (send_multiple_mpz_class [0, 1, 255, 256, 2 ^ 256 - 1, 0])
      = DecoderOutcome.numbers [0, 1, 255, 256, 2 ^ 256 - 1, 0] ∧
    (∀ stream : List Nat, receive_checked stream = DecoderOutcome.stream_error
      ↔ stream.length < 4
        ∨ (stream.drop 4).length < read_u32 (stream.take 4) (fun _ => 0) 0) ∧
    (∀ (stream v : List Nat), receive_checked stream = DecoderOutcome.numbers v →
      ∀ beyond, receive_multiple_mpz_class stream beyond = some v) := by
  refine ⟨by decide, by decide, by decide, fun stream => ?_, fun stream v h beyond => ?_⟩
  · unfold receive_checked
    by_cases h1 : stream.length < 4
    · simp [h1]
    · by_cases h2 : (stream.drop 4).length < read_u32 (stream.take 4) (fun _ => 0) 0
      · simp only [h1, h2, if_true, if_false, or_true]
      · simp only [h1, h2, if_false, or_self, iff_false]
        exact receive_loop_checked_no_stream_error _ _ _ _
  · unfold receive_checked at h
    unfold receive_multiple_mpz_class
    by_cases h1 : stream.length < 4
    · rw [if_pos h1] at h
      exact absurd h (by simp)
    · rw [if_neg h1] at h ⊢
      have hu : read_u32 (stream.take 4) beyond 0 = read_u32 (stream.take 4) (fun _ => 0) 0 :=
        read_u32_inside _ _ _ 0 (by
          rw [List.length_take]
          omega)
      simp only [hu]
      simp only at h
      by_cases h2 : (stream.drop 4).length < read_u32 (stream.take 4) (fun _ => 0) 0
      · rw [if_pos h2] at h
        exact absurd h (by simp)
      · rw [if_neg h2] at h ⊢
        exact congrArg some (receive_loop_checked_numbers _ beyond _ _ _ _ h)

/-- C27, counterexample. For the received vector `[1, 1, 1, 0, 0, 15]`, whose
length minus 3 is odd (`N = 15`), the holder (parameters and generated data of
`server.cpp`) takes `bf_length = 1` and sends a sketch vector of
`4 * 2048 = 8192` entries. -/
theorem holder_no_shape_check_counterexample :
    odd_query.length = 6 ∧ (odd_query.length - 3) % 2 = 1 ∧ odd_query.getLastD 0 = 15 ∧
    bf_length_of odd_query.length = 1 ∧
    ∃ sketch, server_response server_params odd_query (fun _ _ => 1) (fun _ _ => 1)
        = HolderOutcome.sent sketch ∧ sketch.length = 8192 := by
  refine ⟨by decide, by decide, by decide, by decide,
    lc_sketch_combined server_params (generated_data server_params)
      (generated_data server_params) odd_query (fun _ _ => 1) (fun _ _ => 1), ?_, ?_⟩
  · unfold server_response
    rw [if_pos (by decide)]
  · exact (lc_sketch_combined_bucket server_params (generated_data server_params)
      (generated_data server_params) odd_query (fun _ _ => 1) (fun _ _ => 1)
      (by decide) 0 0 (by decide) (by decide)).1

/-- C27, amended. The holder makes no shape check: for every received vector of
at least 5 and fewer than `2^32` elements whose last element `N` is not 0,
whatever the parity of its length, it takes `bf_length = (length - 3) / 2`
(rounded down, at least 1) and sends the sketch vector `lc_sketch_combined`, of
`server_number * lc_length` entries. -/
theorem holder_accepts_any_shape (P : HolderParams) (query : List Nat)
    (u v : Nat → Nat → Nat) (hlen : 5 ≤ query.length) (hmax : query.length < 2 ^ 32)
    (hN : query.getLastD 0 ≠ 0) (hlc : 1 ≤ P.lc_length) (hS : 1 ≤ P.server_number) :
    bf_length_of query.length = (query.length - 3) / 2 ∧
    1 ≤ bf_length_of query.length ∧
    ∃ sketch, server_response P query u v = HolderOutcome.sent sketch ∧
      sketch = lc_sketch_combined P (generated_data P) (generated_data P) query u v ∧
      sketch.length = P.lc_length * P.server_number := by
  have e : bf_length_of query.length = (query.length - 3) / 2 := by
    unfold bf_length_of
    have e1 : query.length + 2 ^ 64 - 3 = (query.length - 3) + 2 ^ 64 := by omega
    rw [e1, Nat.add_mod_right, Nat.mod_eq_of_lt (by omega)]
  have hdef : holder_defined P query = true := by
    unfold holder_defined
    have h1 : decide (3 ≤ query.length ∧ query.length < 2 ^ 32 + 3) = true :=
      decide_eq_true ⟨by omega, by omega⟩
    have h2 : decide (5 ≤ query.length) = true := decide_eq_true hlen
    have h3 : (query.getLastD 0 != 0) = true := by simpa using hN
    have h4 : (P.lc_length != 0) = true := by
      have : P.lc_length ≠ 0 := by omega
      simpa using this
    rw [h1, h2, h3, h4]
    simp
  refine ⟨e, ?_, lc_sketch_combined P (generated_data P) (generated_data P) query u v,
    ?_, rfl, ?_⟩
  · rw [e]
    omega
  · unfold server_response
    rw [if_pos hdef]
  · exact (lc_sketch_combined_bucket P (generated_data P) (generated_data P) query u v
      hlc 0 0 hS hlc).1

/-- Witness of C27 (amended): the query of six elements with the parameters of
`server.cpp`. -/
theorem holder_accepts_any_shape_witness :
    bf_length_of odd_query.length = (odd_query.length - 3) / 2 ∧
    1 ≤ bf_length_of odd_query.length ∧
    ∃ sketch, server_response server_params odd_query (fun _ _ => 1) (fun _ _ => 1)
        = HolderOutcome.sent sketch ∧
      sketch = lc_sketch_combined server_params (generated_data server_params)
        (generated_data server_params) odd_query (fun _ _ => 1) (fun _ _ => 1) ∧
      sketch.length = server_params.lc_length * server_params.server_number :=
  holder_accepts_any_shape server_params odd_query (fun _ _ => 1) (fun _ _ => 1)
    (by decide) (by decide) (by decide) (by decide) (by decide)

/-- C28. The aggregator rejects a mis-sized response: it stops without a
response (`return 1`) exactly when the length of the holder's vector is not a
multiple of 4, and otherwise sends the aggregated, blinded and shuffled
sketch. -/
theorem center_divisibility_check (response : List Nat) (r : Nat → Nat) (order : List Nat) :
    (center_response 4 response r order = none ↔ response.length % 4 ≠ 0) ∧
    (center_response 4 response r order
        = some (shuffle (private_lc_sketch (lc_sketch_agg 4 response) r) order)
      ↔ response.length % 4 = 0) := by
  unfold center_response
  by_cases h : response.length % 4 = 0
  · simp [h]
  · simp [h]

/-! ## Claims C29 and C30: the query seen by the holder -/

/-- C29. Query shape and its parse agree: for a query the client builds from
two filters of equal size `m >= 1`, the vector has length `2 * m + 3`, the
holder recovers `bf_length = m`, its `E_0_1` and `E_0_2` are the two appended
encryptions of `0` and its `pk_N` is `p * q`; and for every value `v` and seed
`j` the entry the holder multiplies in for `x` (index `hashr v m j`) and for `y`
(index `hashr v m j + m`) is the encryption of the bit that the Bloom filter
functions address for `v` and `j` in the corresponding filter. -/
theorem query_shape_and_parse (sk : SecretKey) (bfx bfy : BloomFilter) (m : Nat)
    (words80 words4096 : Nat → Nat → Nat)
    (hm1 : 1 ≤ m) (hm2 : m < 2 ^ 31) (hx : bfx.size = m) (hy : bfy.size = m) :
    (client_query sk bfx bfy words80 words4096).length = 2 * m + 3 ∧
    bf_length_of (client_query sk bfx bfy words80 words4096).length = m ∧
    (client_query sk bfx bfy words80 words4096).getD
        ((client_query sk bfx bfy words80 words4096).length - 3) 0
      = encrypt_drawn 0 sk (words80 (2 * m)) (words4096 (2 * m)) ∧
    (client_query sk bfx bfy words80 words4096).getD
        ((client_query sk bfx bfy words80 words4096).length - 2) 0
      = encrypt_drawn 0 sk (words80 (2 * m + 1)) (words4096 (2 * m + 1)) ∧
    (client_query sk bfx bfy words80 words4096).getLastD 0 = sk.p * sk.q ∧
    ∀ (v : Int) (j : Nat),
      (client_query sk bfx bfy words80 words4096).getD
          (hashr v (bf_length_of (client_query sk bfx bfy words80 words4096).length) j) 0
        = encrypt_drawn (bfx.bits.getD (hash_result v bfx.size j) 0) sk
            (words80 (hashr v m j)) (words4096 (hashr v m j)) ∧
      (client_query sk bfx bfy words80 words4096).getD
          (hashr v (bf_length_of (client_query sk bfx bfy words80 words4096).length) j
            + bf_length_of (client_query sk bfx bfy words80 words4096).length) 0
        = encrypt_drawn (bfy.bits.getD (hash_result v bfy.size j) 0) sk
            (words80 (hashr v m j + m)) (words4096 (hashr v m j + m)) := by
  obtain ⟨l1, l2, l3, l4, l5⟩ := client_query_with_layout
    (fun k b => encrypt_drawn b sk (words80 k) (words4096 k)) sk.N bfx bfy m hx hy
  have hq : client_query sk bfx bfy words80 words4096
      = client_query_with (fun k b => encrypt_drawn b sk (words80 k) (words4096 k)) sk.N
          bfx bfy := rfl
  rw [hq, l1, bf_length_of_query m hm2]
  have e3 : 2 * m + 3 - 3 = 2 * m := by omega
  have e4 : 2 * m + 3 - 2 = 2 * m + 1 := by omega
  rw [e3, e4]
  refine ⟨rfl, rfl, l3, l4, l5, ?_⟩
  intro v j
  have hlt := hashr_lt v m j hm1
  constructor
  · rw [l2 _ (by omega)]
    unfold query_bit
    rw [if_pos hlt, hx]
    rfl
  · rw [l2 _ (by omega)]
    unfold query_bit
    rw [if_neg (by omega), Nat.add_sub_cancel, hy]
    rfl

/-- Witness of C29: the key of `client.cpp` and the client's filters of
`[0, 1)` (size 24); the length of the query is 51. -/
theorem query_shape_and_parse_witness :
    (client_query ref_sk (client_filter 24 0 1) (client_filter 24 0 1)
      (fun _ _ => 5) (fun _ _ => 9)).length = 2 * 24 + 3 :=
  (query_shape_and_parse ref_sk (client_filter 24 0 1) (client_filter 24 0 1) 24
    (fun _ _ => 5) (fun _ _ => 9) (by decide) (by decide) (by decide) (by decide)).1

/-- C30. A freshly initialised bucket is an encryption of `0`: with the key of
`client.cpp`, `E0_a` and `E0_b` two encryptions of `0` with noise below `2^80`
and blinding coefficients `u`, `v` in `[1, 100]`,
`decrypt (u * E0_a + v * E0_b) = 0`. -/
theorem fresh_bucket_decrypts_to_zero (ra rb ra' rb' u v : Nat)
    (hra : ra < 2 ^ 80) (hrb : rb < 2 ^ 80)
    (_hu1 : 1 ≤ u) (hu2 : u ≤ 100) (_hv1 : 1 ≤ v) (hv2 : v ≤ 100) :
    decrypt (u * encrypt 0 ref_sk ra ra' + v * encrypt 0 ref_sk rb rb') ref_sk = 0 := by
  have ha : encrypt 0 ref_sk ra ra' ≡ ra * ref_sk.L + 0 [MOD ref_sk.p] :=
    encrypt_mod_p 0 ref_sk ra ra'
  have hb : encrypt 0 ref_sk rb rb' ≡ rb * ref_sk.L + 0 [MOD ref_sk.p] :=
    encrypt_mod_p 0 ref_sk rb rb'
  have hsum := Nat.ModEq.add (Nat.ModEq.mul_left u ha) (Nat.ModEq.mul_left v hb)
  have h1 : ra * ref_sk.L ≤ 2 ^ 80 * ref_sk.L := Nat.mul_le_mul_right _ (Nat.le_of_lt hra)
  have h2 : rb * ref_sk.L ≤ 2 ^ 80 * ref_sk.L := Nat.mul_le_mul_right _ (Nat.le_of_lt hrb)
  have h1z : ra * ref_sk.L + 0 ≤ 2 ^ 80 * ref_sk.L := by
    rw [Nat.add_zero]
    exact h1
  have h2z : rb * ref_sk.L + 0 ≤ 2 ^ 80 * ref_sk.L := by
    rw [Nat.add_zero]
    exact h2
  have h3 : u * (ra * ref_sk.L + 0) ≤ 100 * (2 ^ 80 * ref_sk.L) := Nat.mul_le_mul hu2 h1z
  have h4 : v * (rb * ref_sk.L + 0) ≤ 100 * (2 ^ 80 * ref_sk.L) := Nat.mul_le_mul hv2 h2z
  have hp : 100 * (2 ^ 80 * ref_sk.L) + 100 * (2 ^ 80 * ref_sk.L) < ref_sk.p := by decide
  have hlt : u * (ra * ref_sk.L + 0) + v * (rb * ref_sk.L + 0) < ref_sk.p := by omega
  unfold decrypt
  unfold Nat.ModEq at hsum
  rw [hsum, Nat.mod_eq_of_lt hlt]
  have e : u * (ra * ref_sk.L + 0) + v * (rb * ref_sk.L + 0)
      = ref_sk.L * (u * ra + v * rb) := by ring
  rw [e, Nat.mul_mod_right]

/-- Witness of C30: noise `2^80 - 1` in both encryptions, coefficients 100 and 1. -/
theorem fresh_bucket_decrypts_to_zero_witness :
    decrypt (100 * encrypt 0 ref_sk (2 ^ 80 - 1) 7 + 1 * encrypt 0 ref_sk (2 ^ 80 - 1) 9)
      ref_sk = 0 :=
  fresh_bucket_decrypts_to_zero (2 ^ 80 - 1) (2 ^ 80 - 1) 7 9 100 1 (by decide) (by decide)
    (by decide) (by decide) (by decide) (by decide)

/-! ## Claim C31: layout of the sketch vector and isolation of the providers -/

/-- One record changes at most the entry `lc_index + p * lc_length`. -/
theorem add_sign_record_frame (P : HolderParams) (arr1 arr2 : List Int) (signs : List Nat)
    (p i : Nat) (s : List Nat) :
    (add_sign_record P arr1 arr2 signs p i s).length = s.length ∧
    ∀ k, k ≠ hasht (arr1.getD (p * P.data_size_per_provider + i) 0)
          (arr2.getD (p * P.data_size_per_provider + i) 0) P.lc_length 0 + p * P.lc_length →
      (add_sign_record P arr1 arr2 signs p i s).getD k 0 = s.getD k 0 := by
  unfold add_sign_record
  refine ⟨by simp only [List.length_set], fun k hk => ?_⟩
  simp only
  rw [getD_set, if_neg (fun h => hk h.1.symm)]

/-- A loop of record steps of provider `p` changes no entry outside
`[p * lc_length, (p + 1) * lc_length)`. -/
theorem add_sign_records_outside (P : HolderParams) (arr1 arr2 : List Int) (signs : List Nat)
    (p : Nat) (hlc : 1 ≤ P.lc_length) (l : List Nat) (s : List Nat) (k : Nat)
    (hk : k < p * P.lc_length ∨ (p + 1) * P.lc_length ≤ k) :
    (l.foldl (fun s i => add_sign_record P arr1 arr2 signs p i s) s).getD k 0 = s.getD k 0 := by
  induction l generalizing s with
  | nil => rfl
  | cons i l ih =>
    rw [List.foldl_cons, ih]
    apply (add_sign_record_frame P arr1 arr2 signs p i s).2
    have h := hasht_lt (arr1.getD (p * P.data_size_per_provider + i) 0)
      (arr2.getD (p * P.data_size_per_provider + i) 0) P.lc_length 0 hlc
    have e : (p + 1) * P.lc_length = p * P.lc_length + P.lc_length := by ring
    omega

/-- C31. Sketch layout and isolation: for every query the vector the holder
emits has `4 * 2048 = 8192` entries; the second inner loop of provider `p` is
the sequence of its record steps; the step of record `i` of provider `p < 4`
keeps the length and changes at most the entry
`hasht(x, y, 2048, 0) + p * 2048`, which lies in `[p * 2048, (p + 1) * 2048)`;
so neither one record nor the whole loop of provider `p` changes an entry of
another provider's sketch. -/
theorem sketch_layout_isolation (arr1 arr2 : List Int) (query : List Nat)
    (u v : Nat → Nat → Nat) (signs : List Nat) (p i : Nat) (s : List Nat) (hp : p < 4) :
    (lc_sketch_combined server_params arr1 arr2 query u v).length = 8192 ∧
    add_signs server_params arr1 arr2 signs p s
      = (List.range 2190).foldl
          (fun s i => add_sign_record server_params arr1 arr2 signs p i s) s ∧
    (add_sign_record server_params arr1 arr2 signs p i s).length = s.length ∧
    (p * 2048 ≤ hasht (arr1.getD (p * 2190 + i) 0) (arr2.getD (p * 2190 + i) 0) 2048 0 + p * 2048
      ∧ hasht (arr1.getD (p * 2190 + i) 0) (arr2.getD (p * 2190 + i) 0) 2048 0 + p * 2048
          < (p + 1) * 2048
      ∧ hasht (arr1.getD (p * 2190 + i) 0) (arr2.getD (p * 2190 + i) 0) 2048 0 + p * 2048
          < 8192) ∧
    (∀ k, k ≠ hasht (arr1.getD (p * 2190 + i) 0) (arr2.getD (p * 2190 + i) 0) 2048 0 + p * 2048 →
      (add_sign_record server_params arr1 arr2 signs p i s).getD k 0 = s.getD k 0) ∧
    (∀ k, k < p * 2048 ∨ (p + 1) * 2048 ≤ k →
      (add_sign_record server_params arr1 arr2 signs p i s).getD k 0 = s.getD k 0) ∧
    (∀ k, k < p * 2048 ∨ (p + 1) * 2048 ≤ k →
      (add_signs server_params arr1 arr2 signs p s).getD k 0 = s.getD k 0) := by
  have hh : hasht (arr1.getD (p * 2190 + i) 0) (arr2.getD (p * 2190 + i) 0) 2048 0 < 2048 :=
    hasht_lt _ _ 2048 0 (by decide)
  have hframe := add_sign_record_frame server_params arr1 arr2 signs p i s
  refine ⟨?_, rfl, hframe.1, ⟨by omega, by omega, by omega⟩, hframe.2, ?_, ?_⟩
  · exact (lc_sketch_combined_bucket server_params arr1 arr2 query u v (by decide) 0 0
      (by decide) (by decide)).1
  · intro k hk
    apply hframe.2
    show k ≠ hasht (arr1.getD (p * 2190 + i) 0) (arr2.getD (p * 2190 + i) 0) 2048 0 + p * 2048
    omega
  · intro k hk
    exact add_sign_records_outside server_params arr1 arr2 signs p (by decide)
      (List.range 2190) s k hk

/-- Witness of C31: provider 1, record 0, on a sketch of 8192 zeros. -/
theorem sketch_layout_isolation_witness :
    (lc_sketch_combined server_params [] [] toy_query (fun _ _ => 1) (fun _ _ => 1)).length
        = 8192 ∧
    ∀ k, k < 1 * 2048 ∨ (1 + 1) * 2048 ≤ k →
      (add_signs server_params [] [] [] 1 (List.replicate 8192 0)).getD k 0
        = (List.replicate 8192 0).getD k 0 :=
  ⟨(sketch_layout_isolation [] [] toy_query (fun _ _ => 1) (fun _ _ => 1) [] 1 0
      (List.replicate 8192 0) (by decide)).1,
    (sketch_layout_isolation [] [] toy_query (fun _ _ => 1) (fun _ _ => 1) [] 1 0
      (List.replicate 8192 0) (by decide)).2.2.2.2.2.2⟩

/-! ## Claim C32: the reference key -/

/-- C32. The key hard-coded in `client.cpp` satisfies the key invariant:
`N = p * q`, `gcd(L, p) = 1` and `L * 2^81 < p`. -/
theorem ref_key_invariant :
    ref_sk.N = ref_p * ref_q ∧ ref_sk.p = ref_p ∧ ref_sk.q = ref_q ∧ ref_sk.L = ref_L ∧
    Nat.gcd ref_sk.L ref_sk.p = 1 ∧ ref_sk.L * 2 ^ 81 < ref_sk.p := by
  refine ⟨rfl, rfl, rfl, rfl, by decide, by decide⟩

/-! ## Claim C35: the effective width of the noise -/

/-- C35. Effective noise width of the sampler: for every `k >= 1` that is not a
multiple of 64 and every sequence of drawn words, `generateRandom(k)` is below
`2 ^ (k mod 64)`; in particular the noise `r = generateRandom(80)` that
`encrypt` multiplies with `L` is below `2^16`, whatever is drawn. -/
theorem generateRandom_effective_width (k : Nat) (words : Nat → Nat)
    (_hk1 : 1 ≤ k) (hk : k % 64 ≠ 0) :
    generateRandom k words < 2 ^ (k % 64) ∧
    ∀ (m : Nat) (sk : SecretKey) (words80 words4096 : Nat → Nat),
      generateRandom 80 words80 < 2 ^ 16 ∧
      encrypt_drawn m sk words80 words4096
        = ((generateRandom 80 words80 * sk.L + m)
            * (1 + generateRandom 4096 words4096 * sk.p)) % sk.N :=
  ⟨generateRandom_lt_of_not_multiple k words hk,
    fun _ _ words80 _ => ⟨generateRandom_lt_of_not_multiple 80 words80 (by decide), rfl⟩⟩

/-- Witness of C35: `k = 80` with both drawn words equal to `2^64 - 1`. -/
theorem generateRandom_effective_width_witness :
    generateRandom 80 (fun _ => 2 ^ 64 - 1) < 2 ^ (80 % 64) :=
  (generateRandom_effective_width 80 (fun _ => 2 ^ 64 - 1) (by decide) (by decide)).1

/-! ## Claim C36: the indices the holder uses -/

/-- The `sign_list` of the holder has `total_data_size` entries. -/
theorem sign_list_length (P : HolderParams) (arr1 arr2 : List Int) (query : List Nat) :
    (sign_list P arr1 arr2 query).length = P.total_data_size := by
  simp [sign_list]

/-- The receive loop appends at most one number per unit of fuel. -/
theorem receive_loop_length_le (buffer : List Nat) (beyond : Nat → Nat) (fuel offset : Nat)
    (numbers : List Nat) :
    (receive_loop buffer beyond fuel offset numbers).length ≤ numbers.length + fuel := by
  induction fuel generalizing offset numbers with
  | zero => simp [receive_loop]
  | succ fuel ih =>
    simp only [receive_loop]
    split
    · have h2 := ih (offset + 4 + read_u32 buffer beyond offset)
        (numbers ++ [mpz_import (read_bytes buffer beyond (offset + 4)
          (read_u32 buffer beyond offset))])
      simp only [List.length_append, List.length_singleton] at h2
      omega
    · omega

/-- A byte read from a buffer of bytes is a byte. -/
theorem read_byte_lt (buffer : List Nat) (beyond : Nat → Nat) (i : Nat)
    (hb : ∀ b ∈ buffer, b < 256) : read_byte buffer beyond i < 256 := by
  unfold read_byte
  rw [List.getD_eq_getElem?_getD]
  cases h : buffer[i]? with
  | none => exact Nat.mod_lt _ (by decide)
  | some b => exact hb b (List.getElem?_mem h)

/-- A vector received from a stream of bytes has fewer than `2^32` elements:
the payload has fewer than `2^32` bytes and every record takes at least 4. -/
theorem received_length_lt (stream : List Nat) (beyond : Nat → Nat) (query : List Nat)
    (hbytes : ∀ b ∈ stream, b < 256)
    (hrecv : receive_multiple_mpz_class stream beyond = some query) :
    query.length < 2 ^ 32 := by
  unfold receive_multiple_mpz_class at hrecv
  split at hrecv
  · exact absurd hrecv (by simp)
  · simp only at hrecv
    split at hrecv
    · exact absurd hrecv (by simp)
    · have hq := Option.some.inj hrecv
      have hl := receive_loop_length_le
        ((stream.drop 4).take (read_u32 (stream.take 4) beyond 0)) beyond
        ((stream.drop 4).take (read_u32 (stream.take 4) beyond 0)).length 0 []
      rw [hq] at hl
      have ht : ∀ b ∈ stream.take 4, b < 256 := fun b hb => hbytes b (List.mem_of_mem_take hb)
      have h0 := read_byte_lt (stream.take 4) beyond 0 ht
      have h1 := read_byte_lt (stream.take 4) beyond (0 + 1) ht
      have h2 := read_byte_lt (stream.take 4) beyond (0 + 2) ht
      have h3 := read_byte_lt (stream.take 4) beyond (0 + 3) ht
      have hu : read_u32 (stream.take 4) beyond 0 < 2 ^ 32 := by
        unfold read_u32
        omega
      have hlen : ((stream.drop 4).take (read_u32 (stream.take 4) beyond 0)).length
          ≤ read_u32 (stream.take 4) beyond 0 := by
        rw [List.length_take]
        exact Nat.min_le_left _ _
      simp only [List.length_nil, Nat.zero_add] at hl
      omega

/-- The indices of the holder for a query of length `2 * m + 3`, `m` an `int`. -/
theorem holder_indices_in_bounds (query : List Nat) (m : Nat)
    (hlen : query.length = 2 * m + 3) (hm1 : 1 ≤ m) (hm2 : m < 2 ^ 31) :
    bf_length_of query.length = m ∧
    (∀ (v : Int) (j : Nat),
      hashr v (bf_length_of query.length) j < 2 * m ∧
      hashr v (bf_length_of query.length) j + bf_length_of query.length < 2 * m) ∧
    2 * m < query.length ∧ query.length - 3 < query.length ∧
    query.length - 2 < query.length ∧
    ∀ (arr1 arr2 : List Int) (u v : Nat → Nat → Nat) (x y : Int) (p i : Nat),
      p < 4 → i < 2190 →
      hasht x y 2048 0 + p * 2048 < 8192 ∧
      hasht x y server_params.lc_length 0 + p * server_params.lc_length
        < (lc_sketch_combined server_params arr1 arr2 query u v).length ∧
      p * server_params.data_size_per_provider + i
        < (sign_list server_params arr1 arr2 query).length := by
  have hbf : bf_length_of query.length = m := by
    rw [hlen]
    exact bf_length_of_query m hm2
  rw [hbf]
  refine ⟨rfl, fun v j => ?_, by omega, by omega, by omega, ?_⟩
  · have h := hashr_lt v m j hm1
    omega
  · intro arr1 arr2 u v x y p i hp hi
    have hh : hasht x y 2048 0 < 2048 := hasht_lt x y 2048 0 (by decide)
    have hl : (lc_sketch_combined server_params arr1 arr2 query u v).length = 8192 :=
      (lc_sketch_combined_bucket server_params arr1 arr2 query u v (by decide) 0 0
        (by decide) (by decide)).1
    have hs : (sign_list server_params arr1 arr2 query).length = 8760 :=
      sign_list_length server_params arr1 arr2 query
    refine ⟨by omega, ?_, ?_⟩
    · rw [hl]
      show hasht x y 2048 0 + p * 2048 < 8192
      omega
    · rw [hs]
      show p * 2190 + i < 8760
      omega

/-- C36. Holder index safety: for every query of length `2 * m + 3` with
`m >= 1` that the holder receives (decoded by `receive_multiple_mpz_class` from
a stream of bytes), `m` fits the `int` `bf_length`, the holder computes
`bf_length = m`, and every index it uses lies in bounds: `hashr(v, m, j)` and
`hashr(v, m, j) + m` are below `2 * m`, inside the query, as are the indices
`size - 3` and `size - 2`; and for every record `i < 2190` of a provider
`p < 4` the index `hasht(x, y, 2048, 0) + p * 2048` is below 8192, the length
of the sketch vector, and `data_index = p * 2190 + i` is inside `sign_list`. -/
theorem holder_index_safety (stream : List Nat) (beyond : Nat → Nat) (query : List Nat)
    (m : Nat) (hbytes : ∀ b ∈ stream, b < 256)
    (hrecv : receive_multiple_mpz_class stream beyond = some query)
    (hlen : query.length = 2 * m + 3) (hm1 : 1 ≤ m) :
    m < 2 ^ 31 ∧
    bf_length_of query.length = m ∧
    (∀ (v : Int) (j : Nat),
      hashr v (bf_length_of query.length) j < 2 * m ∧
      hashr v (bf_length_of query.length) j + bf_length_of query.length < 2 * m) ∧
    2 * m < query.length ∧ query.length - 3 < query.length ∧
    query.length - 2 < query.length ∧
    ∀ (arr1 arr2 : List Int) (u v : Nat → Nat → Nat) (x y : Int) (p i : Nat),
      p < 4 → i < 2190 →
      hasht x y 2048 0 + p * 2048 < 8192 ∧
      hasht x y server_params.lc_length 0 + p * server_params.lc_length
        < (lc_sketch_combined server_params arr1 arr2 query u v).length ∧
      p * server_params.data_size_per_provider + i
        < (sign_list server_params arr1 arr2 query).length := by
  have hq := received_length_lt stream beyond query hbytes hrecv
  have hm2 : m < 2 ^ 31 := by omega
  exact ⟨hm2, holder_indices_in_bounds query m hlen hm1 hm2⟩

/-- Witness of C36: the frame of the five-element query `[14, 14, 0, 0, 15]`
(`m = 1`). -/
theorem holder_index_safety_witness :
    receive_multiple_mpz_class (send_multiple_mpz_class toy_query) (fun _ => 0)
        = some toy_query ∧
    bf_length_of toy_query.length = 1 ∧
    ∀ (v : Int) (j : Nat),
      hashr v (bf_length_of toy_query.length) j < 2 * 1 ∧
      hashr v (bf_length_of toy_query.length) j + bf_length_of toy_query.length < 2 * 1 :=
  ⟨by decide,
    (holder_index_safety (send_multiple_mpz_class toy_query) (fun _ => 0) toy_query 1
      (by decide) (by decide) (by decide) (by decide)).2.1,
    (holder_index_safety (send_multiple_mpz_class toy_query) (fun _ => 0) toy_query 1
      (by decide) (by decide) (by decide) (by decide)).2.2.1⟩

/-! ## Claim C33: the ground truth of the reference scenario -/

/-- Reading a list of integers after one `set`. -/
theorem getD_set_int (l : List Int) (i j : Nat) (a d : Int) :
    (l.set i a).getD j d = if i = j ∧ i < l.length then a else l.getD j d := by
  simp only [List.getD_eq_getElem?_getD, List.getElem?_set]
  by_cases h : i = j
  · subst h
    by_cases h2 : i < l.length
    · simp [h2]
    · simp [h2, List.getElem?_eq_none (Nat.le_of_not_lt h2)]
  · simp [h]

/-- The inner loop of the data generation: entries `off + i`, `i < n`, are set
to `val i`. -/
theorem foldl_set_range_int (n off : Nat) (val : Nat → Int) (s : List Int) :
    ((List.range n).foldl (fun (arr : List Int) (i : Nat) => arr.set (off + i) (val i)) s).length
      = s.length ∧
    ∀ k, ((List.range n).foldl
        (fun (arr : List Int) (i : Nat) => arr.set (off + i) (val i)) s).getD k 0
      = if off ≤ k ∧ k < off + n ∧ k < s.length then val (k - off) else s.getD k 0 := by
  induction n with
  | zero =>
    refine ⟨rfl, fun k => ?_⟩
    simp only [List.range_zero, List.foldl_nil]
    rw [if_neg (by omega)]
  | succ n ih =>
    obtain ⟨ih1, ih2⟩ := ih
    rw [List.range_succ, List.foldl_append]
    simp only [List.foldl_cons, List.foldl_nil, List.length_set]
    refine ⟨ih1, fun k => ?_⟩
    rw [getD_set_int, ih1, ih2 k]
    by_cases h1 : off + n = k
    · subst h1
      by_cases h2 : off + n < s.length
      · rw [if_pos ⟨rfl, h2⟩, if_pos (by omega)]
        congr 1
        omega
      · rw [if_neg (by omega), if_neg (by omega), if_neg (by omega)]
    · rw [if_neg (by omega)]
      by_cases h3 : off ≤ k ∧ k < off + n ∧ k < s.length
      · rw [if_pos h3, if_pos (by omega)]
      · rw [if_neg h3, if_neg (by omega)]

/-- The generated data after the first `n` providers: record `k` below
`n * data_size_per_provider` holds `k mod D + k div D`, the others are `0`. -/
theorem generated_data_fold (P : HolderParams) (n : Nat) (hn : n ≤ P.server_number) :
    ((List.range n).foldl
      (fun (arr : List Int) (p : Nat) => (List.range P.data_size_per_provider).foldl
        (fun (arr : List Int) (i : Nat) =>
          arr.set (p * P.data_size_per_provider + i) ((i : Int) + (p : Int))) arr)
      (List.replicate P.total_data_size 0)).length = P.total_data_size ∧
    ∀ k, ((List.range n).foldl
      (fun (arr : List Int) (p : Nat) => (List.range P.data_size_per_provider).foldl
        (fun (arr : List Int) (i : Nat) =>
          arr.set (p * P.data_size_per_provider + i) ((i : Int) + (p : Int))) arr)
      (List.replicate P.total_data_size 0)).getD k 0
      = if k < n * P.data_size_per_provider then
          ((k % P.data_size_per_provider : Nat) : Int) + ((k / P.data_size_per_provider : Nat) : Int)
        else 0 := by
  induction n with
  | zero =>
    refine ⟨by simp, fun k => ?_⟩
    simp only [List.range_zero, List.foldl_nil, Nat.zero_mul, Nat.not_lt_zero, if_false]
    rw [List.getD_eq_getElem?_getD, List.getElem?_replicate]
    split <;> rfl
  | succ n ih =>
    obtain ⟨ih1, ih2⟩ := ih (by omega)
    rw [List.range_succ, List.foldl_append]
    simp only [List.foldl_cons, List.foldl_nil]
    obtain ⟨f1, f2⟩ := foldl_set_range_int P.data_size_per_provider
      (n * P.data_size_per_provider) (fun i => (i : Int) + (n : Int))
      ((List.range n).foldl
        (fun (arr : List Int) (p : Nat) => (List.range P.data_size_per_provider).foldl
          (fun (arr : List Int) (i : Nat) =>
            arr.set (p * P.data_size_per_provider + i) ((i : Int) + (p : Int))) arr)
        (List.replicate P.total_data_size 0))
    refine ⟨f1.trans ih1, fun k => ?_⟩
    rw [f2 k, ih1, ih2 k]
    have htot : (n + 1) * P.data_size_per_provider ≤ P.total_data_size := by
      unfold HolderParams.total_data_size
      rw [Nat.mul_comm P.data_size_per_provider]
      exact Nat.mul_le_mul_right _ hn
    have hsucc : (n + 1) * P.data_size_per_provider
        = n * P.data_size_per_provider + P.data_size_per_provider := by ring
    by_cases h1 : n * P.data_size_per_provider ≤ k ∧
        k < n * P.data_size_per_provider + P.data_size_per_provider ∧ k < P.total_data_size
    · rw [if_pos h1, if_pos (by omega)]
      have hD : 0 < P.data_size_per_provider := by omega
      have hk : k = (k - n * P.data_size_per_provider) + n * P.data_size_per_provider := by omega
      have hr : k - n * P.data_size_per_provider < P.data_size_per_provider := by omega
      have hmod : k % P.data_size_per_provider = k - n * P.data_size_per_provider := by
        conv_lhs => rw [hk]
        rw [Nat.add_mul_mod_self_right, Nat.mod_eq_of_lt hr]
      have hdiv : k / P.data_size_per_provider = n := by
        conv_lhs => rw [hk]
        rw [Nat.add_mul_div_right _ _ hD, Nat.div_eq_of_lt hr, Nat.zero_add]
      rw [hmod, hdiv]
    · rw [if_neg h1]
      by_cases h2 : k < n * P.data_size_per_provider
      · rw [if_pos h2, if_pos (by omega)]
      · rw [if_neg h2, if_neg (by omega)]

/-- The data the holder generates: `total_data_size` records, record
`p * D + i` holding `i + p`. -/
theorem generated_data_spec (P : HolderParams) :
    (generated_data P).length = P.total_data_size ∧
    ∀ k, k < P.total_data_size →
      (generated_data P).getD k 0
        = ((k % P.data_size_per_provider : Nat) : Int)
          + ((k / P.data_size_per_provider : Nat) : Int) := by
  obtain ⟨h1, h2⟩ := generated_data_fold P P.server_number (Nat.le_refl _)
  refine ⟨h1, fun k hk => ?_⟩
  have := h2 k
  rw [if_pos (by
    unfold HolderParams.total_data_size at hk
    rw [Nat.mul_comm]
    exact hk)] at this
  exact this

/-- The records in `[0, 100) x [0, 100)` of a data set whose record `k < 8760`
is `(g k, g k)` with `g k = k mod 2190 + k div 2190` are the 100 pairs
`(t, t)`, `t < 100`. -/
theorem true_range_count_of_diagonal (arr : List Int)
    (hg : ∀ k, k < 8760 → arr.getD k 0 = ((k % 2190 : Nat) : Int) + ((k / 2190 : Nat) : Int)) :
    spec_true_range_count 0 100 0 100 arr arr 8760 = 100 := by
  unfold spec_true_range_count
  rw [← List.card_toFinset]
  have himg : (((List.range 8760).map (fun k => (arr.getD k 0, arr.getD k 0))).filter
      (fun r => decide ((0 : Int) ≤ r.1 ∧ r.1 < 100 ∧ (0 : Int) ≤ r.2 ∧ r.2 < 100))).toFinset
      = (Finset.range 100).image (fun (t : Nat) => ((t : Int), (t : Int))) := by
    ext r
    simp only [List.mem_toFinset, List.mem_filter, List.mem_map, List.mem_range,
      Finset.mem_image, Finset.mem_range, decide_eq_true_eq]
    constructor
    · rintro ⟨⟨k, hk, rfl⟩, h1, h2, -, -⟩
      rw [hg k hk] at h1 h2 ⊢
      refine ⟨k % 2190 + k / 2190, by omega, ?_⟩
      push_cast
      rfl
    · rintro ⟨t, ht, rfl⟩
      refine ⟨⟨t, by omega, ?_⟩, by omega, by omega, by omega, by omega⟩
      rw [hg t (by omega)]
      have e1 : t % 2190 = t := Nat.mod_eq_of_lt (by omega)
      have e2 : t / 2190 = 0 := Nat.div_eq_of_lt (by omega)
      rw [e1, e2]
      simp
  rw [himg, Finset.card_image_of_injective _ (fun a b h => by
    have := congrArg Prod.fst h
    exact Int.ofNat.inj this), Finset.card_range]

/-- C33. Reference scenario ground truth: the data set the holder generates has
`4 * 2190 = 8760` records, record `i` of provider `p` being `(i + p, i + p)`;
the number of distinct records of it that lie in the client's range
`[0, 100) x [0, 100)` is exactly 100, the value the client prints as the true
range count. -/
theorem reference_ground_truth :
    (generated_data server_params).length = 8760 ∧
    (∀ p i : Nat, p < 4 → i < 2190 →
      (generated_data server_params).getD (p * 2190 + i) 0 = (i : Int) + (p : Int)) ∧
    spec_true_range_count 0 100 0 100 (generated_data server_params)
      (generated_data server_params) server_params.total_data_size = 100 ∧
    printed_true_count = 100 := by
  obtain ⟨h1, h2⟩ := generated_data_spec server_params
  have hg : ∀ k, k < 8760 → (generated_data server_params).getD k 0
      = ((k % 2190 : Nat) : Int) + ((k / 2190 : Nat) : Int) := h2
  refine ⟨h1, fun p i hp hi => ?_, true_range_count_of_diagonal _ hg, rfl⟩
  rw [hg (p * 2190 + i) (by omega)]
  have e1 : (p * 2190 + i) % 2190 = i := by omega
  have e2 : (p * 2190 + i) / 2190 = p := by omega
  rw [e1, e2]

/-! ## Claim C34: the separator makes the hash keys injective -/

/-- The characters `decimal_digits` produces are decimal digits. -/
theorem decimal_digits_chars (fuel n : Nat) (acc : List Nat)
    (hacc : ∀ c ∈ acc, 48 ≤ c ∧ c ≤ 57) :
    ∀ c ∈ decimal_digits fuel n acc, 48 ≤ c ∧ c ≤ 57 := by
  induction fuel generalizing n acc with
  | zero => simpa [decimal_digits] using hacc
  | succ fuel ih =>
    simp only [decimal_digits]
    split
    · next h =>
      intro c hc
      rcases List.mem_cons.mp hc with rfl | hc
      · omega
      · exact hacc c hc
    · apply ih
      intro c hc
      rcases List.mem_cons.mp hc with rfl | hc
      · omega
      · exact hacc c hc

/-- Reading the digits back gives the number. -/
theorem decimal_digits_value (fuel n : Nat) (acc : List Nat) (h : n < fuel) :
    (decimal_digits fuel n acc).foldl (fun a c => a * 10 + (c - 48)) 0
      = acc.foldl (fun a c => a * 10 + (c - 48)) n := by
  induction fuel generalizing n acc with
  | zero => omega
  | succ fuel ih =>
    simp only [decimal_digits]
    split
    · next h10 =>
      simp only [List.foldl_cons]
      congr 1
      omega
    · next h10 =>
      rw [ih (n / 10) _ (by omega)]
      simp only [List.foldl_cons]
      congr 1
      omega

/-- The digits of a number determine it. -/
theorem decimal_digits_injective (n n' : Nat)
    (h : decimal_digits (n + 1) n [] = decimal_digits (n' + 1) n' []) : n = n' := by
  have h1 := decimal_digits_value (n + 1) n [] (by omega)
  have h2 := decimal_digits_value (n' + 1) n' [] (by omega)
  rw [h] at h1
  rw [h1] at h2
  simpa using h2

/-- The characters of `to_string x` are the minus sign or digits: never the
separator. -/
theorem to_string_no_separator (x : Int) : (124 : Nat) ∉ to_string x := by
  intro hmem
  have hd := decimal_digits_chars (x.natAbs + 1) x.natAbs [] (by simp)
  unfold to_string at hmem
  split at hmem
  · rcases List.mem_cons.mp hmem with h | h
    · omega
    · have := hd 124 h
      omega
  · have := hd 124 hmem
    omega

/-- The function `to_string` is injective. -/
theorem to_string_injective (x x' : Int) (h : to_string x = to_string x') : x = x' := by
  have hd := decimal_digits_chars (x.natAbs + 1) x.natAbs [] (by simp)
  have hd' := decimal_digits_chars (x'.natAbs + 1) x'.natAbs [] (by simp)
  unfold to_string at h
  by_cases hx : x < 0
  · by_cases hx' : x' < 0
    · rw [if_pos hx, if_pos hx'] at h
      have := decimal_digits_injective _ _ (List.cons.inj h).2
      omega
    · rw [if_pos hx, if_neg hx'] at h
      have := hd' 45 (by rw [← h]; exact List.mem_cons_self _ _)
      omega
  · by_cases hx' : x' < 0
    · rw [if_neg hx, if_pos hx'] at h
      have := hd 45 (by rw [h]; exact List.mem_cons_self _ _)
      omega
    · rw [if_neg hx, if_neg hx'] at h
      have := decimal_digits_injective _ _ h
      omega

/-- Two lists without the separator that are followed by the separator split
a string at the same place. -/
theorem split_at_separator (A A' R R' : List Nat) (hA : (124 : Nat) ∉ A) (hA' : (124 : Nat) ∉ A')
    (h : A ++ 124 :: R = A' ++ 124 :: R') : A = A' ∧ R = R' := by
  induction A generalizing A' with
  | nil =>
    cases A' with
    | nil => exact ⟨rfl, (List.cons.inj h).2⟩
    | cons a' A' =>
      exfalso
      have := (List.cons.inj h).1
      exact hA' (by rw [← this]; exact List.mem_cons_self _ _)
  | cons a A ih =>
    cases A' with
    | nil =>
      exfalso
      have := (List.cons.inj h).1
      exact hA (by rw [this]; exact List.mem_cons_self _ _)
    | cons a' A' =>
      obtain ⟨h1, h2⟩ := List.cons.inj h
      obtain ⟨e1, e2⟩ := ih A' (fun hm => hA (List.mem_cons_of_mem _ hm))
        (fun hm => hA' (List.mem_cons_of_mem _ hm)) h2
      exact ⟨by rw [h1, e1], e2⟩

/-- C34. The separator makes hash keys injective: the key
`decimal(x) | decimal(y) | decimal(length)` of `hasht` (the key that `hasht`
hashes) determines `x`, `y` and `length`, so for one `length` two keys are
equal only if `x = x'` and `y = y'`; the key `decimal(x) | decimal(y)` of
`LinearCounting::insert` (the key that `insert` hashes) determines `x` and `y`;
the pairs `(12, 3)` and `(1, 23)` get different keys. -/
theorem separator_keys_injective (x y x' y' length length' : Int) :
    (hasht_key x y length = hasht_key x' y' length' ↔ x = x' ∧ y = y' ∧ length = length') ∧
    (hasht_key x y length = hasht_key x' y' length ↔ x = x' ∧ y = y') ∧
    (LinearCounting.insert_key x y = LinearCounting.insert_key x' y' ↔ x = x' ∧ y = y') ∧
    LinearCounting.insert_key 12 3 ≠ LinearCounting.insert_key 1 23 ∧
    (∀ (l seed : Nat),
      hasht x y l seed = MurmurHash3_x86_32 (hasht_key x y (l : Int)) seed % l) ∧
    (∀ (lc : LinearCounting) (seed : Nat),
      (lc.insert seed x y).bits
          = lc.bits.set (MurmurHash3_x86_32 (LinearCounting.insert_key x y) seed % lc.size) 1 ∧
        (lc.insert seed x y).size = lc.size) := by
  have key3 : ∀ l l' : Int, hasht_key x y l = hasht_key x' y' l' →
      x = x' ∧ y = y' ∧ l = l' := by
    intro l l' h
    unfold hasht_key at h
    simp only [List.append_assoc, List.singleton_append] at h
    obtain ⟨h1, h2⟩ := split_at_separator _ _ _ _ (to_string_no_separator x)
      (to_string_no_separator x') h
    obtain ⟨h3, h4⟩ := split_at_separator _ _ _ _ (to_string_no_separator y)
      (to_string_no_separator y') h2
    exact ⟨to_string_injective _ _ h1, to_string_injective _ _ h3, to_string_injective _ _ h4⟩
  have key2 : LinearCounting.insert_key x y = LinearCounting.insert_key x' y' →
      x = x' ∧ y = y' := by
    intro h
    unfold LinearCounting.insert_key at h
    simp only [List.append_assoc, List.singleton_append] at h
    obtain ⟨h1, h2⟩ := split_at_separator _ _ _ _ (to_string_no_separator x)
      (to_string_no_separator x') h
    exact ⟨to_string_injective _ _ h1, to_string_injective _ _ h2⟩
  refine ⟨⟨key3 length length', ?_⟩, ⟨fun h => ?_, ?_⟩, ⟨key2, ?_⟩, by decide,
    fun _ _ => rfl, fun _ _ => ⟨rfl, rfl⟩⟩
  · rintro ⟨rfl, rfl, rfl⟩
    rfl
  · obtain ⟨h1, h2, -⟩ := key3 length length h
    exact ⟨h1, h2⟩
  · rintro ⟨rfl, rfl⟩
    rfl
  · rintro ⟨rfl, rfl⟩
    rfl

/-! ## Claim C10: the estimate in double arithmetic -/

end PPRC
